import Mathlib

/-!
# Verification of the ARnext Conversational Query Engine

A shallow embedding, over `List Char`, of the SQL safety gate
(`backend/db/sql_safety.py`), the retry/repair logic of
`SalesGPTCore.run_sql_from_question` (`backend/llm/chain.py`), and the two
chat orchestrators (`backend/app/api.py` `chat` and
`backend/app/services/chat_service.py` `ChatService.process_message`).

Python strings are modelled as `List Char` (the inputs of interest are
ASCII, so Python's Unicode-aware `str.lower`, `\w`, `\s`, `\d` coincide
with their ASCII readings used here).  Each regular expression occurring
in the source is hand-compiled to an explicit scanner, following the
leftmost-match, greedy-quantifier semantics of Python's `re` module.
-/

namespace ARnext

/-- Strings as character lists. -/
abbrev Str := List Char

/-! ## Character classes and Python string primitives -/

/-- Python whitespace (`str.strip()` default set / regex `\s`, ASCII). -/
def isPySpace (c : Char) : Bool :=
  c == ' ' || c == '\t' || c == '\n' || c == '\r' ||
  c == Char.ofNat 11 || c == Char.ofNat 12

/-- Regex `\w` (ASCII): letters, digits, underscore. -/
def isWordChar (c : Char) : Bool :=
  ('a' ≤ c && c ≤ 'z') || ('A' ≤ c && c ≤ 'Z') || ('0' ≤ c && c ≤ '9') || c == '_'

/-- Regex `\d` (ASCII). -/
def isDigitChar (c : Char) : Bool := '0' ≤ c && c ≤ '9'

/-- ASCII lower-casing of one character (Python `str.lower` on ASCII). -/
def lowerChar (c : Char) : Char :=
  if 'A' ≤ c && c ≤ 'Z' then Char.ofNat (c.toNat + 32) else c

/-- Lower-case a string. -/
def lowerStr (s : Str) : Str := s.map lowerChar

/-- Python `str.lstrip` with an arbitrary character predicate. -/
def lstrip (p : Char → Bool) (s : Str) : Str := s.dropWhile p

/-- Python `str.rstrip` with an arbitrary character predicate. -/
def rstrip (p : Char → Bool) (s : Str) : Str := (s.reverse.dropWhile p).reverse

/-- Python `str.strip()` (whitespace both ends). -/
def pyStrip (s : Str) : Str := rstrip isPySpace (lstrip isPySpace s)

/-- Python `str.strip(c)` for a single character `c`. -/
def stripChar (c : Char) (s : Str) : Str :=
  rstrip (· == c) (lstrip (· == c) s)

/-- Substring test: Python `pat in s`. -/
def containsSub (pat : Str) : Str → Bool
  | [] => pat.isEmpty
  | c :: rest => pat.isPrefixOf (c :: rest) || containsSub pat rest

/-- The text after the first occurrence of `pat` (Python `s.split(pat, 1)[1]`,
assuming the pattern occurs). -/
def afterFirst (pat : Str) : Str → Str
  | [] => []
  | c :: rest =>
    if pat.isPrefixOf (c :: rest) then (c :: rest).drop pat.length
    else afterFirst pat rest

/-! ## Word-boundary scanning (regex `\b...\b`, case-insensitive)

`prev` carries the character immediately before the current position
(`none` at the start of the string), which is all `\b` needs for the
purely alphanumeric words used in the source. -/

/-- `\b` holds between `prev` and a word character. -/
def wordBoundaryOk (prev : Option Char) : Bool :=
  match prev with
  | none => true
  | some c => !isWordChar c

/-- Does the (lower-case, alphabetic) word `w` match at the head of `s`,
with `\b` on both sides, case-insensitively? -/
def wordMatchAt (w : Str) (prev : Option Char) (s : Str) : Bool :=
  wordBoundaryOk prev && w.isPrefixOf (lowerStr s) &&
    (match s.drop w.length with
     | [] => true
     | c :: _ => !isWordChar c)

/-- Scan of `re.search(r"\bW\b", s, re.IGNORECASE)`. -/
def containsWordAux (w : Str) (prev : Option Char) : Str → Bool
  | [] => false
  | c :: rest => wordMatchAt w prev (c :: rest) || containsWordAux w (some c) rest

/-- `re.search(r"\bW\b", s, re.IGNORECASE) is not None` for a word `W`. -/
def containsWord (w s : Str) : Bool := containsWordAux w none s

/-! ## `extract_sql` (sql_safety.py lines 14–22) -/

/-- Content up to (excluding) the first "```" (the lazy `(.*?)` of the
fence regex), or `none` if no closing fence exists. -/
def takeUntilTicks : Str → Option Str
  | '`' :: '`' :: '`' :: _ => some []
  | [] => none
  | c :: rest => (takeUntilTicks rest).map (c :: ·)

/-- `re.search(r"```sql\s*(.*?)```", t, re.IGNORECASE | re.DOTALL)`:
the group of the leftmost match, with its leading whitespace removed
(the greedy `\s*`). -/
def fenceBody : Str → Option Str
  | [] => none
  | c :: rest =>
    if ("```sql".data).isPrefixOf (lowerStr (c :: rest)) then
      match takeUntilTicks (lstrip isPySpace ((c :: rest).drop 6)) with
      | some body => some body
      | none => fenceBody rest
    else fenceBody rest

/-- `extract_sql` from `backend/db/sql_safety.py`. -/
def extract_sql (t : Str) : Str :=
  if t.isEmpty then []
  else
    match fenceBody t with
    | some body => pyStrip body
    | none =>
      if containsSub ("SQLQuery:".data) t then
        pyStrip (afterFirst ("SQLQuery:".data) t)
      else pyStrip (stripChar '`' (pyStrip t))

/-! ## `is_select_only` (sql_safety.py lines 24–34) -/

/-- The `FORBIDDEN_SQL` word list (each searched as `\bW\b`, ignore-case). -/
def FORBIDDEN : List Str :=
  ["insert".data, "update".data, "delete".data, "drop".data, "alter".data,
   "truncate".data, "create".data, "grant".data, "revoke".data]

/-- `is_select_only` from `backend/db/sql_safety.py`. -/
def is_select_only (sql : Str) : Bool :=
  let s := pyStrip sql
  if !(("select".data).isPrefixOf (lowerStr s)) then false
  else if FORBIDDEN.any (fun w => containsWord w s) then false
  else if containsSub [';'] (rstrip (· == ';') (rstrip isPySpace s)) then false
  else true

/-! ## `ensure_limit` (sql_safety.py lines 36–56) -/

/-- The aggregate word list of `\b(SUM|COUNT|AVG|MIN|MAX)\s*\(`. -/
def AGG_WORDS : List Str :=
  ["sum".data, "count".data, "avg".data, "min".data, "max".data]

/-- Does `\b(SUM|COUNT|AVG|MIN|MAX)\s*\(` match at the head of `s`? -/
def aggMatchAt (prev : Option Char) (s : Str) : Bool :=
  AGG_WORDS.any fun w =>
    wordBoundaryOk prev && w.isPrefixOf (lowerStr s) &&
      (match lstrip isPySpace (s.drop w.length) with
       | '(' :: _ => true
       | _ => false)

/-- Scan of the aggregate regex. -/
def hasAggAux (prev : Option Char) : Str → Bool
  | [] => false
  | c :: rest => aggMatchAt prev (c :: rest) || hasAggAux (some c) rest

/-- `re.search(r'\b(SUM|COUNT|AVG|MIN|MAX)\s*\(', sql, re.IGNORECASE)`. -/
def hasAgg (s : Str) : Bool := hasAggAux none s

/-- Decimal digits to a natural number (Python `int` on a digit string). -/
def digitsToNat (s : Str) : Nat :=
  s.foldl (fun a c => a * 10 + (c.toNat - 48)) 0

/-- A successful match of `\bLIMIT\s+(\d+)\b` at the current position:
the parsed group value, the last matched character (a digit, used as the
`prev` context when scanning resumes), and the remaining input. -/
structure LimitHit where
  value : Nat
  last : Char
  rem : Str
  deriving Repr, DecidableEq

/-- The greedy `\s+` run after the literal `LIMIT`. -/
def limitSp (s : Str) : Str := (s.drop 5).takeWhile isPySpace

/-- The greedy `\d+` run after the whitespace. -/
def limitDg (s : Str) : Str :=
  ((s.drop 5).drop (limitSp s).length).takeWhile isDigitChar

/-- What remains of `s` after the `\bLIMIT\s+\d+\b` span. -/
def limitTail (s : Str) : Str :=
  ((s.drop 5).drop (limitSp s).length).drop (limitDg s).length

/-- Match `\bLIMIT\s+(\d+)\b` (ignore-case) at the head of `s`;
`\s+`/`\d+` are greedy, and the trailing `\b` demands a non-word
character (or the end) after the digits. -/
def limitMatchAt (prev : Option Char) (s : Str) : Option LimitHit :=
  if wordBoundaryOk prev && ("limit".data).isPrefixOf (lowerStr s)
      && !(limitSp s).isEmpty && !(limitDg s).isEmpty
      && !((limitTail s).head?.any isWordChar) then
    some ⟨digitsToNat (limitDg s), (limitDg s).getLastD '0', limitTail s⟩
  else none

/-- First match value of `re.search(r'\bLIMIT\s+(\d+)\b', sql, re.IGNORECASE)`. -/
def findLimitAux (prev : Option Char) : Str → Option Nat
  | [] => none
  | c :: rest =>
    match limitMatchAt prev (c :: rest) with
    | some hit => some hit.value
    | none => findLimitAux (some c) rest

/-- The `int(limit_match.group(1))` of the first `\bLIMIT\s+(\d+)\b` match. -/
def findLimit (s : Str) : Option Nat := findLimitAux none s

/-- Decimal rendering of a natural number (`str(n)` in Python); the fuel
makes the recursion structural and `n + 1` always suffices. -/
def natDigitsAux : Nat → Nat → Str
  | 0, _ => []
  | f + 1, n =>
    if n < 10 then [Char.ofNat (48 + n)]
    else natDigitsAux f (n / 10) ++ [Char.ofNat (48 + n % 10)]

def natDigits (n : Nat) : Str := natDigitsAux (n + 1) n

/-- The replacement text `f'LIMIT {m}'`. -/
def limitRepl (m : Nat) : Str := "LIMIT ".data ++ natDigits m

lemma limitTail_length (s : Str) : (limitTail s).length ≤ s.length - 5 := by
  simp [limitTail]
  omega

lemma limitMatchAt_rem {prev : Option Char} {s : Str} {hit : LimitHit}
    (h : limitMatchAt prev s = some hit) : hit.rem = limitTail s := by
  unfold limitMatchAt at h
  split at h
  · cases h; rfl
  · exact absurd h (by simp)

/-- `re.sub(r'\bLIMIT\s+\d+\b', f'LIMIT {m}', sql, flags=re.IGNORECASE)`:
replace every (leftmost, non-overlapping) match.  The `fuel` argument
only makes the recursion structural; any `fuel ≥ s.length` computes the
substitution (each step consumes at least one character of `s`). -/
def subLimitAux (m : Nat) : Nat → Option Char → Str → Str
  | 0, _, s => s
  | _ + 1, _, [] => []
  | fuel + 1, prev, c :: rest =>
    match limitMatchAt prev (c :: rest) with
    | some hit => limitRepl m ++ subLimitAux m fuel (some hit.last) hit.rem
    | none => c :: subLimitAux m fuel (some c) rest

/-- Replace all `LIMIT n` clauses by `LIMIT m`. -/
def subLimitAll (s : Str) (m : Nat) : Str := subLimitAux m s.length none s

/-- `ensure_limit` from `backend/db/sql_safety.py`. -/
def ensure_limit (sql : Str) (d : Nat) : Str :=
  if hasAgg sql then sql
  else
    match findLimit sql with
    | some n => subLimitAll sql (min n d)
    | none => rstrip (· == ';') (pyStrip sql) ++ '\n' :: limitRepl d

/-! ## `enforce_allowlist` (sql_safety.py lines 58–64) -/

def BLOCKED_SCHEMAS : List Str := ["pg_catalog".data, "information_schema".data]

/-- `enforce_allowlist` as a boolean check (the Python function raises
`ValueError` exactly when this returns `false`). -/
def enforce_allowlist_ok (allowed : List Str) (sql : Str) : Bool :=
  let s := lowerStr sql
  if BLOCKED_SCHEMAS.any (fun b => containsSub b s) then false
  else if allowed.isEmpty then true
  else allowed.any (fun t => containsSub (lowerStr t) s)

/-! ## The auto-fix regex of `run_sql_from_question` (chain.py line 178)

The source reads `re.sub(r'\\s*LIMIT\\s+\\d+', '', sql, flags=re.IGNORECASE)`.
In a *raw* string each `\\` is two characters, so the compiled regex is:
literal backslash, `s*` (zero or more `s`/`S`), `LIMIT` (ignore-case),
literal backslash, `s+`, literal backslash, `d+`.  It matches text such
as `\LIMIT\s\d` — never an ordinary SQL `LIMIT n` clause. -/

def isSChar (c : Char) : Bool := c == 's' || c == 'S'
def isDChar (c : Char) : Bool := c == 'd' || c == 'D'

/-- Match the (doubled-backslash) auto-fix pattern at the head of `s`,
returning the remainder after the match. -/
def autofixMatchAt (s : Str) : Option Str :=
  match s with
  | '\\' :: r1 =>
    let r2 := r1.dropWhile isSChar
    if ("limit".data).isPrefixOf (lowerStr r2) then
      match r2.drop 5 with
      | '\\' :: r3 =>
        let sp := r3.takeWhile isSChar
        if sp.isEmpty then none
        else
          match r3.drop sp.length with
          | '\\' :: r4 =>
            let dg := r4.takeWhile isDChar
            if dg.isEmpty then none else some (r4.drop dg.length)
          | _ => none
      | _ => none
    else none
  | _ => none

/-- `re.sub` of the auto-fix pattern with the empty replacement
(`fuel ≥ s.length` computes it; each step consumes a character). -/
def autofixStripAux : Nat → Str → Str
  | 0, s => s
  | _ + 1, [] => []
  | fuel + 1, c :: rest =>
    match autofixMatchAt (c :: rest) with
    | some rem => autofixStripAux fuel rem
    | none => c :: autofixStripAux fuel rest

/-- The `sql_fixed = re.sub(r'\\s*LIMIT\\s+\\d+', '', sql, ...)` step. -/
def autofixStrip (s : Str) : Str := autofixStripAux s.length s

/-! ## `run_sql_from_question` (chain.py lines 141–191)

The language-model query writer and the SQL executor are oracles.  The
executor either returns a serialized result string or raises with a
message; a returned result that itself embeds an error marker is
re-raised by the source (chain.py lines 163–166). -/

/-- One call to `QuerySQLDatabaseTool`: a returned payload or an exception. -/
inductive ExecRes where
  | ok (r : Str)
  | exn (msg : Str)
  deriving Repr, DecidableEq

/-- The error taxonomy of the validation/execution path (the Python code
raises `ValueError` in all three situations; the spec names them
`UnsafeQueryError`, `SchemaViolationError` and fatal execution failure). -/
inductive SqlErr where
  | unsafeQuery (sql : Str)
  | schemaViolation (sql : Str)
  | execFailed (origMsg : Str) (origSql : Str)
  deriving Repr, DecidableEq

/-- The dictionary returned on success. -/
structure SqlOut where
  question : Str
  query : Str
  result : Str
  deriving Repr, DecidableEq

/-- chain.py lines 163–166: does a *returned* payload embed an error? -/
def resultEmbedsError (r : Str) : Bool :=
  let l := lowerStr r
  containsSub ("error".data) l &&
    (containsSub ("syntax".data) l || containsSub ("relation".data) l ||
     containsSub ("column".data) l || containsSub ("limit".data) l)

/-- One execution attempt: invoke the executor, re-raising embedded errors. -/
def execAttempt (exec : Str → ExecRes) (q : Str) : Except Str Str :=
  match exec q with
  | .ok r =>
    if resultEmbedsError r then .error ("SQL Error in result: ".data ++ r)
    else .ok r
  | .exn m => .error m

/-- chain.py line 175: is the caught error retryable? -/
def retryable (m : Str) : Bool :=
  containsSub ("limit".data) (lowerStr m) ||
  containsSub ("syntax error".data) (lowerStr m)

/-- Result of `run_sql_from_question` together with the list of queries
actually sent to the executor, in order. -/
structure RunResult where
  out : Except SqlErr SqlOut
  executed : List Str
  deriving Repr

/-- `SalesGPTCore.run_sql_from_question` (chain.py lines 141–191), with
the raw query-writer output `raw` as an input. -/
def run_sql_from_question (exec : Str → ExecRes) (allowed : List Str) (d : Nat)
    (question raw : Str) : RunResult :=
  let sql0 := extract_sql raw
  if !(is_select_only sql0) then ⟨.error (.unsafeQuery sql0), []⟩
  else if !(enforce_allowlist_ok allowed sql0) then ⟨.error (.schemaViolation sql0), []⟩
  else
    let sql := ensure_limit sql0 d
    match execAttempt exec sql with
    | .ok r => ⟨.ok ⟨question, sql, r⟩, [sql]⟩
    | .error m =>
      if retryable m then
        let sqlF := ensure_limit (autofixStrip sql) d
        match execAttempt exec sqlF with
        | .ok r => ⟨.ok ⟨question, sqlF, r⟩, [sql, sqlF]⟩
        | .error _ => ⟨.error (.execFailed m sql), [sql, sqlF]⟩
      else ⟨.error (.execFailed m sql), [sql]⟩

/-! ## Intent classification (api.py lines 47–140, chain.py lines 26–28) -/

/-- `^(alts)[\s!.]*$` via `re.match`: some alternative is a prefix and the
rest of the message is whitespace / `!` / `.`. -/
def isTailPunct (c : Char) : Bool := isPySpace c || c == '!' || c == '.'

def anchoredAltsThenPunct (alts : List Str) (msg : Str) : Bool :=
  alts.any fun g => g.isPrefixOf msg && (msg.drop g.length).all isTailPunct

/-- `^(as)\s+(bs)` via `re.search` (anchored by the `^`): an `as`
alternative prefix, at least one whitespace, then a `bs` alternative. -/
def anchoredTwoAlts (as bs : List Str) (msg : Str) : Bool :=
  as.any fun a =>
    a.isPrefixOf msg &&
      (let r := msg.drop a.length
       let sp := r.takeWhile isPySpace
       !sp.isEmpty && bs.any fun b => b.isPrefixOf (r.drop sp.length))

/-- `is_conversational` (api.py lines 47–63).  The input is `message`;
the function itself strips and lower-cases it. -/
def is_conversational (message : Str) : Bool :=
  let msg := lowerStr (pyStrip message)
  anchoredAltsThenPunct
    ["hi".data, "hello".data, "hey".data, "good morning".data,
     "good afternoon".data, "good evening".data, "greetings".data] msg ||
  anchoredAltsThenPunct
    ["thanks".data, "thank you".data, "ok".data, "okay".data, "got it".data,
     "understood".data, "great".data, "perfect".data, "awesome".data,
     "cool".data] msg ||
  ["who are you".data, "what can you do".data, "how do you work".data,
   "help me".data].any (fun p => containsSub p msg)

/-- `get_conversational_response` (api.py lines 65–95); the `has_context`
parameter of the source is unused there and omitted here. -/
def get_conversational_response (message : Str) : Str :=
  let msg := lowerStr (pyStrip message)
  if ["hi".data, "hello".data, "hey".data].any (fun g => g.isPrefixOf msg) then
    ("Hello! I'm your sales analytics assistant. I can help you analyze delivery data, customer trends, and business insights. What would you like to know?").data
  else if containsSub ("thank".data) msg then
    ("You're welcome! Let me know if you need anything else.").data
  else if ["ok".data, "okay".data, "got it".data, "understood".data,
           "great".data, "perfect".data, "awesome".data, "cool".data].contains msg then
    ("Great! Feel free to ask me anything about your sales data.").data
  else if containsSub ("who are you".data) msg then
    ("I'm your AI sales analytics assistant. I can answer questions about deliveries, customers, trends, and provide insights based on your data.").data
  else if containsSub ("what can you do".data) msg || containsSub ("help".data) msg then
    ("I can help you with:\n- **Data queries**: \"What are the top 10 customers?\" or \"How many deliveries in 2025?\"\n- **Trends**: \"Show me monthly sales trends\" or \"Compare Q1 to Q2\"\n- **Analysis**: \"Why did sales increase?\" or \"Which regions are growing?\"\n- **Recommendations**: \"How can we improve retention?\" or \"What should we focus on?\"\n\nJust ask me anything about your sales and delivery data!").data
  else
    ("I'm here to help with your sales analytics. What would you like to know?").data

/-- `is_elaboration_request` (api.py lines 97–119). -/
def is_elaboration_request (message : Str) : Bool :=
  let msg := lowerStr (pyStrip message)
  anchoredTwoAlts ["explain".data, "tell me".data, "can you".data, "could you".data]
    ["more".data, "further".data, "in detail".data] msg ||
  -- `details?` matches iff the prefix `detail` does
  anchoredTwoAlts ["more".data, "further".data]
    ["detail".data, "info".data, "information".data, "explanation".data] msg ||
  ("elaborate".data).isPrefixOf msg ||
  ("go on".data).isPrefixOf msg ||
  ("continue".data).isPrefixOf msg ||
  ["what do you mean".data, "what does this mean".data, "what does that mean".data,
   "why is this".data, "why is that".data,
   "how does this".data, "how does that".data,
   "how did this".data, "how did that".data].any (fun p => containsSub p msg) ||
  ["more?".data, "more".data, "explain".data, "why?".data, "how?".data,
   "tell me more".data, "can you explain more?".data].contains msg

/-- `\bW\s+(alts)` at the head of `s` (the message is already
lower-case, so matching is case-sensitive here). -/
def wordThenAltsAt (w : Str) (alts : List Str) (prev : Option Char) (s : Str) : Bool :=
  wordBoundaryOk prev && w.isPrefixOf s &&
    (let r := s.drop w.length
     let sp := r.takeWhile isPySpace
     !sp.isEmpty && alts.any fun b => b.isPrefixOf (r.drop sp.length))

/-- Generic position scan of a local predicate, tracking the previous
character (for `\b`). -/
def scanAny (p : Option Char → Str → Bool) : Option Char → Str → Bool
  | _, [] => false
  | prev, c :: rest => p prev (c :: rest) || scanAny p (some c) rest

/-- `pat` preceded by `.*` (no DOTALL: the gap may not contain `\n`). -/
def dotStarThen (pat : Str) : Str → Bool
  | [] => pat.isEmpty
  | c :: rest => pat.isPrefixOf (c :: rest) || (c != '\n' && dotStarThen pat rest)

/-- `\bwhat.*reason` at the head of `s`. -/
def whatReasonAt (prev : Option Char) (s : Str) : Bool :=
  wordBoundaryOk prev && ("what".data).isPrefixOf s && dotStarThen ("reason".data) (s.drop 4)

/-- `is_analytical_question` (api.py lines 121–139). -/
def is_analytical_question (message : Str) : Bool :=
  let msg := lowerStr (pyStrip message)
  scanAny (wordThenAltsAt ("why".data)
    ["did".data, "is".data, "are".data, "was".data, "were".data,
     "does".data, "do".data, "has".data, "have".data]) none msg ||
  scanAny (wordThenAltsAt ("how".data)
    ["can".data, "could".data, "should".data, "did".data, "does".data, "do".data]) none msg ||
  scanAny (wordThenAltsAt ("explain".data)
    ["why".data, "how".data, "the".data]) none msg ||
  scanAny (wordThenAltsAt ("what".data)
    ["caused".data, "drives".data, "explains".data]) none msg ||
  scanAny whatReasonAt none msg ||
  scanAny (wordThenAltsAt ("root".data) ["cause".data]) none msg

/-- `looks_like_followup` (chain.py lines 26–28). -/
def looks_like_followup (text : Str) : Bool :=
  let t := lowerStr (pyStrip text)
  ["now".data, "same".data, "also".data, "only".data, "filter".data,
   "breakdown".data, "by".data, "for".data, "last".data, "previous".data,
   "compare".data, "trend".data].any (fun w => containsWord w t)

/-! ## The `ChatService` classifiers (chat_service.py lines 119–144) -/

/-- `ChatService._is_conversational`. -/
def svc_is_conversational (message : Str) : Bool :=
  let msg := lowerStr (pyStrip message)
  anchoredAltsThenPunct
    ["hi".data, "hello".data, "hey".data, "good morning".data, "greetings".data] msg ||
  anchoredAltsThenPunct
    ["thanks".data, "thank you".data, "ok".data, "great".data, "cool".data] msg ||
  ["who are you".data, "help me".data].any (fun p => containsSub p msg)

/-- `ChatService._get_conversational_response`. -/
def svc_get_conversational_response (message : Str) : Str :=
  let msg := lowerStr (pyStrip message)
  if ["hi".data, "hello".data, "hey".data].any (fun g => g.isPrefixOf msg) then
    ("Hello! I'm your sales analytics assistant. How can I help you today?").data
  else if containsSub ("thank".data) msg then ("You're welcome!").data
  else if containsSub ("who are you".data) msg then
    ("I'm an AI assistant for your sales data.").data
  else ("I'm here to help with your analytics.").data

/-- `ChatService._is_elaboration_request`. -/
def svc_is_elaboration_request (message : Str) : Bool :=
  let msg := lowerStr (pyStrip message)
  anchoredTwoAlts ["explain".data, "tell me".data] ["more".data, "detail".data] msg ||
  ("elaborate".data).isPrefixOf msg ||
  ("why is that".data).isPrefixOf msg ||
  ("more?".data).isPrefixOf msg

/-- The analytical trigger of `ChatService.process_message` (line 70):
`re.search(r'\b(why|how|explain|cause)\b', message.lower())`. -/
def svc_is_analytical (message : Str) : Bool :=
  ["why".data, "how".data, "explain".data, "cause".data].any
    (fun w => containsWord w (lowerStr message))

/-! ## Session state and the orchestrators

`SessionState` mirrors `memory/models.py` (and the identically-shaped
`app/schemas/chat.py` one).  The language-model collaborators and the
data store are oracles in `Deps`; all are total except `reasoning`
(whose failure the source routes to the outer `except`) and the
executor (`ExecRes.exn`).  A turn's observable behaviour is its
response, its (at most one) session-state write, the questions sent to
the query writer and the queries sent to the executor. -/

structure SessionState where
  last_question : Option Str := none
  last_sql : Option Str := none
  last_result : Option Str := none
  last_descriptive : Option Str := none
  entity_type : Str := "unknown".data
  entities : List Str := []
  metric : Str := "unknown".data
  deriving Repr, DecidableEq

/-- Python truthiness of an optional string (`None` and `""` are falsy). -/
def pyTruthy : Option Str → Bool
  | none => false
  | some s => !s.isEmpty

/-- The entity-extraction result after `safe_json_load` and the `.get`
defaults of the caller. -/
structure Entities where
  entity_type : Str
  entities : List Str
  metric : Str
  deriving Repr, DecidableEq

structure Deps where
  sqlWriter : Str → Str
  exec : Str → ExecRes
  allowed : List Str
  defaultLimit : Nat
  contextualize : SessionState → Str → Str
  descriptive : SqlOut → Str
  reasoning : Str → Str → Str → Option Str
  entExtract : Str → Str → Entities
  general : Str → Str
  elaborate : Str → Str → Str → Str → Str

/-- The turn-level response (`ChatResponse` without the metadata block). -/
structure Resp where
  mode : Str
  answer : Str
  used_question : Option Str := none
  sqlField : Option Str := none
  deriving Repr, DecidableEq

structure TurnEffects where
  resp : Resp
  write : Option SessionState
  generated : List Str
  executed : List Str
  deriving Repr, DecidableEq

/-- The effective question of a legacy-endpoint turn (api.py lines 178–188):
the contextualized rewrite for follow-ups, the raw message otherwise. -/
def chatQuestion (dep : Deps) (st : SessionState) (msg : Str) : Str :=
  if pyTruthy st.last_question && looks_like_followup msg then dep.contextualize st msg
  else msg

/-- The legacy `chat` endpoint (api.py lines 143–245).  The `debug` flag
stands for `req.debug or settings.DEBUG_RETURN_SQL`.  A `reasoning`
failure (`none`) propagates to the outer `except` and lands in the
general fallback, exactly as an exception does in the source. -/
def chat (dep : Deps) (debug : Bool) (st : SessionState) (msg : Str) : TurnEffects :=
  if is_conversational msg then
    ⟨⟨"conversational".data, get_conversational_response msg, none, none⟩, none, [], []⟩
  else if is_elaboration_request msg && pyTruthy st.last_descriptive then
    ⟨⟨"elaboration".data,
      dep.elaborate (st.last_question.getD []) (st.last_descriptive.getD [])
        (st.last_result.getD []) msg,
      st.last_question, none⟩, none, [], []⟩
  else
    let question := chatQuestion dep st msg
    let r := run_sql_from_question dep.exec dep.allowed dep.defaultLimit
               question (dep.sqlWriter question)
    match r.out with
    | .ok out =>
      let desc0 := dep.descriptive out
      let reasoned : Option Str :=
        if is_analytical_question msg then dep.reasoning out.question out.result desc0
        else some desc0
      match reasoned with
      | none =>
        ⟨⟨"general".data, dep.general msg, none, none⟩, none, [question], r.executed⟩
      | some desc =>
        let ent := dep.entExtract out.query out.result
        ⟨⟨"descriptive".data, desc, some out.question,
          if debug then some out.query else none⟩,
         some ⟨some out.question, some out.query, some out.result, some desc,
               ent.entity_type, ent.entities, ent.metric⟩,
         [question], r.executed⟩
    | .error _ =>
      ⟨⟨"general".data, dep.general msg, none, none⟩, none, [question], r.executed⟩

/-- `ChatService.process_message` (chat_service.py lines 17–117).  The
service never contextualizes follow-ups; its `elaborate` call is guarded
by a `try` whose failure falls through, which a total oracle never
exercises. -/
def svcProcessMessage (dep : Deps) (debug : Bool) (st : SessionState) (msg : Str) :
    TurnEffects :=
  if svc_is_conversational msg then
    ⟨⟨"conversational".data, svc_get_conversational_response msg, none, none⟩, none, [], []⟩
  else if svc_is_elaboration_request msg && pyTruthy st.last_descriptive then
    ⟨⟨"elaboration".data,
      dep.elaborate (st.last_question.getD []) (st.last_descriptive.getD [])
        (st.last_result.getD []) msg,
      st.last_question, none⟩, none, [], []⟩
  else
    let question := msg
    let r := run_sql_from_question dep.exec dep.allowed dep.defaultLimit
               question (dep.sqlWriter question)
    match r.out with
    | .ok out =>
      let desc0 := dep.descriptive out
      let reasoned : Option Str :=
        if svc_is_analytical msg then dep.reasoning out.question out.result desc0
        else some desc0
      match reasoned with
      | none =>
        ⟨⟨"general".data, dep.general msg, none, none⟩, none, [question], r.executed⟩
      | some desc =>
        let ent := dep.entExtract out.query out.result
        ⟨⟨"descriptive".data, desc, some out.question,
          if debug then some out.query else none⟩,
         some ⟨some out.question, some out.query, some out.result, some desc,
               ent.entity_type, ent.entities, ent.metric⟩,
         [question], r.executed⟩
    | .error _ =>
      ⟨⟨"general".data, dep.general msg, none, none⟩, none, [question], r.executed⟩

/-- Folding turns of the legacy endpoint over the stored state of one
conversation (a write replaces the state; a turn without a write leaves
it unchanged). -/
def runConversation (dep : Deps) (debug : Bool) : List Str → SessionState → SessionState
  | [], st => st
  | m :: rest, st => runConversation dep debug rest ((chat dep debug st m).write.getD st)

/-- The extract → validate → limit-enforce pipeline of the Safety Gate
(`extract_sql`, `is_select_only`, `ensure_limit`), as run by
`run_sql_from_question`; `none` models the raised `UnsafeQueryError`.
The allow-list check sits between validation and limit enforcement in the
source but touches neither the validation verdict nor the text. -/
def validate_and_normalize (d : Nat) (raw : Str) : Option Str :=
  let q := extract_sql raw
  if is_select_only q then some (ensure_limit q d) else none

/-- All four content fields of a session state are populated. -/
def fullyPopulated (st : SessionState) : Bool :=
  st.last_question.isSome && st.last_sql.isSome &&
  st.last_result.isSome && st.last_descriptive.isSome

/-- A concrete, well-behaved dependency bundle used to instantiate the
orchestrator theorems on closed inputs. -/
def sampleDeps : Deps where
  sqlWriter := fun _ => ("SELECT * FROM tbldeliveryinfo").data
  exec := fun _ => .ok (("[(1, 'x')]").data)
  allowed := []
  defaultLimit := 200
  contextualize := fun _ m => m
  descriptive := fun o => ("desc: ").data ++ o.result
  reasoning := fun _ _ d => some (("reasoned: ").data ++ d)
  entExtract := fun _ _ => ⟨("customer").data, [("acme").data], ("volume").data⟩
  general := fun m => ("general: ").data ++ m
  elaborate := fun _ _ _ m => ("elab: ").data ++ m

/-- `sampleDeps` with an executor that always raises a syntax error. -/
def failDeps : Deps :=
  { sampleDeps with exec := fun _ => .exn (("syntax error at or near \"LIMIT\"").data) }

/-- `sampleDeps` with a failing reasoning pipeline. -/
def noReasonDeps : Deps :=
  { sampleDeps with reasoning := fun _ _ _ => none }

/-- The character preceding the position right after `x`, given the
character `prev` preceding `x` (tracks the `\\b` context across an
append). -/
def lastPrev (prev : Option Char) (x : Str) : Option Char :=
  match x.getLast? with
  | some c => some c
  | none => prev

/-! ## Phase predicates of a `\\bLIMIT\\s+\\d+\\b` match, and the
substitution-trace relation used for the idempotence analysis -/

/-- After the digit run: the trailing `\\b` (next char not a word char). -/
def limQ2 (u : Str) : Bool := !((u.dropWhile isDigitChar).head?.any isWordChar)

/-- After at least one whitespace char: a nonempty digit run, then `\\b`. -/
def limQ1 (u : Str) : Bool :=
  !((u.dropWhile isPySpace).takeWhile isDigitChar).isEmpty
    && limQ2 (u.dropWhile isPySpace)

/-- After the literal `LIMIT`: `\\s+\\d+\\b`. -/
def limQ0 (u : Str) : Bool := (u.head?.any isPySpace) && limQ1 u

/-- The `\\s*\\(` lookahead of the aggregate regex, after the word. -/
def parenAfter (u : Str) : Bool :=
  match u.dropWhile isPySpace with
  | '(' :: _ => true
  | _ => false

/-- The trace of `re.sub(r'\\bLIMIT\\s+\\d+\\b', f'LIMIT {m}', ...)`:
`LimScan m B s t` relates an input `s` to the substituted output `t`,
where `B` records whether the position at the head of `s` is a word
boundary.  A `copy` step copies a character at which no match starts
(for any previous character of the same boundary class); a `repl` step
replaces a full match `w ++ sp ++ dg` by the text `LIMIT m`. -/
inductive LimScan (m : Nat) : Bool → Str → Str → Prop where
  | nil (B : Bool) : LimScan m B [] []
  | copy {B : Bool} {s t : Str} (c : Char)
      (hnone : ∀ p, wordBoundaryOk p = B → limitMatchAt p (c :: s) = none)
      (htail : LimScan m (!isWordChar c) s t) : LimScan m B (c :: s) (c :: t)
  | repl {s t w sp dg : Str}
      (hw : lowerStr w = ("limit").data)
      (hsp : sp ≠ []) (hspall : ∀ c ∈ sp, isPySpace c = true)
      (hdg : dg ≠ []) (hdgall : ∀ c ∈ dg, isDigitChar c = true)
      (hs : ∀ c, s.head? = some c → isWordChar c = false)
      (ht : ∀ c, t.head? = some c → isWordChar c = false)
      (htail : LimScan m false s t) :
      LimScan m true (w ++ (sp ++ (dg ++ s))) (limitRepl m ++ t)

/-! # Lemmas -/

lemma containsSub_singleton_iff (c : Char) (s : Str) : containsSub [c] s = true ↔ c ∈ s := by
  induction s with
  | nil => simp [containsSub]
  | cons a rest ih => simp [containsSub, List.isPrefixOf, ih]

lemma containsSub_append_middle (pat x y : Str) (hpat : pat ≠ []) :
    containsSub pat (x ++ (pat ++ y)) = true := by
  induction x with
  | nil =>
    simp only [List.nil_append]
    cases pat with
    | nil => exact absurd rfl hpat
    | cons p ps =>
      have hpre : (p :: ps).isPrefixOf ((p :: ps) ++ y) = true :=
        List.isPrefixOf_iff_prefix.mpr (List.prefix_append _ _)
      rw [List.cons_append]
      rw [List.cons_append] at hpre
      simp [containsSub, hpre]
  | cons a x' ih =>
    rw [List.cons_append]
    simp only [containsSub, Bool.or_eq_true]
    exact Or.inr ih

lemma rstrip_idem (p : Char → Bool) (s : Str) : rstrip p (rstrip p s) = rstrip p s := by
  simp [rstrip, List.dropWhile_idempotent]

lemma rstrip_pyStrip (s : Str) : rstrip isPySpace (pyStrip s) = pyStrip s := by
  simp [pyStrip, rstrip_idem]

lemma mem_dropWhile_semi (u v : Str) (hc : ∃ c ∈ u, c ≠ ';') :
    ';' ∈ (u ++ ';' :: v).dropWhile (· == ';') := by
  induction u with
  | nil => simp at hc
  | cons x u' ih =>
    rcases hc with ⟨c, hmem, hne⟩
    by_cases hx : x = ';'
    · subst hx
      rw [List.cons_append, List.dropWhile_cons]
      simp only [beq_self_eq_true, if_true]
      apply ih
      rcases List.mem_cons.mp hmem with rfl | h
      · exact absurd rfl hne
      · exact ⟨c, h, hne⟩
    · rw [List.cons_append, List.dropWhile_cons]
      have hxb : (x == ';') = false := by simp [hx]
      rw [hxb]
      simp

lemma semicolon_in_rstrip {s a b : Str} (hs : s = a ++ ';' :: b) (hb : ∃ c ∈ b, c ≠ ';') :
    containsSub [';'] (rstrip (· == ';') s) = true := by
  rw [containsSub_singleton_iff]
  subst hs
  simp only [rstrip, List.mem_reverse]
  have hrev : (a ++ ';' :: b).reverse = b.reverse ++ ';' :: a.reverse := by
    simp [List.reverse_append]
  rw [hrev]
  apply mem_dropWhile_semi
  rcases hb with ⟨c, hm, hne⟩
  exact ⟨c, List.mem_reverse.mpr hm, hne⟩

/-! # Claim theorems -/

/-- **C1.** Any candidate query that, after extraction and trimming,
contains a forbidden verb as a whole word (any case), or does not begin
case-insensitively with `SELECT`, is rejected as unsafe by
`run_sql_from_question` and never reaches the executor. -/
theorem forbidden_or_nonselect_never_executed
    (exec : Str → ExecRes) (allowed : List Str) (d : Nat) (question raw : Str)
    (h : FORBIDDEN.any (fun w => containsWord w (pyStrip (extract_sql raw))) = true ∨
         ("select".data).isPrefixOf (lowerStr (pyStrip (extract_sql raw))) = false) :
    (run_sql_from_question exec allowed d question raw).out
        = .error (.unsafeQuery (extract_sql raw)) ∧
    (run_sql_from_question exec allowed d question raw).executed = [] := by
  have hsel : is_select_only (extract_sql raw) = false := by
    unfold is_select_only
    rcases h with h | h
    · by_cases h1 : ("select".data).isPrefixOf (lowerStr (pyStrip (extract_sql raw)))
      · simp [h1, h]
      · simp [h1]
    · simp [h]
  refine ⟨?_, ?_⟩ <;> simp [run_sql_from_question, hsel]

/-- Witness for C1: `DROP TABLE users` contains the forbidden verb
`drop`, is rejected, and nothing is executed. -/
theorem forbidden_or_nonselect_never_executed_witness :
    (run_sql_from_question sampleDeps.exec [] 200 ("q").data (("DROP TABLE users").data)).out
        = .error (.unsafeQuery (extract_sql (("DROP TABLE users").data))) ∧
    (run_sql_from_question sampleDeps.exec [] 200 ("q").data (("DROP TABLE users").data)).executed
        = [] :=
  forbidden_or_nonselect_never_executed sampleDeps.exec [] 200 ("q").data
    (("DROP TABLE users").data) (Or.inl (by decide))

/-- **C3 counterexample.** `select 1;;` ends in a semicolon and, after
ignoring exactly one trailing semicolon, still contains a semicolon — the
claim demands rejection — yet `is_select_only` accepts it (the code strips
*all* trailing semicolons). -/
theorem double_trailing_semicolon_accepted :
    is_select_only (("select 1;;").data) = true ∧
    (("select 1;;").data).getLast? = some ';' ∧
    containsSub [';'] ((("select 1;;").data).dropLast) = true := by
  refine ⟨by decide, by decide, by decide⟩

/-- **C3 (amended).** A candidate query with a semicolon before the final
*run* of trailing semicolons (some non-semicolon character follows it) is
rejected by `is_select_only`. -/
theorem multi_statement_rejected (sql a b : Str)
    (hs : pyStrip sql = a ++ ';' :: b) (hb : ∃ c ∈ b, c ≠ ';') :
    is_select_only sql = false := by
  have hsemi : containsSub [';']
      (rstrip (· == ';') (rstrip isPySpace (pyStrip sql))) = true := by
    rw [rstrip_pyStrip]
    exact semicolon_in_rstrip hs hb
  unfold is_select_only
  by_cases h1 : ("select".data).isPrefixOf (lowerStr (pyStrip sql))
  · by_cases h2 : FORBIDDEN.any (fun w => containsWord w (pyStrip sql)) = true
    · simp [h1, h2]
    · simp [h1, h2, hsemi]
  · simp [h1]

/-- Witness for C3 (amended): `select 1; select 2` is rejected. -/
theorem multi_statement_rejected_witness :
    is_select_only (("select 1; select 2").data) = false :=
  multi_statement_rejected _ ("select 1").data (" select 2").data (by decide)
    ⟨'s', by decide, by decide⟩

/-- **C9 counterexample.** The greeting pattern anchors both ends
(`^(hi|...)[\s!.]*$`), so `hi there` is *not* classified conversational,
contrary to the claim. -/
theorem hi_there_not_conversational :
    is_conversational (("hi there").data) = false := by decide

/-- **C9 (amended).** `hi there` is not conversational (previous theorem);
for every message the classifier does accept, the turn is answered from
the static rule table with no query generation, no execution, and no
session-state write. -/
theorem conversational_turn_is_static (dep : Deps) (debug : Bool) (st : SessionState)
    (msg : Str) (h : is_conversational msg = true) :
    chat dep debug st msg =
      ⟨⟨("conversational").data, get_conversational_response msg, none, none⟩,
       none, [], []⟩ := by
  unfold chat
  simp [h]

/-- Witness for C9 (amended): `hi` is conversational and handled statically. -/
theorem conversational_turn_is_static_witness :
    is_conversational (("hi").data) = true ∧
    chat sampleDeps false {} (("hi").data) =
      ⟨⟨("conversational").data, get_conversational_response (("hi").data), none, none⟩,
       none, [], []⟩ :=
  ⟨by decide, conversational_turn_is_static sampleDeps false {} (("hi").data) (by decide)⟩

/-- **C10 counterexample.** The two orchestrators do not classify
identically: `good afternoon` is conversational for the legacy endpoint
but reaches the query path in `ChatService`, so the response modes differ
on the same input and prior state. -/
theorem orchestrators_diverge_on_good_afternoon :
    is_conversational (("good afternoon").data) = true ∧
    svc_is_conversational (("good afternoon").data) = false ∧
    (chat sampleDeps false {} (("good afternoon").data)).resp.mode
        = ("conversational").data ∧
    (svcProcessMessage sampleDeps false {} (("good afternoon").data)).resp.mode
        = ("descriptive").data := by
  exact ⟨by decide, by decide, by decide, by decide⟩

/-- **C10 (amended).** The orchestrators are not equivalent; what does
hold is containment of the conversational classifiers: every message
`ChatService` classifies conversational, the legacy endpoint classifies
conversational as well (the service's greeting, acknowledgement and
system-phrase alternatives are all among the legacy endpoint's). -/
theorem svc_conversational_subset (msg : Str)
    (h : svc_is_conversational msg = true) : is_conversational msg = true := by
  unfold svc_is_conversational at h
  unfold is_conversational
  simp only [anchoredAltsThenPunct, List.any_cons, List.any_nil, Bool.or_eq_true,
    Bool.or_false, Bool.false_or] at h ⊢
  tauto

/-- Witness for C10 (amended). -/
theorem svc_conversational_subset_witness :
    svc_is_conversational (("thanks!").data) = true ∧
    is_conversational (("thanks!").data) = true :=
  ⟨by decide, svc_conversational_subset (("thanks!").data) (by decide)⟩

/-- **C4.** The repair step never removes a `LIMIT n` clause: the raw
string `r'\\s*LIMIT\\s+\\d+'` compiles to a regex demanding literal
backslashes, so on a retryable failure the "repaired" query re-executed
by `run_sql_from_question` is character-for-character the original
(its `LIMIT 50` intact), and the final failure carries the original
error message and original query text. -/
theorem repair_reexecutes_identical_query :
    autofixStrip (("SELECT * FROM tbldeliveryinfo LIMIT 50").data)
        = ("SELECT * FROM tbldeliveryinfo LIMIT 50").data ∧
    (run_sql_from_question failDeps.exec [] 200 ("q").data
        (("SELECT * FROM tbldeliveryinfo LIMIT 50").data)).executed
      = [("SELECT * FROM tbldeliveryinfo LIMIT 50").data,
         ("SELECT * FROM tbldeliveryinfo LIMIT 50").data] ∧
    (run_sql_from_question failDeps.exec [] 200 ("q").data
        (("SELECT * FROM tbldeliveryinfo LIMIT 50").data)).out
      = .error (.execFailed (("syntax error at or near \"LIMIT\"").data)
          (("SELECT * FROM tbldeliveryinfo LIMIT 50").data)) ∧
    containsSub (("LIMIT 50").data) (("SELECT * FROM tbldeliveryinfo LIMIT 50").data)
      = true := by
  exact ⟨by decide, by decide, rfl, by decide⟩

/-- **C6.** Whenever the structured query path of a turn fails entirely
(safety(-gate) rejection, or original and repaired execution both
failing, i.e. `run_sql_from_question` returns an error), both
orchestrators answer through the free-form fallback with mode `general`
and perform no session-state write. -/
theorem query_failure_falls_back_general :
    (∀ (dep : Deps) (debug : Bool) (st : SessionState) (msg : Str) (e : SqlErr),
      is_conversational msg = false →
      (is_elaboration_request msg && pyTruthy st.last_descriptive) = false →
      (run_sql_from_question dep.exec dep.allowed dep.defaultLimit
          (chatQuestion dep st msg) (dep.sqlWriter (chatQuestion dep st msg))).out
        = .error e →
      (chat dep debug st msg).resp.mode = ("general").data ∧
      (chat dep debug st msg).resp.answer = dep.general msg ∧
      (chat dep debug st msg).write = none) ∧
    (∀ (dep : Deps) (debug : Bool) (st : SessionState) (msg : Str) (e : SqlErr),
      svc_is_conversational msg = false →
      (svc_is_elaboration_request msg && pyTruthy st.last_descriptive) = false →
      (run_sql_from_question dep.exec dep.allowed dep.defaultLimit
          msg (dep.sqlWriter msg)).out = .error e →
      (svcProcessMessage dep debug st msg).resp.mode = ("general").data ∧
      (svcProcessMessage dep debug st msg).resp.answer = dep.general msg ∧
      (svcProcessMessage dep debug st msg).write = none) := by
  constructor
  · intro dep debug st msg e h1 h2 h3
    unfold chat
    simp only [h1, Bool.false_eq_true, if_false, h2]
    rw [h3]
    exact ⟨rfl, rfl, rfl⟩
  · intro dep debug st msg e h1 h2 h3
    unfold svcProcessMessage
    simp only [h1, Bool.false_eq_true, if_false, h2]
    rw [h3]
    exact ⟨rfl, rfl, rfl⟩

/-- Witness for C6: with an always-failing executor, a lookup message
lands in the general fallback with no write. -/
theorem query_failure_falls_back_general_witness :
    (chat failDeps false {} (("list all deliveries").data)).resp.mode = ("general").data ∧
    (chat failDeps false {} (("list all deliveries").data)).resp.answer
        = failDeps.general (("list all deliveries").data) ∧
    (chat failDeps false {} (("list all deliveries").data)).write = none :=
  query_failure_falls_back_general.1 failDeps false {} (("list all deliveries").data)
    (.execFailed (("syntax error at or near \"LIMIT\"").data)
      (("SELECT * FROM tbldeliveryinfo\nLIMIT 200").data))
    (by decide) (by decide) rfl

/-- **C7 counterexample.** With a successfully executed query but a
failing reasoning stage, the analytical turn `why did sales drop` does
not return the base descriptive answer (`desc: [(1, 'x')]`): it falls to
the general fallback (mode `general`) and the state write is dropped. -/
theorem reasoning_failure_yields_general_not_descriptive :
    (chat noReasonDeps false {} (("why did sales drop").data)).executed
        = [("SELECT * FROM tbldeliveryinfo\nLIMIT 200").data] ∧
    (chat noReasonDeps false {} (("why did sales drop").data)).resp.mode
        = ("general").data ∧
    (chat noReasonDeps false {} (("why did sales drop").data)).resp.answer
        = ("general: why did sales drop").data ∧
    (chat noReasonDeps false {} (("why did sales drop").data)).resp.answer
        ≠ ("desc: [(1, 'x')]").data ∧
    (chat noReasonDeps false {} (("why did sales drop").data)).write = none := by
  exact ⟨by decide, by decide, by decide, by decide, by decide⟩

/-- **C7 (amended).** If a reasoning stage fails on an analytical turn
whose query executed successfully, the turn still completes, but with the
general free-form fallback (mode `general`, descriptive answer discarded,
no session-state write) rather than the un-reasoned descriptive answer. -/
theorem reasoning_failure_general_fallback (dep : Deps) (debug : Bool)
    (st : SessionState) (msg : Str) (out : SqlOut)
    (h1 : is_conversational msg = false)
    (h2 : (is_elaboration_request msg && pyTruthy st.last_descriptive) = false)
    (h3 : (run_sql_from_question dep.exec dep.allowed dep.defaultLimit
        (chatQuestion dep st msg) (dep.sqlWriter (chatQuestion dep st msg))).out
        = .ok out)
    (h4 : is_analytical_question msg = true)
    (h5 : dep.reasoning out.question out.result (dep.descriptive out) = none) :
    (chat dep debug st msg).resp.mode = ("general").data ∧
    (chat dep debug st msg).resp.answer = dep.general msg ∧
    (chat dep debug st msg).write = none := by
  unfold chat
  simp only [h1, Bool.false_eq_true, if_false, h2]
  rw [h3]
  simp [h4, h5]

/-- Witness for C7 (amended). -/
theorem reasoning_failure_general_fallback_witness :
    (chat noReasonDeps false {} (("why did sales drop").data)).resp.mode
        = ("general").data ∧
    (chat noReasonDeps false {} (("why did sales drop").data)).resp.answer
        = noReasonDeps.general (("why did sales drop").data) ∧
    (chat noReasonDeps false {} (("why did sales drop").data)).write = none :=
  reasoning_failure_general_fallback noReasonDeps false {} (("why did sales drop").data)
    ⟨("why did sales drop").data, ("SELECT * FROM tbldeliveryinfo\nLIMIT 200").data,
     ("[(1, 'x')]").data⟩
    (by decide) (by decide) rfl (by decide) rfl

/-- Helper: any session-state write of a legacy-endpoint turn is the full
record built from that turn's own execution output, entity extraction
and final answer. -/
lemma chat_write_shape (dep : Deps) (debug : Bool) (st : SessionState) (msg : Str)
    (st' : SessionState) (h : (chat dep debug st msg).write = some st') :
    ∃ out desc,
      (run_sql_from_question dep.exec dep.allowed dep.defaultLimit
          (chatQuestion dep st msg) (dep.sqlWriter (chatQuestion dep st msg))).out
        = .ok out ∧
      st' = ⟨some out.question, some out.query, some out.result, some desc,
             (dep.entExtract out.query out.result).entity_type,
             (dep.entExtract out.query out.result).entities,
             (dep.entExtract out.query out.result).metric⟩ ∧
      (chat dep debug st msg).resp.mode = ("descriptive").data ∧
      (chat dep debug st msg).resp.answer = desc := by
  by_cases h1 : is_conversational msg = true
  · unfold chat at h
    simp [h1] at h
  by_cases h2 : (is_elaboration_request msg && pyTruthy st.last_descriptive) = true
  · unfold chat at h
    simp [h1, h2] at h
  have h1' : is_conversational msg = false := by simpa using h1
  have h2' : (is_elaboration_request msg && pyTruthy st.last_descriptive) = false := by
    simpa using h2
  cases hout : (run_sql_from_question dep.exec dep.allowed dep.defaultLimit
      (chatQuestion dep st msg) (dep.sqlWriter (chatQuestion dep st msg))).out with
  | error e =>
    have hch : chat dep debug st msg =
        ⟨⟨("general").data, dep.general msg, none, none⟩, none, [chatQuestion dep st msg],
         (run_sql_from_question dep.exec dep.allowed dep.defaultLimit
            (chatQuestion dep st msg) (dep.sqlWriter (chatQuestion dep st msg))).executed⟩ := by
      unfold chat
      simp [h1', h2', hout]
    rw [hch] at h
    simp at h
  | ok out =>
    cases hr : (if is_analytical_question msg = true
        then dep.reasoning out.question out.result (dep.descriptive out)
        else some (dep.descriptive out)) with
    | none =>
      have hch : chat dep debug st msg =
          ⟨⟨("general").data, dep.general msg, none, none⟩, none, [chatQuestion dep st msg],
           (run_sql_from_question dep.exec dep.allowed dep.defaultLimit
              (chatQuestion dep st msg) (dep.sqlWriter (chatQuestion dep st msg))).executed⟩ := by
        unfold chat
        simp [h1', h2', hout, hr]
      rw [hch] at h
      simp at h
    | some desc =>
      have hch : chat dep debug st msg =
          ⟨⟨("descriptive").data, desc, some out.question,
            if debug then some out.query else none⟩,
           some ⟨some out.question, some out.query, some out.result, some desc,
                 (dep.entExtract out.query out.result).entity_type,
                 (dep.entExtract out.query out.result).entities,
                 (dep.entExtract out.query out.result).metric⟩,
           [chatQuestion dep st msg],
           (run_sql_from_question dep.exec dep.allowed dep.defaultLimit
              (chatQuestion dep st msg) (dep.sqlWriter (chatQuestion dep st msg))).executed⟩ := by
        unfold chat
        simp [h1', h2', hout, hr]
      rw [hch] at h
      simp only [Option.some.injEq] at h
      exact ⟨out, desc, rfl, h.symm, by rw [hch], by rw [hch]⟩

/-- Helper: the stored state of a conversation is either still the fresh
default or fully populated. -/
lemma runConversation_invariant (dep : Deps) (debug : Bool) (msgs : List Str) :
    ∀ st : SessionState, (st = {} ∨ fullyPopulated st = true) →
      (runConversation dep debug msgs st = {} ∨
       fullyPopulated (runConversation dep debug msgs st) = true) := by
  induction msgs with
  | nil => intro st h; simpa [runConversation] using h
  | cons m rest ih =>
    intro st h
    unfold runConversation
    cases hw : (chat dep debug st m).write with
    | none => simpa [hw] using ih st h
    | some st' =>
      simp only [Option.getD_some]
      apply ih
      right
      obtain ⟨out, desc, _, hst', _, _⟩ := chat_write_shape dep debug st m st' hw
      simp [fullyPopulated, hst']

/-- **C8.** (i) Every session-state write of a turn is the full record
built from that single turn's question/query/result/answer/entities;
(ii) a successful descriptive or analytical turn does perform that
write; (iii) hence every reachable stored state is all-default or fully
populated from one turn. -/
theorem session_state_single_turn_write :
    (∀ (dep : Deps) (debug : Bool) (st : SessionState) (msg : Str) (st' : SessionState),
      (chat dep debug st msg).write = some st' →
      ∃ out desc,
        (run_sql_from_question dep.exec dep.allowed dep.defaultLimit
            (chatQuestion dep st msg) (dep.sqlWriter (chatQuestion dep st msg))).out
          = .ok out ∧
        st' = ⟨some out.question, some out.query, some out.result, some desc,
               (dep.entExtract out.query out.result).entity_type,
               (dep.entExtract out.query out.result).entities,
               (dep.entExtract out.query out.result).metric⟩ ∧
        (chat dep debug st msg).resp.mode = ("descriptive").data ∧
        (chat dep debug st msg).resp.answer = desc) ∧
    (∀ (dep : Deps) (debug : Bool) (st : SessionState) (msg : Str) (out : SqlOut)
        (desc : Str),
      is_conversational msg = false →
      (is_elaboration_request msg && pyTruthy st.last_descriptive) = false →
      (run_sql_from_question dep.exec dep.allowed dep.defaultLimit
          (chatQuestion dep st msg) (dep.sqlWriter (chatQuestion dep st msg))).out
        = .ok out →
      (if is_analytical_question msg = true
        then dep.reasoning out.question out.result (dep.descriptive out)
        else some (dep.descriptive out)) = some desc →
      (chat dep debug st msg).write =
        some ⟨some out.question, some out.query, some out.result, some desc,
              (dep.entExtract out.query out.result).entity_type,
              (dep.entExtract out.query out.result).entities,
              (dep.entExtract out.query out.result).metric⟩) ∧
    (∀ (dep : Deps) (debug : Bool) (msgs : List Str),
      runConversation dep debug msgs {} = {} ∨
      fullyPopulated (runConversation dep debug msgs {}) = true) := by
  refine ⟨?_, ?_, ?_⟩
  · exact chat_write_shape
  · intro dep debug st msg out desc h1 h2 h3 h4
    unfold chat
    simp only [h1, Bool.false_eq_true, if_false, h2, h3, h4]
  · intro dep debug msgs
    exact runConversation_invariant dep debug msgs {} (Or.inl rfl)

/-- Witness for C8: a concrete successful turn writes exactly the
one-turn record, and a two-turn conversation ends fully populated. -/
theorem session_state_single_turn_write_witness :
    ((chat sampleDeps false {} (("list sales").data)).write =
      some ⟨some (("list sales").data),
            some (("SELECT * FROM tbldeliveryinfo\nLIMIT 200").data),
            some (("[(1, 'x')]").data),
            some (("desc: [(1, 'x')]").data),
            ("customer").data, [("acme").data], ("volume").data⟩) ∧
    (runConversation sampleDeps false [("hi").data, ("list sales").data] {} = {} ∨
     fullyPopulated
        (runConversation sampleDeps false [("hi").data, ("list sales").data] {}) = true) := by
  constructor
  · exact session_state_single_turn_write.2.1 sampleDeps false {} (("list sales").data)
      ⟨("list sales").data, ("SELECT * FROM tbldeliveryinfo\nLIMIT 200").data,
       ("[(1, 'x')]").data⟩
      (("desc: [(1, 'x')]").data) (by decide) (by decide) rfl rfl
  · exact session_state_single_turn_write.2.2 sampleDeps false
      [("hi").data, ("list sales").data]

/-- Helper: if the limit regex matches somewhere, the substitution output
contains the replacement text. -/
lemma subLimitAux_emits (m : Nat) :
    ∀ (fuel : Nat) (prev : Option Char) (s : Str), s.length ≤ fuel →
      findLimitAux prev s ≠ none →
      ∃ a b, subLimitAux m fuel prev s = a ++ (limitRepl m ++ b) := by
  intro fuel
  induction fuel with
  | zero =>
    intro prev s hlen hfind
    have hs : s = [] := List.eq_nil_of_length_eq_zero (Nat.le_zero.mp hlen)
    subst hs
    simp [findLimitAux] at hfind
  | succ f ih =>
    intro prev s hlen hfind
    cases s with
    | nil => simp [findLimitAux] at hfind
    | cons c rest =>
      cases hm : limitMatchAt prev (c :: rest) with
      | some hit =>
        refine ⟨[], subLimitAux m f (some hit.last) hit.rem, ?_⟩
        simp [subLimitAux, hm]
      | none =>
        have hfind' : findLimitAux (some c) rest ≠ none := by
          simpa [findLimitAux, hm] using hfind
        have hlen' : rest.length ≤ f := by
          simpa using Nat.le_of_succ_le_succ (by simpa using hlen)
        obtain ⟨a, b, hab⟩ := ih (some c) rest hlen' hfind'
        refine ⟨c :: a, b, ?_⟩
        simp [subLimitAux, hm, hab]

/-- Helper: a query with a `LIMIT n` clause keeps a `LIMIT m` clause after
global substitution by `m`. -/
lemma contains_limitRepl_of_findLimit (s : Str) (m : Nat) (h : findLimit s ≠ none) :
    containsSub (limitRepl m) (subLimitAll s m) = true := by
  obtain ⟨a, b, hab⟩ := subLimitAux_emits m s.length none s le_rfl h
  rw [subLimitAll, hab]
  exact containsSub_append_middle _ a b (by simp [limitRepl])

/-- **C2 counterexample.** `ensure_limit` checks for aggregates *first*
and returns aggregate queries untouched, so a query with `SUM(...)` and
`LIMIT 500` keeps `LIMIT 500` under default cap 200 — the claim demands
`LIMIT min(500, 200) = LIMIT 200` for *every* query that specifies a
limit. -/
theorem aggregate_limit_not_capped :
    findLimit (("select SUM(x) from t LIMIT 500").data) = some 500 ∧
    ensure_limit (("select SUM(x) from t LIMIT 500").data) 200
        = ("select SUM(x) from t LIMIT 500").data ∧
    containsSub (("LIMIT 500").data)
        (ensure_limit (("select SUM(x) from t LIMIT 500").data) 200) = true ∧
    containsSub (("LIMIT 200").data)
        (ensure_limit (("select SUM(x) from t LIMIT 500").data) 200) = false := by
  exact ⟨by decide, by decide, by decide, by decide⟩

/-- **C2 (amended).** For aggregate-free queries the row cap behaves as
claimed: an existing first `LIMIT n` is enforced to `LIMIT min(n, d)`
(the substituted clause is present in the output), and with no limit the
default is appended at the end (after stripping trailing semicolons).
Aggregate queries are returned entirely unchanged — their existing
limits are *not* capped and nothing is appended. -/
theorem ensure_limit_amended (sql : Str) (d n : Nat) :
    (hasAgg sql = true → ensure_limit sql d = sql) ∧
    (hasAgg sql = false → findLimit sql = some n →
      containsSub (limitRepl (min n d)) (ensure_limit sql d) = true) ∧
    (hasAgg sql = false → findLimit sql = none →
      ensure_limit sql d = rstrip (· == ';') (pyStrip sql) ++ '\n' :: limitRepl d) := by
  refine ⟨?_, ?_, ?_⟩
  · intro h
    simp [ensure_limit, h]
  · intro h hn
    have he : ensure_limit sql d = subLimitAll sql (min n d) := by
      simp [ensure_limit, h, hn]
    rw [he]
    apply contains_limitRepl_of_findLimit
    simp [hn]
  · intro h hn
    simp [ensure_limit, h, hn]

/-- Witness for C2 (amended), including the claim's own examples:
`LIMIT 500` with cap 200 becomes `LIMIT 200`, `LIMIT 50` stays, and an
aggregate query is unchanged. -/
theorem ensure_limit_amended_witness :
    containsSub (limitRepl (min 500 200))
        (ensure_limit (("select * from t LIMIT 500").data) 200) = true ∧
    ensure_limit (("select * from t LIMIT 500").data) 200
        = ("select * from t LIMIT 200").data ∧
    ensure_limit (("select * from t LIMIT 50").data) 200
        = ("select * from t LIMIT 50").data ∧
    ensure_limit (("select SUM(qty) from t").data) 200
        = ("select SUM(qty) from t").data ∧
    ensure_limit (("select * from t").data) 200
        = ("select * from t\nLIMIT 200").data :=
  ⟨(ensure_limit_amended (("select * from t LIMIT 500").data) 200 500).2.1
      (by decide) (by decide),
   by decide, by decide,
   (ensure_limit_amended (("select SUM(qty) from t").data) 200 0).1 (by decide),
   by decide⟩

/-! ## Character-class arithmetic (for the idempotence development) -/

lemma bool_eq_of_iff {a b : Bool} (h : a = true ↔ b = true) : a = b := by
  cases a <;> cases b <;> simp_all

lemma char_toNat_ofNat (n : Nat) (h : n < 55296) : (Char.ofNat n).toNat = n := by
  unfold Char.ofNat
  rw [dif_pos (Or.inl h)]
  rfl

lemma char_le_iff (a b : Char) : (a ≤ b) ↔ a.toNat ≤ b.toNat := by
  rw [Char.le_def]; rfl

lemma char_eq_iff (a b : Char) : a = b ↔ a.toNat = b.toNat := by
  constructor
  · intro h; rw [h]
  · intro h
    exact Char.ext (UInt32.ext h)

lemma beq_char_iff (a b : Char) : (a == b) = true ↔ a.toNat = b.toNat := by
  rw [beq_iff_eq, char_eq_iff]

lemma isPySpace_iff (c : Char) :
    isPySpace c = true ↔
      (c.toNat = 32 ∨ c.toNat = 9 ∨ c.toNat = 10 ∨ c.toNat = 13 ∨
       c.toNat = 11 ∨ c.toNat = 12) := by
  unfold isPySpace
  simp only [Bool.or_eq_true, beq_char_iff,
    (by decide : (' ' : Char).toNat = 32),
    (by decide : ('\t' : Char).toNat = 9),
    (by decide : ('\n' : Char).toNat = 10),
    (by decide : ('\r' : Char).toNat = 13),
    (by decide : (Char.ofNat 11).toNat = 11),
    (by decide : (Char.ofNat 12).toNat = 12)]
  tauto

lemma isWordChar_iff (c : Char) :
    isWordChar c = true ↔
      ((97 ≤ c.toNat ∧ c.toNat ≤ 122) ∨ (65 ≤ c.toNat ∧ c.toNat ≤ 90) ∨
       (48 ≤ c.toNat ∧ c.toNat ≤ 57) ∨ c.toNat = 95) := by
  unfold isWordChar
  simp only [Bool.or_eq_true, Bool.and_eq_true, decide_eq_true_eq, beq_char_iff,
    char_le_iff,
    (by decide : ('a' : Char).toNat = 97), (by decide : ('z' : Char).toNat = 122),
    (by decide : ('A' : Char).toNat = 65), (by decide : ('Z' : Char).toNat = 90),
    (by decide : ('0' : Char).toNat = 48), (by decide : ('9' : Char).toNat = 57),
    (by decide : ('_' : Char).toNat = 95)]
  tauto

lemma isDigitChar_iff (c : Char) :
    isDigitChar c = true ↔ (48 ≤ c.toNat ∧ c.toNat ≤ 57) := by
  unfold isDigitChar
  simp only [Bool.and_eq_true, decide_eq_true_eq, char_le_iff,
    (by decide : ('0' : Char).toNat = 48), (by decide : ('9' : Char).toNat = 57)]

lemma lowerChar_toNat (c : Char) :
    (lowerChar c).toNat =
      if 65 ≤ c.toNat ∧ c.toNat ≤ 90 then c.toNat + 32 else c.toNat := by
  unfold lowerChar
  have hcond : ('A' ≤ c && c ≤ 'Z') = true ↔ (65 ≤ c.toNat ∧ c.toNat ≤ 90) := by
    simp only [Bool.and_eq_true, decide_eq_true_eq, char_le_iff,
      (by decide : ('A' : Char).toNat = 65), (by decide : ('Z' : Char).toNat = 90)]
  by_cases h : 65 ≤ c.toNat ∧ c.toNat ≤ 90
  · rw [if_pos (hcond.mpr h), if_pos h, char_toNat_ofNat _ (by omega)]
  · rw [if_neg (fun hc => h (hcond.mp hc)), if_neg h]

lemma isPySpace_lower (c : Char) : isPySpace (lowerChar c) = isPySpace c := by
  apply bool_eq_of_iff
  rw [isPySpace_iff, isPySpace_iff, lowerChar_toNat]
  split <;> omega

lemma isDigitChar_lower (c : Char) : isDigitChar (lowerChar c) = isDigitChar c := by
  apply bool_eq_of_iff
  rw [isDigitChar_iff, isDigitChar_iff, lowerChar_toNat]
  split <;> omega

lemma isWordChar_lower (c : Char) : isWordChar (lowerChar c) = isWordChar c := by
  apply bool_eq_of_iff
  rw [isWordChar_iff, isWordChar_iff, lowerChar_toNat]
  split <;> omega

lemma lowerChar_idem (c : Char) : lowerChar (lowerChar c) = lowerChar c := by
  rw [char_eq_iff, lowerChar_toNat, lowerChar_toNat]
  split_ifs <;> omega

lemma lowerStr_idem (s : Str) : lowerStr (lowerStr s) = lowerStr s := by
  unfold lowerStr
  rw [List.map_map]
  exact List.map_congr_left (fun c _ => lowerChar_idem c)

/-- A character whose lower-casing is a lower-case letter is a word
character. -/
lemma isWordChar_of_lower_letter {c : Char}
    (h : 97 ≤ (lowerChar c).toNat ∧ (lowerChar c).toNat ≤ 122) :
    isWordChar c = true := by
  rw [isWordChar_iff]
  rw [lowerChar_toNat] at h
  split at h <;> omega

/-! ## Decimal rendering facts -/

lemma natDigitsAux_all_digit :
    ∀ (fuel n : Nat), ∀ c ∈ natDigitsAux fuel n, isDigitChar c = true := by
  intro fuel
  induction fuel with
  | zero => intro n c hc; simp [natDigitsAux] at hc
  | succ f ih =>
    intro n c hc
    unfold natDigitsAux at hc
    split at hc
    · rename_i h
      simp only [List.mem_singleton] at hc
      subst hc
      rw [isDigitChar_iff, char_toNat_ofNat _ (by omega)]
      omega
    · rename_i h
      rcases List.mem_append.mp hc with h1 | h1
      · exact ih _ c h1
      · simp only [List.mem_singleton] at h1
        subst h1
        have hm : n % 10 < 10 := Nat.mod_lt n (by omega)
        rw [isDigitChar_iff, char_toNat_ofNat _ (by omega)]
        omega

lemma natDigits_all_digit (n : Nat) : ∀ c ∈ natDigits n, isDigitChar c = true :=
  natDigitsAux_all_digit _ n

lemma natDigitsAux_ne_nil : ∀ (fuel n : Nat), n < fuel → natDigitsAux fuel n ≠ [] := by
  intro fuel n hf
  cases fuel with
  | zero => omega
  | succ f =>
    unfold natDigitsAux
    split
    · simp
    · simp

lemma natDigits_ne_nil (n : Nat) : natDigits n ≠ [] :=
  natDigitsAux_ne_nil _ _ (Nat.lt_succ_self n)

lemma digitsToNat_append_singleton (a : Str) (c : Char) :
    digitsToNat (a ++ [c]) = digitsToNat a * 10 + (c.toNat - 48) := by
  unfold digitsToNat
  rw [List.foldl_append]
  rfl

lemma digitsToNat_natDigitsAux :
    ∀ (fuel n : Nat), n < fuel → digitsToNat (natDigitsAux fuel n) = n := by
  intro fuel
  induction fuel with
  | zero => intro n h; omega
  | succ f ih =>
    intro n h
    unfold natDigitsAux
    split
    · rename_i h10
      have hh := char_toNat_ofNat (48 + n) (by omega)
      unfold digitsToNat
      simp only [List.foldl_cons, List.foldl_nil, hh]
      omega
    · rename_i h10
      have hm : n % 10 < 10 := Nat.mod_lt n (by omega)
      have hh := char_toNat_ofNat (48 + n % 10) (by omega)
      rw [digitsToNat_append_singleton,
        ih (n / 10) (by
          have := Nat.div_lt_self (by omega : 0 < n) (by omega : 1 < 10)
          omega),
        hh]
      have h1 := Nat.div_add_mod n 10
      omega

lemma digitsToNat_natDigits (n : Nat) : digitsToNat (natDigits n) = n :=
  digitsToNat_natDigitsAux _ n (Nat.lt_succ_self n)

/-! ## List and character-class helper corollaries -/

lemma lastPrev_nil (prev : Option Char) : lastPrev prev [] = prev := rfl

lemma lastPrev_cons (prev : Option Char) (c : Char) (x : Str) :
    lastPrev prev (c :: x) = lastPrev (some c) x := by
  cases x with
  | nil => rfl
  | cons d xs =>
    unfold lastPrev
    rw [List.getLast?_cons_cons]
    cases hgl : (d :: xs).getLast? with
    | none => simp at hgl
    | some e => rfl

lemma drop_length_takeWhile (p : Char → Bool) (l : Str) :
    l.drop (l.takeWhile p).length = l.dropWhile p := by
  induction l with
  | nil => rfl
  | cons c cs ih =>
    rw [List.takeWhile_cons, List.dropWhile_cons]
    cases hpc : p c
    · simp
    · simp only [if_true, List.length_cons, List.drop_succ_cons]
      exact ih

lemma takeWhile_append_of_head {p : Char → Bool} {y : Str}
    (hy : ∀ c, y.head? = some c → p c = false) (x : Str) :
    (x ++ y).takeWhile p = x.takeWhile p := by
  induction x with
  | nil =>
    simp only [List.nil_append, List.takeWhile_nil]
    cases y with
    | nil => rfl
    | cons c ys =>
      rw [List.takeWhile_cons, hy c rfl]
      simp
  | cons c xs ih =>
    rw [List.cons_append, List.takeWhile_cons, List.takeWhile_cons]
    cases hpc : p c
    · rfl
    · rw [ih]

lemma takeWhile_eq_self_of_all {p : Char → Bool} {x : Str}
    (hx : ∀ c ∈ x, p c = true) : x.takeWhile p = x := by
  induction x with
  | nil => rfl
  | cons c xs ih =>
    rw [List.takeWhile_cons, hx c (List.mem_cons_self c xs)]
    simp only [if_true]
    rw [ih (fun d hd => hx d (List.mem_cons_of_mem c hd))]

lemma drop_append_len {x : Str} (y : Str) {k : Nat} (h : x.length = k) :
    (x ++ y).drop k = y := by
  subst h
  exact List.drop_left x y

lemma isPrefixOf_take {pat l : Str} (h : pat.isPrefixOf l = true) :
    l.take pat.length = pat := by
  obtain ⟨t, ht⟩ := List.isPrefixOf_iff_prefix.mp h
  rw [← ht, List.take_left]

lemma digit_is_word {c : Char} (h : isDigitChar c = true) : isWordChar c = true := by
  rw [isDigitChar_iff] at h
  rw [isWordChar_iff]
  omega

lemma digit_not_space {c : Char} (h : isDigitChar c = true) : isPySpace c = false := by
  rw [isDigitChar_iff] at h
  cases hs : isPySpace c
  · rfl
  · rw [isPySpace_iff] at hs
    omega

lemma nonword_not_digit {c : Char} (h : isWordChar c = false) : isDigitChar c = false := by
  cases hd : isDigitChar c
  · rfl
  · rw [digit_is_word hd] at h
    cases h

lemma prefix_limit_head_word {c : Char} {l : Str}
    (h : ("limit".data).isPrefixOf (lowerStr (c :: l)) = true) : isWordChar c = true := by
  have h5 := isPrefixOf_take h
  have hc : lowerChar c = 'l' := by
    have : (lowerStr (c :: l)).take 5 = "limit".data := h5
    rw [lowerStr, List.map_cons] at this
    cases l with
    | nil => simp at this
    | cons d ds =>
      simp only [List.map_cons, List.take] at this
      exact (List.cons.injEq _ _ _ _).mp this |>.1
  apply isWordChar_of_lower_letter
  rw [hc]
  constructor <;> decide

/-! ## Structure of a `LIMIT` match -/

lemma limitMatchAt_eq_some {prev : Option Char} {s : Str} {hit : LimitHit}
    (h : limitMatchAt prev s = some hit) :
    wordBoundaryOk prev = true ∧
    lowerStr (s.take 5) = ("limit").data ∧
    s = s.take 5 ++ (limitSp s ++ (limitDg s ++ limitTail s)) ∧
    limitSp s ≠ [] ∧ (∀ c ∈ limitSp s, isPySpace c = true) ∧
    limitDg s ≠ [] ∧ (∀ c ∈ limitDg s, isDigitChar c = true) ∧
    (∀ c, (limitTail s).head? = some c → isWordChar c = false) ∧
    hit = ⟨digitsToNat (limitDg s), (limitDg s).getLastD '0', limitTail s⟩ := by
  unfold limitMatchAt at h
  split at h
  case isTrue hcond =>
    simp only [Bool.and_eq_true, Bool.not_eq_true'] at hcond
    obtain ⟨⟨⟨⟨hb, hpre⟩, hsp⟩, hdg⟩, htl⟩ := hcond
    have hlen5 : ("limit".data : Str).length = 5 := by decide
    have htake : lowerStr (s.take 5) = ("limit").data := by
      rw [lowerStr, List.map_take]
      have := isPrefixOf_take hpre
      rw [hlen5] at this
      exact this
    have hdec1 : s = s.take 5 ++ s.drop 5 := (List.take_append_drop 5 s).symm
    have hdec2 : s.drop 5 = limitSp s ++ (s.drop 5).drop (limitSp s).length := by
      rw [show limitSp s = (s.drop 5).takeWhile isPySpace from rfl,
        drop_length_takeWhile]
      exact (List.takeWhile_append_dropWhile _ _).symm
    have hdec3 : (s.drop 5).drop (limitSp s).length
        = limitDg s ++ limitTail s := by
      rw [show limitTail s
            = ((s.drop 5).drop (limitSp s).length).drop (limitDg s).length from rfl,
        show limitDg s
            = ((s.drop 5).drop (limitSp s).length).takeWhile isDigitChar from rfl,
        drop_length_takeWhile]
      exact (List.takeWhile_append_dropWhile _ _).symm
    refine ⟨hb, htake, ?_, ?_, ?_, ?_, ?_, ?_, ?_⟩
    · conv_lhs => rw [hdec1]
      rw [hdec2, hdec3]
    · simpa [List.isEmpty_iff] using hsp
    · intro c hc
      exact List.mem_takeWhile_imp hc
    · simpa [List.isEmpty_iff] using hdg
    · intro c hc
      exact List.mem_takeWhile_imp hc
    · intro c hc
      cases hhd : (limitTail s).head? with
      | none => rw [hhd] at hc; cases hc
      | some d =>
        rw [hhd] at hc
        cases hc
        simp only [hhd, Option.any_some] at htl
        exact htl
    · cases h
      rfl
  case isFalse =>
    cases h

lemma limitMatchAt_construct {prev : Option Char} {w sp dg rem : Str}
    (hb : wordBoundaryOk prev = true)
    (hw : lowerStr w = ("limit").data)
    (hsp : sp ≠ []) (hspall : ∀ c ∈ sp, isPySpace c = true)
    (hdg : dg ≠ []) (hdgall : ∀ c ∈ dg, isDigitChar c = true)
    (hrem : ∀ c, rem.head? = some c → isWordChar c = false) :
    limitMatchAt prev (w ++ (sp ++ (dg ++ rem)))
      = some ⟨digitsToNat dg, dg.getLastD '0', rem⟩ := by
  have hwlen : w.length = 5 := by
    have := congrArg List.length hw
    simpa [lowerStr] using this
  have hdghead : ∀ c, (dg ++ rem).head? = some c → isPySpace c = false := by
    intro c hc
    cases dg with
    | nil => exact absurd rfl hdg
    | cons d ds =>
      simp only [List.cons_append, List.head?_cons, Option.some.injEq] at hc
      subst hc
      exact digit_not_space (hdgall _ (List.mem_cons_self _ _))
  have hremhead : ∀ c, rem.head? = some c → isDigitChar c = false := by
    intro c hc
    exact nonword_not_digit (hrem c hc)
  have hdrop5 : (w ++ (sp ++ (dg ++ rem))).drop 5 = sp ++ (dg ++ rem) :=
    drop_append_len _ hwlen
  have hsp_eq : limitSp (w ++ (sp ++ (dg ++ rem))) = sp := by
    unfold limitSp
    rw [hdrop5, takeWhile_append_of_head hdghead, takeWhile_eq_self_of_all hspall]
  have hdg_eq : limitDg (w ++ (sp ++ (dg ++ rem))) = dg := by
    unfold limitDg
    rw [show ((w ++ (sp ++ (dg ++ rem))).drop 5) = sp ++ (dg ++ rem) from hdrop5,
      hsp_eq, drop_append_len _ rfl, takeWhile_append_of_head hremhead,
      takeWhile_eq_self_of_all hdgall]
  have htl_eq : limitTail (w ++ (sp ++ (dg ++ rem))) = rem := by
    unfold limitTail
    rw [show ((w ++ (sp ++ (dg ++ rem))).drop 5) = sp ++ (dg ++ rem) from hdrop5,
      hsp_eq, drop_append_len _ rfl, hdg_eq, drop_append_len _ rfl]
  have hpre : ("limit".data).isPrefixOf (lowerStr (w ++ (sp ++ (dg ++ rem)))) = true := by
    rw [List.isPrefixOf_iff_prefix]
    rw [lowerStr, List.map_append, ← lowerStr, ← lowerStr, hw]
    exact List.prefix_append _ _
  have hcond : (wordBoundaryOk prev &&
      ("limit".data).isPrefixOf (lowerStr (w ++ (sp ++ (dg ++ rem)))) &&
      !(limitSp (w ++ (sp ++ (dg ++ rem)))).isEmpty &&
      !(limitDg (w ++ (sp ++ (dg ++ rem)))).isEmpty &&
      !((limitTail (w ++ (sp ++ (dg ++ rem)))).head?.any isWordChar)) = true := by
    rw [hb, hpre, hsp_eq, hdg_eq, htl_eq]
    simp only [Bool.true_and, Bool.and_eq_true, Bool.not_eq_true']
    refine ⟨⟨by simpa [List.isEmpty_iff] using hsp, by simpa [List.isEmpty_iff] using hdg⟩, ?_⟩
    cases hhd : rem.head? with
    | none => rfl
    | some d => simp [hrem d hhd]
  unfold limitMatchAt
  rw [if_pos hcond, hdg_eq, htl_eq]

/-! ## Parsing the replacement text, and scan congruences -/

lemma getLastD_mem : ∀ (l : Str), l ≠ [] → ∀ d : Char, l.getLastD d ∈ l := by
  intro l
  induction l with
  | nil => intro h; exact absurd rfl h
  | cons c cs ih =>
    intro _ d
    rw [List.getLastD_cons]
    cases cs with
    | nil => simp [List.getLastD]
    | cons e es => exact List.mem_cons_of_mem c (ih (by simp) c)

lemma limitReplParse {prev : Option Char} {t : Str} (m : Nat)
    (hb : wordBoundaryOk prev = true)
    (ht : ∀ c, t.head? = some c → isWordChar c = false) :
    limitMatchAt prev (limitRepl m ++ t)
      = some ⟨m, (natDigits m).getLastD '0', t⟩ := by
  have h := @limitMatchAt_construct prev ("LIMIT".data)
    [' '] (natDigits m) t hb (by decide) (by simp)
    (by intro c hc; simp only [List.mem_singleton] at hc; subst hc; decide)
    (natDigits_ne_nil m) (natDigits_all_digit m) ht
  have harr : limitRepl m ++ t = ("LIMIT".data) ++ ([' '] ++ (natDigits m ++ t)) := by
    rw [limitRepl, show ("LIMIT ".data : Str) = "LIMIT".data ++ [' '] from by decide]
    simp [List.append_assoc]
  rw [harr, h, digitsToNat_natDigits]

lemma limitMatchAt_head_word {prev : Option Char} {c : Char} {rest : Str} {hit : LimitHit}
    (h : limitMatchAt prev (c :: rest) = some hit) : isWordChar c = true := by
  obtain ⟨-, htake, -⟩ := limitMatchAt_eq_some h
  rw [List.take_succ_cons, lowerStr, List.map_cons] at htake
  have hc : lowerChar c = 'l' := by
    have := congrArg (fun l => l.head?) htake
    simpa using this
  apply isWordChar_of_lower_letter
  rw [hc]
  exact ⟨by decide, by decide⟩

lemma subLimitAux_nil (m fuel : Nat) (prev : Option Char) :
    subLimitAux m fuel prev [] = [] := by
  cases fuel <;> rfl

lemma nomatch_id (m : Nat) : ∀ (fuel : Nat) (prev : Option Char) (s : Str),
    findLimitAux prev s = none → subLimitAux m fuel prev s = s := by
  intro fuel
  induction fuel with
  | zero => intro prev s h; rfl
  | succ f ih =>
    intro prev s h
    cases s with
    | nil => rfl
    | cons c rest =>
      unfold findLimitAux at h
      cases hm : limitMatchAt prev (c :: rest) with
      | some hit => rw [hm] at h; cases h
      | none =>
        rw [hm] at h
        simp only [subLimitAux, hm]
        rw [ih (some c) rest h]

lemma limitMatchAt_prev_congr {p₁ p₂ : Option Char}
    (h : wordBoundaryOk p₁ = wordBoundaryOk p₂) (s : Str) :
    limitMatchAt p₁ s = limitMatchAt p₂ s := by
  unfold limitMatchAt
  rw [h]

lemma subLimitAux_prev_congr (m : Nat) (fuel : Nat) {p₁ p₂ : Option Char}
    (h : wordBoundaryOk p₁ = wordBoundaryOk p₂) (s : Str) :
    subLimitAux m fuel p₁ s = subLimitAux m fuel p₂ s := by
  cases fuel with
  | zero => rfl
  | succ f =>
    cases s with
    | nil => rfl
    | cons c rest =>
      unfold subLimitAux
      rw [limitMatchAt_prev_congr h]

lemma findLimitAux_prev_congr {p₁ p₂ : Option Char}
    (h : wordBoundaryOk p₁ = wordBoundaryOk p₂) (s : Str) :
    findLimitAux p₁ s = findLimitAux p₂ s := by
  cases s with
  | nil => rfl
  | cons c rest =>
    unfold findLimitAux
    rw [limitMatchAt_prev_congr h]

lemma subLimitAux_head {m fuel : Nat} {prev : Option Char} {s : Str}
    (h : ∀ c, s.head? = some c → isWordChar c = false) :
    (subLimitAux m fuel prev s).head? = s.head? := by
  cases fuel with
  | zero => rfl
  | succ f =>
    cases s with
    | nil => rfl
    | cons c rest =>
      have hc := h c rfl
      cases hm : limitMatchAt prev (c :: rest) with
      | some hit =>
        rw [limitMatchAt_head_word hm] at hc
        cases hc
      | none => simp [subLimitAux, hm]

lemma subLimitAux_fuel_congr (m : Nat) : ∀ (N : Nat) (s : Str), s.length ≤ N →
    ∀ (f₁ f₂ : Nat) (prev : Option Char), s.length ≤ f₁ → s.length ≤ f₂ →
      subLimitAux m f₁ prev s = subLimitAux m f₂ prev s := by
  intro N
  induction N with
  | zero =>
    intro s hs f₁ f₂ prev h1 h2
    have hnil : s = [] := List.eq_nil_of_length_eq_zero (Nat.le_zero.mp hs)
    subst hnil
    rw [subLimitAux_nil, subLimitAux_nil]
  | succ N ih =>
    intro s hs f₁ f₂ prev h1 h2
    cases s with
    | nil => rw [subLimitAux_nil, subLimitAux_nil]
    | cons c rest =>
      cases f₁ with
      | zero => simp at h1
      | succ g₁ =>
        cases f₂ with
        | zero => simp at h2
        | succ g₂ =>
          unfold subLimitAux
          cases hm : limitMatchAt prev (c :: rest) with
          | some hit =>
            have hrem : hit.rem = limitTail (c :: rest) := limitMatchAt_rem hm
            have hlen := limitTail_length (c :: rest)
            simp only [List.length_cons] at hs h1 h2 hlen
            exact congrArg (fun l => limitRepl m ++ l)
              (ih hit.rem (by rw [hrem]; omega) g₁ g₂ (some hit.last)
                (by rw [hrem]; omega) (by rw [hrem]; omega))
          | none =>
            simp only [List.length_cons] at hs h1 h2
            exact congrArg (c :: ·)
              (ih rest (by omega) g₁ g₂ (some c) (by omega) (by omega))

/-! ## List utilities for the idempotence development -/

lemma takeWhile_ne_nil_iff_head (p : Char → Bool) (u : Str) :
    (u.takeWhile p).isEmpty = false ↔ u.head?.any p = true := by
  cases u with
  | nil => simp [List.takeWhile_nil]
  | cons c r =>
    rw [List.takeWhile_cons]
    cases hpc : p c <;> simp [hpc]

lemma dropWhile_append_all {p : Char → Bool} {a : Str}
    (ha : ∀ c ∈ a, p c = true) (b : Str) :
    (a ++ b).dropWhile p = b.dropWhile p := by
  induction a with
  | nil => rfl
  | cons c a' ih =>
    rw [List.cons_append, List.dropWhile_cons, ha c (List.mem_cons_self c a')]
    simp only [if_true]
    exact ih (fun d hd => ha d (List.mem_cons_of_mem c hd))

lemma dropWhile_eq_self_of_head {p : Char → Bool} {u : Str}
    (h : ∀ c, u.head? = some c → p c = false) : u.dropWhile p = u := by
  cases u with
  | nil => rfl
  | cons c r =>
    rw [List.dropWhile_cons, h c rfl]
    simp

lemma dropWhile_append_of_head {p : Char → Bool} {a b : Str}
    (ha : ∀ c ∈ a, p c = true) (hb : ∀ c, b.head? = some c → p c = false) :
    (a ++ b).dropWhile p = b := by
  rw [dropWhile_append_all ha, dropWhile_eq_self_of_head hb]

lemma takeWhile_append_all {p : Char → Bool} {a b : Str}
    (ha : ∀ c ∈ a, p c = true) (hb : ∀ c, b.head? = some c → p c = false) :
    (a ++ b).takeWhile p = a := by
  induction a with
  | nil =>
    simp only [List.nil_append]
    cases b with
    | nil => rfl
    | cons c r =>
      rw [List.takeWhile_cons, hb c rfl]
      simp
  | cons c a' ih =>
    rw [List.cons_append, List.takeWhile_cons, ha c (List.mem_cons_self c a')]
    simp only [if_true, List.cons.injEq, true_and]
    exact ih (fun d hd => ha d (List.mem_cons_of_mem c hd))

lemma isPrefixOf_append_left {w a : Str} (b : Str) (h : w.length ≤ a.length) :
    w.isPrefixOf (a ++ b) = w.isPrefixOf a := by
  cases hwa : w.isPrefixOf a
  · cases hw : w.isPrefixOf (a ++ b)
    · rfl
    · exfalso
      have htk := isPrefixOf_take hw
      rw [List.take_append_eq_append_take, Nat.sub_eq_zero_of_le h,
        List.take_zero, List.append_nil] at htk
      have : w.isPrefixOf a = true :=
        List.isPrefixOf_iff_prefix.mpr ⟨a.drop w.length, by nth_rewrite 1 [← htk]; exact List.take_append_drop _ _⟩
      rw [this] at hwa
      cases hwa
  · obtain ⟨t, rfl⟩ := List.isPrefixOf_iff_prefix.mp hwa
    apply List.isPrefixOf_iff_prefix.mpr
    exact ⟨t ++ b, by simp⟩

lemma isPrefixOf_false_of_short {w a : Str} (h : a.length < w.length) :
    w.isPrefixOf a = false := by
  cases hw : w.isPrefixOf a
  · rfl
  · have := (List.isPrefixOf_iff_prefix.mp hw).length_le
    omega

lemma isPrefixOf_getElem {w l : Str} (h : w.isPrefixOf l = true)
    {i : Nat} (hi : i < w.length) : l[i]? = w[i]? := by
  obtain ⟨t, rfl⟩ := List.isPrefixOf_iff_prefix.mp h
  rw [List.getElem?_append_left hi]

lemma getLast?_mem_str {l : Str} {c : Char} (h : l.getLast? = some c) : c ∈ l := by
  rw [List.getLast?_eq_head?_reverse] at h
  exact List.mem_reverse.mp (List.mem_of_mem_head? h)

lemma space_not_word {c : Char} (h : isPySpace c = true) : isWordChar c = false := by
  cases hw : isWordChar c
  · rfl
  · rw [isPySpace_iff] at h
    rw [isWordChar_iff] at hw
    omega

lemma word_not_space {c : Char} (h : isWordChar c = true) : isPySpace c = false := by
  cases hs : isPySpace c
  · rfl
  · rw [space_not_word hs] at h
    cases h

lemma limit_chars_word : ∀ c ∈ ("limit").data, isWordChar c = true := by decide

lemma head?_append_of_ne_nil {a : Str} (b : Str) (h : a ≠ []) :
    (a ++ b).head? = a.head? := by
  cases a with
  | nil => exact absurd rfl h
  | cons c r => rfl

/-! ## The right-strip decomposition -/

lemma rstrip_decomp (p : Char → Bool) (u : Str) :
    ∃ tr : Str, u = rstrip p u ++ tr ∧ ∀ c ∈ tr, p c = true := by
  refine ⟨(u.reverse.takeWhile p).reverse, ?_, ?_⟩
  · rw [rstrip]
    rw [← List.reverse_append, List.takeWhile_append_dropWhile, List.reverse_reverse]
  · intro c hc
    rw [List.mem_reverse] at hc
    exact List.mem_takeWhile_imp hc

lemma rstrip_append_all {p : Char → Bool} {b : Str}
    (hb : ∀ c ∈ b, p c = true) (a : Str) :
    rstrip p (a ++ b) = rstrip p a := by
  rw [rstrip, rstrip, List.reverse_append,
    dropWhile_append_all (fun c hc => hb c (List.mem_reverse.mp hc))]

lemma rstrip_eq_self_of_getLast {p : Char → Bool} {u : Str}
    (h : ∀ c, u.getLast? = some c → p c = false) : rstrip p u = u := by
  rw [rstrip, dropWhile_eq_self_of_head, List.reverse_reverse]
  intro c hc
  exact h c (by rw [List.getLast?_eq_head?_reverse]; exact hc)

lemma mem_rstrip {p : Char → Bool} {u : Str} {c : Char}
    (h : c ∈ rstrip p u) : c ∈ u := by
  obtain ⟨tr, hu, -⟩ := rstrip_decomp p u
  rw [hu]
  exact List.mem_append_left _ h

lemma rstrip_append_of_getLast {p : Char → Bool} {b : Str} (a : Str)
    (h : ∀ c, b.getLast? = some c → p c = false) (hb : b ≠ []) :
    rstrip p (a ++ b) = a ++ b := by
  apply rstrip_eq_self_of_getLast
  intro c hc
  apply h c
  rw [← hc, List.getLast?_append_of_ne_nil _ hb]

/-! ## The match verdict in phase form -/

lemma limQ0_drop5 (u : Str) :
    limQ0 (u.drop 5)
      = (!(limitSp u).isEmpty && (!(limitDg u).isEmpty
          && !((limitTail u).head?.any isWordChar))) := by
  have hsp_eq : limitSp u = (u.drop 5).takeWhile isPySpace := rfl
  have h1 : (u.drop 5).dropWhile isPySpace = (u.drop 5).drop (limitSp u).length := by
    rw [hsp_eq, drop_length_takeWhile]
  have hhead : ((u.drop 5).head?.any isPySpace) = !(limitSp u).isEmpty := by
    cases hh : (limitSp u).isEmpty
    · rw [hsp_eq] at hh
      rw [(takeWhile_ne_nil_iff_head isPySpace (u.drop 5)).mp hh]
      rfl
    · cases ha : (u.drop 5).head?.any isPySpace
      · rfl
      · rw [hsp_eq] at hh
        rw [(takeWhile_ne_nil_iff_head isPySpace (u.drop 5)).mpr ha] at hh
        cases hh
  have hdg_eq : limitDg u = ((u.drop 5).dropWhile isPySpace).takeWhile isDigitChar := by
    rw [h1]
    rfl
  have htl_eq : limitTail u = ((u.drop 5).dropWhile isPySpace).dropWhile isDigitChar := by
    rw [limitTail, ← h1, hdg_eq, drop_length_takeWhile]
  rw [limQ0, limQ1, limQ2, hhead, ← hdg_eq, ← htl_eq]

lemma limitMatchAt_isSome_form (p : Option Char) (u : Str) :
    (limitMatchAt p u).isSome
      = (wordBoundaryOk p && ((("limit").data.isPrefixOf (lowerStr u))
          && limQ0 (u.drop 5))) := by
  rw [limQ0_drop5]
  unfold limitMatchAt
  split
  case isTrue h =>
    simp only [Option.isSome_some]
    symm
    simpa [Bool.and_assoc] using h
  case isFalse h =>
    simp only [Option.isSome_none]
    symm
    rw [Bool.eq_false_iff]
    intro hcon
    apply h
    simpa [Bool.and_assoc] using hcon

lemma limitMatchAt_eq_none_of_form {p : Option Char} {u : Str}
    (h : (wordBoundaryOk p && ((("limit").data.isPrefixOf (lowerStr u))
          && limQ0 (u.drop 5))) = false) : limitMatchAt p u = none := by
  cases hm : limitMatchAt p u with
  | none => rfl
  | some hit =>
    have := limitMatchAt_isSome_form p u
    rw [hm, h] at this
    cases this

lemma limitMatchAt_isSome_of_ne_none {p : Option Char} {u : Str}
    (h : limitMatchAt p u ≠ none) : (limitMatchAt p u).isSome = true := by
  cases hm : limitMatchAt p u with
  | none => exact absurd hm h
  | some hit => rfl

/-! ## Reduction laws for the phase predicates -/

lemma limQ2_nil : limQ2 [] = true := rfl

lemma limQ2_cons_digit {c : Char} (h : isDigitChar c = true) (u : Str) :
    limQ2 (c :: u) = limQ2 u := by
  rw [limQ2, limQ2, List.dropWhile_cons, h]
  simp

lemma limQ2_cons_nondigit {c : Char} (h : isDigitChar c = false) (u : Str) :
    limQ2 (c :: u) = !isWordChar c := by
  rw [limQ2, List.dropWhile_cons, h]
  simp

lemma limQ1_nil : limQ1 [] = false := rfl

lemma limQ1_cons_space {c : Char} (h : isPySpace c = true) (u : Str) :
    limQ1 (c :: u) = limQ1 u := by
  rw [limQ1, limQ1, List.dropWhile_cons, h]
  simp

lemma limQ1_cons_digit {c : Char} (h : isDigitChar c = true) (u : Str) :
    limQ1 (c :: u) = limQ2 u := by
  have hns : isPySpace c = false := digit_not_space h
  rw [limQ1, List.dropWhile_cons, hns]
  rw [if_neg (show ¬(false = true) by decide)]
  rw [List.takeWhile_cons, h]
  rw [limQ2_cons_digit h]
  simp

lemma limQ1_cons_other {c : Char} (h1 : isPySpace c = false)
    (h2 : isDigitChar c = false) (u : Str) :
    limQ1 (c :: u) = false := by
  rw [limQ1, List.dropWhile_cons, h1]
  rw [if_neg (show ¬(false = true) by decide)]
  rw [List.takeWhile_cons, h2]
  simp

lemma limQ0_nil : limQ0 [] = false := rfl

lemma limQ0_cons_space {c : Char} (h : isPySpace c = true) (u : Str) :
    limQ0 (c :: u) = limQ1 u := by
  rw [limQ0, limQ1_cons_space h]
  simp [h]

lemma limQ0_cons_nonspace {c : Char} (h : isPySpace c = false) (u : Str) :
    limQ0 (c :: u) = false := by
  rw [limQ0]
  simp [h]

/-! ## Appending inert context to a match position -/

lemma mem_of_getElem_opt {l : Str} {n : Nat} {a : Char} (h : l[n]? = some a) : a ∈ l := by
  have hn : n < l.length := by
    by_contra hc
    rw [List.getElem?_eq_none (by omega)] at h
    cases h
  rw [List.getElem?_eq_getElem hn] at h
  cases h
  exact List.getElem_mem hn

lemma any_congr_str {l : List Str} {f g : Str → Bool} (h : ∀ a ∈ l, f a = g a) :
    l.any f = l.any g := by
  induction l with
  | nil => rfl
  | cons c r ih =>
    simp only [List.any_cons, h c (List.mem_cons_self c r),
      ih (fun a ha => h a (List.mem_cons_of_mem c ha))]

lemma isPrefixOf_append_cons_false {w u : Str} {c : Char} {r : Str}
    (hw : ∀ ch ∈ w, isWordChar ch = true)
    (hc : isWordChar c = false) (hlen : u.length < w.length) :
    w.isPrefixOf (lowerStr (u ++ c :: r)) = false := by
  cases hp : w.isPrefixOf (lowerStr (u ++ c :: r))
  · rfl
  · exfalso
    have hidx := isPrefixOf_getElem hp hlen
    rw [lowerStr, List.map_append] at hidx
    rw [List.getElem?_append_right (by simp)] at hidx
    simp only [List.length_map, Nat.sub_self] at hidx
    have hl : (List.map lowerChar (c :: r))[0]? = some (lowerChar c) := by simp
    rw [hl] at hidx
    cases hg : w[u.length]? with
    | none => rw [hg] at hidx; cases hidx
    | some ch =>
      rw [hg] at hidx
      have hch : ch ∈ w := mem_of_getElem_opt hg
      have hword := hw ch hch
      have hlow : isWordChar (lowerChar c) = false := by
        rw [isWordChar_lower]
        exact hc
      rw [(Option.some.injEq _ _).mp hidx, hword] at hlow
      cases hlow

lemma limQ2_append {v : Str}
    (hvh : ∀ c, v.head? = some c → isWordChar c = false) (b : Str) :
    limQ2 (b ++ v) = limQ2 b := by
  induction b with
  | nil =>
    simp only [List.nil_append, limQ2_nil]
    rw [limQ2, dropWhile_eq_self_of_head (fun c hc => nonword_not_digit (hvh c hc))]
    cases hv : v.head? with
    | none => simp [hv]
    | some c => simp [hv, hvh c hv]
  | cons d b' ih =>
    rw [List.cons_append]
    cases hd : isDigitChar d
    · rw [limQ2_cons_nondigit hd, limQ2_cons_nondigit hd]
    · rw [limQ2_cons_digit hd, limQ2_cons_digit hd, ih]

lemma limQ1_no_digit {v : Str}
    (hv2 : ∀ c, (v.dropWhile isPySpace).head? = some c → isDigitChar c = false) :
    limQ1 v = false := by
  rw [limQ1]
  have hemp : ((v.dropWhile isPySpace).takeWhile isDigitChar).isEmpty = true := by
    cases he : ((v.dropWhile isPySpace).takeWhile isDigitChar).isEmpty
    · have hany := (takeWhile_ne_nil_iff_head isDigitChar (v.dropWhile isPySpace)).mp he
      cases hh : (v.dropWhile isPySpace).head? with
      | none => rw [hh] at hany; cases hany
      | some c =>
        rw [hh] at hany
        simp only [Option.any_some] at hany
        rw [hv2 c hh] at hany
        cases hany
    · rfl
  rw [hemp]
  simp

lemma limQ1_append {v : Str}
    (hvh : ∀ c, v.head? = some c → isWordChar c = false)
    (hv2 : ∀ c, (v.dropWhile isPySpace).head? = some c → isDigitChar c = false)
    (b : Str) : limQ1 (b ++ v) = limQ1 b := by
  induction b with
  | nil =>
    simp only [List.nil_append, limQ1_nil]
    exact limQ1_no_digit hv2
  | cons d b' ih =>
    rw [List.cons_append]
    cases hsd : isPySpace d
    · cases hdd : isDigitChar d
      · rw [limQ1_cons_other hsd hdd, limQ1_cons_other hsd hdd]
      · rw [limQ1_cons_digit hdd, limQ1_cons_digit hdd, limQ2_append hvh]
    · rw [limQ1_cons_space hsd, limQ1_cons_space hsd, ih]

lemma limQ0_append {v : Str}
    (hvh : ∀ c, v.head? = some c → isWordChar c = false)
    (hv2 : ∀ c, (v.dropWhile isPySpace).head? = some c → isDigitChar c = false)
    (a : Str) : limQ0 (a ++ v) = limQ0 a := by
  cases a with
  | nil =>
    simp only [List.nil_append, limQ0_nil]
    rw [limQ0, limQ1_no_digit hv2]
    simp
  | cons c a' =>
    rw [List.cons_append]
    cases hc : isPySpace c
    · rw [limQ0_cons_nonspace hc, limQ0_cons_nonspace hc]
    · rw [limQ0_cons_space hc, limQ0_cons_space hc, limQ1_append hvh hv2]

lemma limitMatchAt_append_ctx {v : Str}
    (hvh : ∀ c, v.head? = some c → isWordChar c = false)
    (hv2 : ∀ c, (v.dropWhile isPySpace).head? = some c → isDigitChar c = false)
    (p : Option Char) (u : Str) :
    limitMatchAt p (u ++ v)
      = match limitMatchAt p u with
        | some hit => some ⟨hit.value, hit.last, hit.rem ++ v⟩
        | none => none := by
  cases hm : limitMatchAt p u with
  | some hit =>
    obtain ⟨hb, htake, hdec, hspne, hspall, hdgne, hdgall, htl, hhit⟩ :=
      limitMatchAt_eq_some hm
    have hremhead : ∀ c, (limitTail u ++ v).head? = some c → isWordChar c = false := by
      intro c hc
      cases htlu : limitTail u with
      | nil =>
        rw [htlu, List.nil_append] at hc
        exact hvh c hc
      | cons d r =>
        rw [htlu, List.cons_append] at hc
        apply htl
        rw [htlu]
        exact hc
    have hcons := @limitMatchAt_construct p (u.take 5) (limitSp u) (limitDg u)
      (limitTail u ++ v) hb htake hspne hspall hdgne hdgall hremhead
    have harr : u ++ v = u.take 5 ++ (limitSp u ++ (limitDg u ++ (limitTail u ++ v))) := by
      nth_rewrite 1 [hdec]
      simp [List.append_assoc]
    rw [harr, hcons, hhit]
  | none =>
    apply limitMatchAt_eq_none_of_form
    have hform := limitMatchAt_isSome_form p u
    rw [hm] at hform
    simp only [Option.isSome_none] at hform
    by_cases hlen : 5 ≤ u.length
    · have hpre : ("limit").data.isPrefixOf (lowerStr (u ++ v))
          = ("limit").data.isPrefixOf (lowerStr u) := by
        rw [lowerStr, lowerStr, List.map_append]
        exact isPrefixOf_append_left _ (by rw [List.length_map]; exact le_trans (by decide) hlen)
      have hdrop : (u ++ v).drop 5 = u.drop 5 ++ v := by
        rw [List.drop_append_eq_append_drop, Nat.sub_eq_zero_of_le hlen, List.drop_zero]
      rw [hpre, hdrop, limQ0_append hvh hv2]
      exact hform.symm
    · push_neg at hlen
      have hpf : ("limit").data.isPrefixOf (lowerStr (u ++ v)) = false := by
        cases v with
        | nil =>
          rw [List.append_nil]
          exact isPrefixOf_false_of_short
            (by rw [lowerStr, List.length_map]; simpa using hlen)
        | cons c r =>
          exact isPrefixOf_append_cons_false limit_chars_word (hvh c rfl)
            (by simpa using hlen)
      rw [hpf]
      simp

lemma wordMatchAt_append_ctx {w v : Str}
    (hw : ∀ c ∈ w, isWordChar c = true)
    (hvh : ∀ c, v.head? = some c → isWordChar c = false)
    (p : Option Char) (u : Str) :
    wordMatchAt w p (u ++ v) = wordMatchAt w p u := by
  by_cases hlen : w.length ≤ u.length
  · unfold wordMatchAt
    have hpre : w.isPrefixOf (lowerStr (u ++ v)) = w.isPrefixOf (lowerStr u) := by
      rw [lowerStr, lowerStr, List.map_append]
      exact isPrefixOf_append_left _ (by rw [List.length_map]; exact hlen)
    have hdrop : (u ++ v).drop w.length = u.drop w.length ++ v := by
      rw [List.drop_append_eq_append_drop, Nat.sub_eq_zero_of_le hlen, List.drop_zero]
    rw [hpre, hdrop]
    congr 1
    cases hud : u.drop w.length with
    | nil =>
      simp only [List.nil_append]
      cases v with
      | nil => rfl
      | cons c r => simp [hvh c rfl]
    | cons d r => rfl
  · push_neg at hlen
    unfold wordMatchAt
    have h1 : w.isPrefixOf (lowerStr u) = false :=
      isPrefixOf_false_of_short (by rw [lowerStr, List.length_map]; exact hlen)
    have h2 : w.isPrefixOf (lowerStr (u ++ v)) = false := by
      cases v with
      | nil =>
        rw [List.append_nil]
        exact h1
      | cons c r => exact isPrefixOf_append_cons_false hw (hvh c rfl) hlen
    rw [h1, h2]
    simp

lemma parenAfter_nil : parenAfter [] = false := rfl

lemma parenAfter_cons_space {c : Char} (h : isPySpace c = true) (u : Str) :
    parenAfter (c :: u) = parenAfter u := by
  rw [parenAfter, parenAfter, List.dropWhile_cons, h]
  simp

lemma parenAfter_cons_nonspace {c : Char} (h : isPySpace c = false) (u : Str) :
    parenAfter (c :: u) = (c == '\x28') := by
  by_cases hc : c = '\x28'
  · subst hc
    rw [parenAfter, List.dropWhile_cons, h]
    simp
  · rw [parenAfter, List.dropWhile_cons, h]
    rw [if_neg (show ¬(false = true) by decide)]
    have hb : (c == '\x28') = false := beq_eq_false_iff_ne.mpr hc
    rw [hb]
    split
    next heq =>
      exfalso
      exact hc ((List.cons.injEq _ _ _ _).mp heq).1
    next => rfl

lemma parenAfter_no_paren {v : Str}
    (hvp : ∀ c, (v.dropWhile isPySpace).head? = some c → (c == '\x28') = false) :
    parenAfter v = false := by
  rw [parenAfter]
  cases hdv : v.dropWhile isPySpace with
  | nil => rfl
  | cons c r =>
    have := hvp c (by rw [hdv]; rfl)
    split
    next heq =>
      have hc := ((List.cons.injEq _ _ _ _).mp heq).1
      rw [hc] at this
      simp at this
    next => rfl

lemma parenAfter_append {v : Str}
    (hvp : ∀ c, (v.dropWhile isPySpace).head? = some c → (c == '\x28') = false)
    (a : Str) : parenAfter (a ++ v) = parenAfter a := by
  induction a with
  | nil =>
    simp only [List.nil_append, parenAfter_nil]
    exact parenAfter_no_paren hvp
  | cons c a' ih =>
    rw [List.cons_append]
    cases hc : isPySpace c
    · rw [parenAfter_cons_nonspace hc, parenAfter_cons_nonspace hc]
    · rw [parenAfter_cons_space hc, parenAfter_cons_space hc, ih]

lemma aggParen_eq (s : Str) :
    (match lstrip isPySpace s with
     | '\x28' :: _ => true
     | _ => false) = parenAfter s := rfl

lemma agg_chars_word : ∀ w ∈ AGG_WORDS, ∀ c ∈ w, isWordChar c = true := by decide

lemma aggMatchAt_append_ctx {v : Str}
    (hvh : ∀ c, v.head? = some c → isWordChar c = false)
    (hvp : ∀ c, (v.dropWhile isPySpace).head? = some c → (c == '\x28') = false)
    (p : Option Char) (u : Str) :
    aggMatchAt p (u ++ v) = aggMatchAt p u := by
  unfold aggMatchAt
  apply any_congr_str
  intro w hwmem
  have hw : ∀ c ∈ w, isWordChar c = true := agg_chars_word w hwmem
  rw [aggParen_eq, aggParen_eq]
  by_cases hlen : w.length ≤ u.length
  · have hpre : w.isPrefixOf (lowerStr (u ++ v)) = w.isPrefixOf (lowerStr u) := by
      rw [lowerStr, lowerStr, List.map_append]
      exact isPrefixOf_append_left _ (by rw [List.length_map]; exact hlen)
    have hdrop : (u ++ v).drop w.length = u.drop w.length ++ v := by
      rw [List.drop_append_eq_append_drop, Nat.sub_eq_zero_of_le hlen, List.drop_zero]
    rw [hpre, hdrop, parenAfter_append hvp]
  · push_neg at hlen
    have h1 : w.isPrefixOf (lowerStr u) = false :=
      isPrefixOf_false_of_short (by rw [lowerStr, List.length_map]; exact hlen)
    have h2 : w.isPrefixOf (lowerStr (u ++ v)) = false := by
      cases v with
      | nil =>
        rw [List.append_nil]
        exact h1
      | cons c r => exact isPrefixOf_append_cons_false hw (hvh c rfl) hlen
    rw [h1, h2]
    simp

/-! ## Shape of the matched word and of the replacement text -/

lemma limword_shape {w : Str} (hw : lowerStr w = ("limit").data) :
    w.length = 5 ∧ ∃ c₀ w', w = c₀ :: w' ∧ lowerChar c₀ = 'l' := by
  have hlen : w.length = 5 := by
    have := congrArg List.length hw
    simpa [lowerStr] using this
  refine ⟨hlen, ?_⟩
  cases w with
  | nil => simp at hlen
  | cons c₀ w' =>
    refine ⟨c₀, w', rfl, ?_⟩
    rw [lowerStr, List.map_cons] at hw
    exact ((List.cons.injEq _ _ _ _).mp hw).1

lemma digit_not_paren {c : Char} (h : isDigitChar c = true) : (c == '\x28') = false := by
  apply beq_eq_false_iff_ne.mpr
  intro hc
  rw [isDigitChar_iff] at h
  rw [hc] at h
  revert h
  decide

lemma limword_head_facts {c₀ : Char} (h : lowerChar c₀ = 'l') :
    isWordChar c₀ = true ∧ isPySpace c₀ = false ∧ isDigitChar c₀ = false ∧
      (c₀ == '\x28') = false := by
  refine ⟨?_, ?_, ?_, ?_⟩
  · apply isWordChar_of_lower_letter
    rw [h]
    exact ⟨by decide, by decide⟩
  · rw [← isPySpace_lower, h]
    decide
  · rw [← isDigitChar_lower, h]
    decide
  · apply beq_eq_false_iff_ne.mpr
    intro hc
    rw [hc] at h
    exact absurd h (by decide)

lemma limitRepl_append_explicit (m : Nat) (t' : Str) :
    limitRepl m ++ t' = 'L':: 'I':: 'M':: 'I':: 'T':: ' '::(natDigits m ++ t') := rfl

lemma lowerStr_append (a b : Str) : lowerStr (a ++ b) = lowerStr a ++ lowerStr b :=
  List.map_append _ _ _

lemma lowerStr_limitRepl (m : Nat) (t' : Str) :
    lowerStr (limitRepl m ++ t')
      = ("limit").data ++ (' ' :: lowerStr (natDigits m ++ t')) := by
  rw [limitRepl_append_explicit, lowerStr]
  simp only [List.map_cons]
  rw [show lowerChar 'L' = 'l' from by decide, show lowerChar 'I' = 'i' from by decide,
    show lowerChar 'M' = 'm' from by decide, show lowerChar 'T' = 't' from by decide,
    show lowerChar ' ' = ' ' from by decide]
  rfl

lemma repl_drop5 (m : Nat) (t' : Str) :
    (limitRepl m ++ t').drop 5 = ' ' :: (natDigits m ++ t') := by
  rw [limitRepl_append_explicit]
  rfl

lemma lowerStr_word_decomp {w : Str} (hw : lowerStr w = ("limit").data) (rest : Str) :
    lowerStr (w ++ rest) = ("limit").data ++ lowerStr rest := by
  rw [lowerStr_append, hw]

lemma word_drop_head_word {w : Str} (hw : lowerStr w = ("limit").data)
    {k : Nat} (hk : k < 5) (rest : Str) :
    ((w ++ rest).drop k).head?.any isWordChar = true := by
  obtain ⟨hlen, -⟩ := limword_shape hw
  rw [List.head?_drop]
  rw [List.getElem?_append_left (by omega)]
  have hmap : (lowerStr w)[k]? = (w[k]?).map lowerChar := List.getElem?_map _ _ _
  rw [hw] at hmap
  cases hg : w[k]? with
  | none =>
    rw [List.getElem?_eq_none_iff] at hg
    omega
  | some ch =>
    rw [hg] at hmap
    rw [show Option.map lowerChar (some ch) = some (lowerChar ch) from rfl] at hmap
    have hmem : lowerChar ch ∈ ("limit").data := mem_of_getElem_opt hmap
    have hword : isWordChar (lowerChar ch) = true := limit_chars_word _ hmem
    rw [isWordChar_lower] at hword
    simp [hword]

lemma repl_drop_head_word (m : Nat) (t' : Str) {k : Nat} (hk : k < 5) :
    ((limitRepl m ++ t').drop k).head?.any isWordChar = true := by
  rw [limitRepl_append_explicit]
  interval_cases k <;> rfl

lemma word_drop5 {w : Str} (hw : lowerStr w = ("limit").data) (rest : Str) :
    (w ++ rest).drop 5 = rest := by
  obtain ⟨hlen, -⟩ := limword_shape hw
  exact drop_append_len rest hlen

/-! ## Class-level transfer along the substitution trace -/

lemma limScan_headclass {m : Nat} {B : Bool} {s t : Str} (D : LimScan m B s t) :
    (s.head?.any isWordChar) = (t.head?.any isWordChar) := by
  cases D with
  | nil => rfl
  | copy c hnone htail => rfl
  | repl hw hsp hspall hdg hdgall hs ht htail =>
    obtain ⟨hlen, c₀, w', hweq, hc₀⟩ := limword_shape hw
    obtain ⟨hword, -, -, -⟩ := limword_head_facts hc₀
    rw [hweq, List.cons_append, limitRepl_append_explicit]
    simp only [List.head?_cons, Option.any_some, hword]
    decide

lemma limScan_parenAfter {m : Nat} : ∀ {B : Bool} {s t : Str}, LimScan m B s t →
    parenAfter s = parenAfter t := by
  intro B s t D
  induction D with
  | nil => rfl
  | copy c hnone htail ih =>
    cases hc : isPySpace c
    · rw [parenAfter_cons_nonspace hc, parenAfter_cons_nonspace hc]
    · rw [parenAfter_cons_space hc, parenAfter_cons_space hc, ih]
  | repl hw hsp hspall hdg hdgall hs ht htail ih =>
    obtain ⟨hlen, c₀, w', hweq, hc₀⟩ := limword_shape hw
    obtain ⟨-, hnspace, -, hnparen⟩ := limword_head_facts hc₀
    rw [hweq, List.cons_append, limitRepl_append_explicit]
    rw [parenAfter_cons_nonspace hnspace,
      parenAfter_cons_nonspace (show isPySpace 'L' = false by decide), hnparen]
    decide

lemma limScan_limQ2 {m : Nat} : ∀ {B : Bool} {s t : Str}, LimScan m B s t →
    limQ2 s = limQ2 t := by
  intro B s t D
  induction D with
  | nil => rfl
  | copy c hnone htail ih =>
    cases hc : isDigitChar c
    · rw [limQ2_cons_nondigit hc, limQ2_cons_nondigit hc]
    · rw [limQ2_cons_digit hc, limQ2_cons_digit hc, ih]
  | repl hw hsp hspall hdg hdgall hs ht htail ih =>
    obtain ⟨hlen, c₀, w', hweq, hc₀⟩ := limword_shape hw
    obtain ⟨hword, -, hndig, -⟩ := limword_head_facts hc₀
    rw [hweq, List.cons_append, limitRepl_append_explicit]
    rw [limQ2_cons_nondigit hndig,
      limQ2_cons_nondigit (show isDigitChar 'L' = false by decide), hword]
    decide

lemma limScan_limQ1 {m : Nat} : ∀ {B : Bool} {s t : Str}, LimScan m B s t →
    limQ1 s = limQ1 t := by
  intro B s t D
  induction D with
  | nil => rfl
  | copy c hnone htail ih =>
    cases hsc : isPySpace c
    · cases hdc : isDigitChar c
      · rw [limQ1_cons_other hsc hdc, limQ1_cons_other hsc hdc]
      · rw [limQ1_cons_digit hdc, limQ1_cons_digit hdc]
        exact limScan_limQ2 htail
    · rw [limQ1_cons_space hsc, limQ1_cons_space hsc, ih]
  | repl hw hsp hspall hdg hdgall hs ht htail ih =>
    obtain ⟨hlen, c₀, w', hweq, hc₀⟩ := limword_shape hw
    obtain ⟨-, hnspace, hndig, -⟩ := limword_head_facts hc₀
    rw [hweq, List.cons_append, limitRepl_append_explicit]
    rw [limQ1_cons_other hnspace hndig,
      limQ1_cons_other (show isPySpace 'L' = false by decide)
        (show isDigitChar 'L' = false by decide)]

lemma limScan_limQ0 {m : Nat} {B : Bool} {s t : Str} (D : LimScan m B s t) :
    limQ0 s = limQ0 t := by
  cases D with
  | nil => rfl
  | copy c hnone htail =>
    cases hsc : isPySpace c
    · rw [limQ0_cons_nonspace hsc, limQ0_cons_nonspace hsc]
    · rw [limQ0_cons_space hsc, limQ0_cons_space hsc]
      exact limScan_limQ1 htail
  | repl hw hsp hspall hdg hdgall hs ht htail =>
    obtain ⟨hlen, c₀, w', hweq, hc₀⟩ := limword_shape hw
    obtain ⟨-, hnspace, -, -⟩ := limword_head_facts hc₀
    rw [hweq, List.cons_append, limitRepl_append_explicit]
    rw [limQ0_cons_nonspace hnspace,
      limQ0_cons_nonspace (show isPySpace 'L' = false by decide)]

/-! ## Window transfer along the substitution trace -/

lemma word_not_paren {c : Char} (h : isWordChar c = true) : (c == '\x28') = false :=
  beq_eq_false_iff_ne.mpr (fun hc => by rw [hc] at h; exact absurd h (by decide))

lemma parenAfter_false_of_head_word {u : Str}
    (h : u.head?.any isWordChar = true) : parenAfter u = false := by
  cases u with
  | nil => simp at h
  | cons c r =>
    simp only [List.head?_cons, Option.any_some] at h
    rw [parenAfter_cons_nonspace (word_not_space h), word_not_paren h]

lemma limQ0_false_of_head_word {u : Str}
    (h : u.head?.any isWordChar = true) : limQ0 u = false := by
  cases u with
  | nil => simp at h
  | cons c r =>
    simp only [List.head?_cons, Option.any_some] at h
    exact limQ0_cons_nonspace (word_not_space h) r

lemma prefix_char5_word {w' : Str} {m : Nat} {t' : Str}
    (hword : ∀ c ∈ w', isWordChar c = true)
    (hpre : w'.isPrefixOf (lowerStr (limitRepl m ++ t')) = true)
    (h6 : 5 < w'.length) : False := by
  have hidx := isPrefixOf_getElem hpre h6
  rw [lowerStr_limitRepl] at hidx
  rw [List.getElem?_append_right (show (("limit").data).length ≤ 5 by decide)] at hidx
  rw [show ((("limit").data).length : Nat) = 5 from rfl, Nat.sub_self] at hidx
  rw [show (' ' :: lowerStr (natDigits m ++ t'))[0]? = some ' ' from by simp] at hidx
  have hmem : ' ' ∈ w' := mem_of_getElem_opt hidx.symm
  exact absurd (hword ' ' hmem) (by decide)

lemma word5_of_pref {w' : Str} {m : Nat} {t' : Str}
    (hpre : w'.isPrefixOf (lowerStr (limitRepl m ++ t')) = true)
    (h6 : w'.length = 5) : w' = ("limit").data := by
  have htk := isPrefixOf_take hpre
  rw [h6, lowerStr_limitRepl] at htk
  rw [List.take_append_eq_append_take,
    show ((("limit").data).length : Nat) = 5 from rfl, Nat.sub_self, List.take_zero,
    List.append_nil, List.take_of_length_le (by decide)] at htk
  exact htk.symm

lemma prefix_limit_short {w' : Str} {m : Nat} {t' : Str}
    (hpre : w'.isPrefixOf (lowerStr (limitRepl m ++ t')) = true)
    (h5 : w'.length ≤ 5) : w'.isPrefixOf (("limit").data) = true := by
  rw [lowerStr_limitRepl] at hpre
  rw [← isPrefixOf_append_left (' ' :: lowerStr (natDigits m ++ t'))
    (show w'.length ≤ (("limit").data).length from h5)]
  exact hpre

lemma prefix_of_word_side {w' w : Str} (hw : lowerStr w = ("limit").data)
    (hpre5 : w'.isPrefixOf (("limit").data) = true) (rest : Str) :
    w'.isPrefixOf (lowerStr (w ++ rest)) = true := by
  rw [lowerStr_word_decomp hw]
  rw [isPrefixOf_append_left (lowerStr rest)
    ((List.isPrefixOf_iff_prefix.mp hpre5).length_le)]
  exact hpre5

lemma limQ2_of_span {dg s' : Str}
    (hdgall : ∀ c ∈ dg, isDigitChar c = true)
    (hs : ∀ c, s'.head? = some c → isWordChar c = false) :
    limQ2 (dg ++ s') = true := by
  induction dg with
  | nil =>
    rw [List.nil_append, limQ2,
      dropWhile_eq_self_of_head (fun c hc => nonword_not_digit (hs c hc))]
    cases hh : s'.head? with
    | none => simp [hh]
    | some c => simp [hh, hs c hh]
  | cons d dg' ih =>
    rw [List.cons_append, limQ2_cons_digit (hdgall d (List.mem_cons_self d dg'))]
    exact ih (fun c hc => hdgall c (List.mem_cons_of_mem d hc))

lemma limQ1_of_span {sp' dg s' : Str}
    (hspall : ∀ c ∈ sp', isPySpace c = true)
    (hdg : dg ≠ []) (hdgall : ∀ c ∈ dg, isDigitChar c = true)
    (hs : ∀ c, s'.head? = some c → isWordChar c = false) :
    limQ1 (sp' ++ (dg ++ s')) = true := by
  induction sp' with
  | nil =>
    rw [List.nil_append]
    cases dg with
    | nil => exact absurd rfl hdg
    | cons d dg' =>
      rw [List.cons_append, limQ1_cons_digit (hdgall d (List.mem_cons_self d dg'))]
      exact limQ2_of_span (fun c hc => hdgall c (List.mem_cons_of_mem d hc)) hs
  | cons c sp'' ih =>
    rw [List.cons_append, limQ1_cons_space (hspall c (List.mem_cons_self c sp''))]
    exact ih (fun d hd => hspall d (List.mem_cons_of_mem c hd))

lemma limQ0_of_span {sp dg s' : Str}
    (hsp : sp ≠ []) (hspall : ∀ c ∈ sp, isPySpace c = true)
    (hdg : dg ≠ []) (hdgall : ∀ c ∈ dg, isDigitChar c = true)
    (hs : ∀ c, s'.head? = some c → isWordChar c = false) :
    limQ0 (sp ++ (dg ++ s')) = true := by
  cases sp with
  | nil => exact absurd rfl hsp
  | cons c sp' =>
    rw [List.cons_append, limQ0_cons_space (hspall c (List.mem_cons_self c sp'))]
    exact limQ1_of_span (fun d hd => hspall d (List.mem_cons_of_mem c hd)) hdg hdgall hs

lemma limScan_word_transfer {m : Nat} : ∀ {B : Bool} {s t : Str}, LimScan m B s t →
    ∀ w' : Str, w' ≠ [] → (∀ c ∈ w', isWordChar c = true) →
    w'.isPrefixOf (lowerStr t) = true →
    w'.isPrefixOf (lowerStr s) = true ∧
      ((s.drop w'.length).head?.any isWordChar)
        = ((t.drop w'.length).head?.any isWordChar) := by
  intro B s t D
  induction D with
  | nil =>
    intro w' hne hword hpre
    exfalso
    cases w' with
    | nil => exact hne rfl
    | cons x xs => simp [lowerStr, List.isPrefixOf] at hpre
  | copy c hnone htail ih =>
    intro w' hne hword hpre
    cases w' with
    | nil => exact absurd rfl hne
    | cons x xs =>
      rw [lowerStr, List.map_cons] at hpre
      simp only [List.isPrefixOf, Bool.and_eq_true, beq_iff_eq] at hpre
      obtain ⟨hx, hxs⟩ := hpre
      cases xs with
      | nil =>
        constructor
        · rw [lowerStr, List.map_cons]
          simp [List.isPrefixOf, hx]
        · simpa using limScan_headclass htail
      | cons y ys =>
        have hsub := ih (y :: ys) (by simp)
          (fun d hd => hword d (List.mem_cons_of_mem x hd)) hxs
        constructor
        · rw [lowerStr, List.map_cons]
          simp only [List.isPrefixOf, Bool.and_eq_true, beq_iff_eq]
          exact ⟨hx, hsub.1⟩
        · simpa [List.drop_succ_cons] using hsub.2
  | @repl s' t' w sp dg hw hsp hspall hdg hdgall hs ht htail ih =>
    intro w' hne hword hpre
    rcases Nat.lt_trichotomy w'.length 5 with h5 | h5 | h5
    · refine ⟨prefix_of_word_side hw (prefix_limit_short hpre (by omega)) _, ?_⟩
      rw [word_drop_head_word hw h5, repl_drop_head_word m t' h5]
    · have hw5 := word5_of_pref hpre h5
      refine ⟨prefix_of_word_side hw (by rw [hw5]; decide) _, ?_⟩
      rw [h5, word_drop5 hw, repl_drop5]
      cases sp with
      | nil => exact absurd rfl hsp
      | cons c sp' =>
        rw [List.cons_append]
        simp only [List.head?_cons, Option.any_some]
        rw [space_not_word (hspall c (List.mem_cons_self c sp'))]
        decide
    · exact absurd (prefix_char5_word hword hpre h5) (fun h => h)

lemma limScan_agg_transfer {m : Nat} : ∀ {B : Bool} {s t : Str}, LimScan m B s t →
    ∀ w' : Str, (∀ c ∈ w', isWordChar c = true) →
    w'.isPrefixOf (lowerStr t) = true → parenAfter (t.drop w'.length) = true →
    w'.isPrefixOf (lowerStr s) = true ∧ parenAfter (s.drop w'.length) = true := by
  intro B s t D
  induction D with
  | nil =>
    intro w' hword hpre hparen
    exfalso
    rw [List.drop_nil, parenAfter_nil] at hparen
    cases hparen
  | copy c hnone htail ih =>
    intro w' hword hpre hparen
    cases w' with
    | nil =>
      refine ⟨rfl, ?_⟩
      simp only [List.length_nil, List.drop_zero] at hparen ⊢
      rw [limScan_parenAfter (LimScan.copy c hnone htail)]
      exact hparen
    | cons x xs =>
      rw [lowerStr, List.map_cons] at hpre
      simp only [List.isPrefixOf, Bool.and_eq_true, beq_iff_eq] at hpre
      obtain ⟨hx, hxs⟩ := hpre
      have hsub := ih xs (fun d hd => hword d (List.mem_cons_of_mem x hd)) hxs
        (by simpa [List.drop_succ_cons] using hparen)
      constructor
      · rw [lowerStr, List.map_cons]
        simp only [List.isPrefixOf, Bool.and_eq_true, beq_iff_eq]
        exact ⟨hx, hsub.1⟩
      · simpa [List.drop_succ_cons] using hsub.2
  | @repl s' t' w sp dg hw hsp hspall hdg hdgall hs ht htail ih =>
    intro w' hword hpre hparen
    exfalso
    rcases Nat.lt_trichotomy w'.length 5 with h5 | h5 | h5
    · rw [parenAfter_false_of_head_word (repl_drop_head_word m t' h5)] at hparen
      cases hparen
    · rw [h5, repl_drop5, parenAfter_cons_space (by decide)] at hparen
      cases hnd : natDigits m with
      | nil => exact absurd hnd (natDigits_ne_nil m)
      | cons d nd' =>
        have hd : isDigitChar d = true :=
          natDigits_all_digit m d (by rw [hnd]; exact List.mem_cons_self _ _)
        rw [hnd, List.cons_append,
          parenAfter_cons_nonspace (digit_not_space hd), digit_not_paren hd] at hparen
        cases hparen
    · exact prefix_char5_word hword hpre h5

lemma limScan_limit_transfer {m : Nat} : ∀ {B : Bool} {s t : Str}, LimScan m B s t →
    ∀ w' : Str, w' ≠ [] → (∀ c ∈ w', isWordChar c = true) →
    w'.isPrefixOf (lowerStr t) = true → limQ0 (t.drop w'.length) = true →
    w'.isPrefixOf (lowerStr s) = true ∧ limQ0 (s.drop w'.length) = true := by
  intro B s t D
  induction D with
  | nil =>
    intro w' hne hword hpre hq
    exfalso
    cases w' with
    | nil => exact hne rfl
    | cons x xs => simp [lowerStr, List.isPrefixOf] at hpre
  | copy c hnone htail ih =>
    intro w' hne hword hpre hq
    cases w' with
    | nil => exact absurd rfl hne
    | cons x xs =>
      rw [lowerStr, List.map_cons] at hpre
      simp only [List.isPrefixOf, Bool.and_eq_true, beq_iff_eq] at hpre
      obtain ⟨hx, hxs⟩ := hpre
      cases xs with
      | nil =>
        constructor
        · rw [lowerStr, List.map_cons]
          simp [List.isPrefixOf, hx]
        · simp only [List.length_cons, List.length_nil, Nat.zero_add,
            List.drop_succ_cons, List.drop_zero] at hq ⊢
          rw [limScan_limQ0 htail]
          exact hq
      | cons y ys =>
        have hsub := ih (y :: ys) (by simp)
          (fun d hd => hword d (List.mem_cons_of_mem x hd)) hxs
          (by simpa [List.drop_succ_cons] using hq)
        constructor
        · rw [lowerStr, List.map_cons]
          simp only [List.isPrefixOf, Bool.and_eq_true, beq_iff_eq]
          exact ⟨hx, hsub.1⟩
        · simpa [List.drop_succ_cons] using hsub.2
  | @repl s' t' w sp dg hw hsp hspall hdg hdgall hs ht htail ih =>
    intro w' hne hword hpre hq
    rcases Nat.lt_trichotomy w'.length 5 with h5 | h5 | h5
    · exfalso
      rw [limQ0_false_of_head_word (repl_drop_head_word m t' h5)] at hq
      cases hq
    · refine ⟨prefix_of_word_side hw
        (by rw [word5_of_pref hpre h5]; decide) _, ?_⟩
      rw [h5, word_drop5 hw]
      exact limQ0_of_span hsp hspall hdg hdgall hs
    · exact absurd (prefix_char5_word hword hpre h5) (fun h => h)

lemma limScan_match_transfer {m : Nat} {B : Bool} {s t : Str} (D : LimScan m B s t)
    (p : Option Char) (h : (limitMatchAt p t).isSome = true) :
    (limitMatchAt p s).isSome = true := by
  rw [limitMatchAt_isSome_form] at h ⊢
  simp only [Bool.and_eq_true] at h ⊢
  obtain ⟨hb, hpre, hq⟩ := h
  have htr := limScan_limit_transfer D ("limit").data (by decide) limit_chars_word hpre
    (by rw [show ((("limit").data).length : Nat) = 5 from rfl]; exact hq)
  refine ⟨hb, htr.1, ?_⟩
  have := htr.2
  rw [show ((("limit").data).length : Nat) = 5 from rfl] at this
  exact this

lemma limScan_match_none {m : Nat} {B : Bool} {s t : Str} (D : LimScan m B s t)
    (p : Option Char) (h : limitMatchAt p s = none) : limitMatchAt p t = none := by
  cases hm : limitMatchAt p t with
  | none => rfl
  | some hit =>
    have hsome := limScan_match_transfer D p (by rw [hm]; rfl)
    rw [h] at hsome
    cases hsome

/-! ## The substitution produces a trace -/

lemma limScan_of_subLimitAux (m : Nat) : ∀ (fuel : Nat) (s : Str) (p : Option Char),
    s.length ≤ fuel → LimScan m (wordBoundaryOk p) s (subLimitAux m fuel p s) := by
  intro fuel
  induction fuel with
  | zero =>
    intro s p hs
    have hnil : s = [] := List.eq_nil_of_length_eq_zero (Nat.le_zero.mp hs)
    subst hnil
    exact LimScan.nil _
  | succ f ih =>
    intro s p hs
    cases s with
    | nil => exact LimScan.nil _
    | cons c rest =>
      cases hm : limitMatchAt p (c :: rest) with
      | none =>
        rw [show subLimitAux m (f+1) p (c :: rest)
            = c :: subLimitAux m f (some c) rest from by simp [subLimitAux, hm]]
        apply LimScan.copy c
        · intro p' hp'
          rw [limitMatchAt_prev_congr hp']
          exact hm
        · exact ih rest (some c) (by simp only [List.length_cons] at hs; omega)
      | some hit =>
        obtain ⟨hb, htake, hdec, hspne, hspall, hdgne, hdgall, htl, hhit⟩ :=
          limitMatchAt_eq_some hm
        rw [show subLimitAux m (f+1) p (c :: rest)
            = limitRepl m ++ subLimitAux m f (some hit.last) hit.rem from by
          simp [subLimitAux, hm]]
        rw [hb]
        have hrem : hit.rem = limitTail (c :: rest) := by rw [hhit]
        have hlast : hit.last = (limitDg (c :: rest)).getLastD '0' := by rw [hhit]
        rw [hdec]
        apply LimScan.repl htake hspne hspall hdgne hdgall htl
        · intro ch hch
          rw [subLimitAux_head] at hch
          · rw [hrem] at hch
            exact htl ch hch
          · intro d hd
            rw [hrem] at hd
            exact htl d hd
        · rw [hrem, hlast]
          have hlastdigit : isDigitChar ((limitDg (c :: rest)).getLastD '0') = true :=
            hdgall _ (getLastD_mem _ hdgne '0')
          have hfuel : (limitTail (c :: rest)).length ≤ f := by
            have := limitTail_length (c :: rest)
            simp only [List.length_cons] at hs this
            omega
          have hres := ih (limitTail (c :: rest))
            (some ((limitDg (c :: rest)).getLastD '0')) hfuel
          have hwrd : isWordChar ((limitDg (c :: rest)).getLastD '0') = true :=
            digit_is_word hlastdigit
          rw [show wordBoundaryOk (some ((limitDg (c :: rest)).getLastD '0')) = false from by
            show (!isWordChar ((limitDg (c :: rest)).getLastD '0')) = false
            rw [hwrd]
            rfl] at hres
          exact hres

/-! ## Rescanning the substituted text -/

lemma natDigits_getLastD_digit (m : Nat) :
    isDigitChar ((natDigits m).getLastD '0') = true :=
  natDigits_all_digit m _ (getLastD_mem _ (natDigits_ne_nil m) '0')

lemma wordBoundaryOk_natDigits_last (m : Nat) :
    wordBoundaryOk (some ((natDigits m).getLastD '0')) = false := by
  show (!isWordChar ((natDigits m).getLastD '0')) = false
  rw [digit_is_word (natDigits_getLastD_digit m)]
  rfl

lemma findLimitAux_repl_head {m : Nat} {t' : Str} {p' : Option Char}
    (hp' : wordBoundaryOk p' = true)
    (ht : ∀ c, t'.head? = some c → isWordChar c = false) :
    findLimitAux p' (limitRepl m ++ t') = some m := by
  have hhead := limitReplParse m hp' ht
  have hcons : limitRepl m ++ t' = 'L' :: ('I':: 'M':: 'I':: 'T':: ' '::(natDigits m ++ t')) := rfl
  rw [hcons] at hhead ⊢
  rw [show findLimitAux p' ('L' :: ('I':: 'M':: 'I':: 'T':: ' '::(natDigits m ++ t')))
      = some (LimitHit.value ⟨m, (natDigits m).getLastD '0', t'⟩) from by
    simp [findLimitAux, hhead]]

lemma limScan_findLimit {m : Nat} : ∀ {B : Bool} {s t : Str}, LimScan m B s t →
    ∀ p p' : Option Char, wordBoundaryOk p = B → wordBoundaryOk p' = B →
    ∀ k, findLimitAux p s = some k → findLimitAux p' t = some m := by
  intro B s t D
  induction D with
  | nil =>
    intro p p' hp hp' k hf
    simp [findLimitAux] at hf
  | @copy B' s' t' c hnone htail ih =>
    intro p p' hp hp' k hf
    have hsnone := hnone p hp
    have htnone := limScan_match_none (LimScan.copy c hnone htail) p' (hnone p' hp')
    rw [show findLimitAux p (c :: s') = findLimitAux (some c) s' from by
      simp [findLimitAux, hsnone]] at hf
    rw [show findLimitAux p' (c :: t') = findLimitAux (some c) t' from by
      simp [findLimitAux, htnone]]
    exact ih (some c) (some c) rfl rfl k hf
  | @repl s' t' w sp dg hw hsp hspall hdg hdgall hs ht htail ih =>
    intro p p' hp hp' k hf
    exact findLimitAux_repl_head hp' ht

lemma limScan_fixpoint {m : Nat} : ∀ {B : Bool} {s t : Str}, LimScan m B s t →
    ∀ p' : Option Char, wordBoundaryOk p' = B → ∀ F : Nat, t.length ≤ F →
    subLimitAux m F p' t = t := by
  intro B s t D
  induction D with
  | nil =>
    intro p' hp' F hF
    exact subLimitAux_nil m F p'
  | @copy B' s' t' c hnone htail ih =>
    intro p' hp' F hF
    have htnone := limScan_match_none (LimScan.copy c hnone htail) p' (hnone p' hp')
    cases F with
    | zero => simp at hF
    | succ F' =>
      rw [show subLimitAux m (F'+1) p' (c :: t') = c :: subLimitAux m F' (some c) t' from by
        simp [subLimitAux, htnone]]
      rw [ih (some c) rfl F' (by simp only [List.length_cons] at hF; omega)]
  | @repl s' t' w sp dg hw hsp hspall hdg hdgall hs ht htail ih =>
    intro p' hp' F hF
    have hhead := limitReplParse m hp' ht
    have hcons : limitRepl m ++ t' = 'L' :: ('I':: 'M':: 'I':: 'T':: ' '::(natDigits m ++ t')) := rfl
    have hlen : 7 ≤ (limitRepl m ++ t').length + 0 := by
      rw [List.length_append, limitRepl, List.length_append]
      have := List.length_pos.mpr (natDigits_ne_nil m)
      simp only [show (("LIMIT ").data).length = 6 from rfl]
      omega
    cases F with
    | zero =>
      exfalso
      omega
    | succ F' =>
      rw [hcons] at hhead
      rw [hcons]
      rw [show subLimitAux m (F'+1) p' ('L' :: ('I':: 'M':: 'I':: 'T':: ' '::(natDigits m ++ t')))
          = limitRepl m ++ subLimitAux m F' (some ((natDigits m).getLastD '0')) t' from by
        simp [subLimitAux, hhead]]
      rw [ih _ (wordBoundaryOk_natDigits_last m) F' (by
        rw [hcons] at hF
        simp only [List.length_cons, List.length_append] at hF
        omega)]
      exact hcons

/-! ## Scan helpers: previous-character congruence and region refutations -/

lemma wordMatchAt_prev_congr {p₁ p₂ : Option Char}
    (h : wordBoundaryOk p₁ = wordBoundaryOk p₂) (w s : Str) :
    wordMatchAt w p₁ s = wordMatchAt w p₂ s := by
  unfold wordMatchAt
  rw [h]

lemma containsWordAux_prev_congr (w : Str) {p₁ p₂ : Option Char}
    (h : wordBoundaryOk p₁ = wordBoundaryOk p₂) (s : Str) :
    containsWordAux w p₁ s = containsWordAux w p₂ s := by
  cases s with
  | nil => rfl
  | cons c rest =>
    show (wordMatchAt w p₁ (c :: rest) || containsWordAux w (some c) rest)
      = (wordMatchAt w p₂ (c :: rest) || containsWordAux w (some c) rest)
    rw [wordMatchAt_prev_congr h]

lemma aggMatchAt_prev_congr {p₁ p₂ : Option Char}
    (h : wordBoundaryOk p₁ = wordBoundaryOk p₂) (s : Str) :
    aggMatchAt p₁ s = aggMatchAt p₂ s := by
  unfold aggMatchAt
  simp only [h]

lemma hasAggAux_prev_congr {p₁ p₂ : Option Char}
    (h : wordBoundaryOk p₁ = wordBoundaryOk p₂) (s : Str) :
    hasAggAux p₁ s = hasAggAux p₂ s := by
  cases s with
  | nil => rfl
  | cons c rest =>
    show (aggMatchAt p₁ (c :: rest) || hasAggAux (some c) rest)
      = (aggMatchAt p₂ (c :: rest) || hasAggAux (some c) rest)
    rw [aggMatchAt_prev_congr h]

lemma containsWordAux_append_false {w : Str} : ∀ (x : Str) (p : Option Char) {y : Str},
    containsWordAux w p (x ++ y) = false → containsWordAux w (lastPrev p x) y = false := by
  intro x
  induction x with
  | nil =>
    intro p y h
    simpa using h
  | cons c x' ih =>
    intro p y h
    rw [List.cons_append] at h
    simp only [containsWordAux, Bool.or_eq_false_iff] at h
    rw [lastPrev_cons]
    exact ih (some c) h.2

lemma hasAggAux_append_false : ∀ (x : Str) (p : Option Char) {y : Str},
    hasAggAux p (x ++ y) = false → hasAggAux (lastPrev p x) y = false := by
  intro x
  induction x with
  | nil =>
    intro p y h
    simpa using h
  | cons c x' ih =>
    intro p y h
    rw [List.cons_append] at h
    simp only [hasAggAux, Bool.or_eq_false_iff] at h
    rw [lastPrev_cons]
    exact ih (some c) h.2

lemma word_after_eq (u : Str) :
    (match u with
     | [] => true
     | ch :: _ => !isWordChar ch) = !(u.head?.any isWordChar) := by
  cases u <;> simp

lemma wordMatchAt_false_of_prefix_false {w : Str} {p : Option Char} {s : Str}
    (h : w.isPrefixOf (lowerStr s) = false) : wordMatchAt w p s = false := by
  unfold wordMatchAt
  rw [h]
  simp

lemma forbidden_word_props :
    ∀ w ∈ FORBIDDEN, w ≠ [] ∧ ∀ c ∈ w, isWordChar c = true ∧ isDigitChar c = false := by
  decide

lemma agg_word_props :
    ∀ w ∈ AGG_WORDS, w ≠ [] ∧ ∀ c ∈ w, isWordChar c = true ∧ isDigitChar c = false := by
  decide

lemma lowerChar_digit {c : Char} (h : isDigitChar c = true) : lowerChar c = c := by
  rw [isDigitChar_iff] at h
  rw [char_eq_iff, lowerChar_toNat]
  rw [if_neg (by omega)]

lemma word_prefix_digit_false {w : Str} {d : Char} (r : Str)
    (hwh : ∀ c, w.head? = some c → isDigitChar c = false) (hwne : w ≠ [])
    (hd : isDigitChar d = true) :
    w.isPrefixOf (lowerStr (d :: r)) = false := by
  cases w with
  | nil => exact absurd rfl hwne
  | cons wh wtl =>
    rw [lowerStr, List.map_cons]
    simp only [List.isPrefixOf]
    have hne : (wh == lowerChar d) = false := by
      apply beq_eq_false_iff_ne.mpr
      intro he
      rw [lowerChar_digit hd] at he
      have := hwh wh rfl
      rw [he, hd] at this
      cases this
    rw [hne]
    simp

lemma scan_digits_false {w : Str}
    (hwh : ∀ c, w.head? = some c → isDigitChar c = false) (hwne : w ≠ []) :
    ∀ (dgs : Str), (∀ c ∈ dgs, isDigitChar c = true) → ∀ (p : Option Char) (t' : Str),
    containsWordAux w (lastPrev p dgs) t' = false →
    containsWordAux w p (dgs ++ t') = false := by
  intro dgs
  induction dgs with
  | nil =>
    intro hall p t' h
    simpa using h
  | cons d dgs' ih =>
    intro hall p t' h
    rw [List.cons_append]
    have hmatch : wordMatchAt w p (d :: (dgs' ++ t')) = false :=
      wordMatchAt_false_of_prefix_false
        (word_prefix_digit_false _ hwh hwne (hall d (List.mem_cons_self d dgs')))
    simp only [containsWordAux, hmatch, Bool.false_or]
    rw [lastPrev_cons] at h
    exact ih (fun c hc => hall c (List.mem_cons_of_mem d hc)) (some d) t' h

lemma getLast?_of_ne_nil {x : Str} (h : x ≠ []) :
    x.getLast? = some (x.getLastD '0') := by
  cases hx : x.getLast? with
  | none =>
    rw [List.getLast?_eq_none_iff] at hx
    exact absurd hx h
  | some c =>
    rw [List.getLastD_eq_getLast?, hx]
    rfl

lemma lastPrev_digits_class {dgs : Str} (hne : dgs ≠ [])
    (hall : ∀ c ∈ dgs, isDigitChar c = true) (p : Option Char) :
    wordBoundaryOk (lastPrev p dgs) = false := by
  rw [show lastPrev p dgs = some (dgs.getLastD '0') from by
    unfold lastPrev
    rw [getLast?_of_ne_nil hne]]
  show (!isWordChar (dgs.getLastD '0')) = false
  rw [digit_is_word (hall _ (getLastD_mem _ hne '0'))]
  rfl

lemma forbidden_repl_prefix_false {w : Str} (hwF : w ∈ FORBIDDEN) (X : Str) :
    w.isPrefixOf (lowerStr ('L':: 'I':: 'M':: 'I':: 'T':: ' '::X)) = false ∧
    w.isPrefixOf (lowerStr ('I':: 'M':: 'I':: 'T':: ' '::X)) = false ∧
    w.isPrefixOf (lowerStr ('M':: 'I':: 'T':: ' '::X)) = false ∧
    w.isPrefixOf (lowerStr ('I':: 'T':: ' '::X)) = false ∧
    w.isPrefixOf (lowerStr ('T':: ' '::X)) = false ∧
    w.isPrefixOf (lowerStr (' '::X)) = false := by
  simp only [FORBIDDEN, List.mem_cons, List.not_mem_nil, or_false] at hwF
  rcases hwF with rfl | rfl | rfl | rfl | rfl | rfl | rfl | rfl | rfl <;>
    exact ⟨rfl, rfl, rfl, rfl, rfl, rfl⟩

lemma agg_repl_prefix_false {w : Str} (hwA : w ∈ AGG_WORDS) (X : Str) :
    w.isPrefixOf (lowerStr ('L':: 'I':: 'M':: 'I':: 'T':: ' '::X)) = false ∧
    w.isPrefixOf (lowerStr ('I':: 'M':: 'I':: 'T':: ' '::X)) = false ∧
    w.isPrefixOf (lowerStr ('M':: 'I':: 'T':: ' '::X)) = false ∧
    w.isPrefixOf (lowerStr ('I':: 'T':: ' '::X)) = false ∧
    w.isPrefixOf (lowerStr ('T':: ' '::X)) = false ∧
    w.isPrefixOf (lowerStr (' '::X)) = false := by
  simp only [AGG_WORDS, List.mem_cons, List.not_mem_nil, or_false] at hwA
  rcases hwA with rfl | rfl | rfl | rfl | rfl <;>
    exact ⟨rfl, rfl, rfl, rfl, rfl, rfl⟩

lemma noWordScanRepl {w : Str} (hwF : w ∈ FORBIDDEN) (m : Nat) {t' : Str}
    (p q : Option Char) (hq : wordBoundaryOk q = false)
    (hrest : containsWordAux w q t' = false) :
    containsWordAux w p (limitRepl m ++ t') = false := by
  obtain ⟨h0, h1, h2, h3, h4, h5⟩ := forbidden_repl_prefix_false hwF (natDigits m ++ t')
  obtain ⟨hwne, hwprops⟩ := forbidden_word_props w hwF
  rw [limitRepl_append_explicit]
  simp only [containsWordAux, Bool.or_eq_false_iff]
  refine ⟨wordMatchAt_false_of_prefix_false h0,
    wordMatchAt_false_of_prefix_false h1, wordMatchAt_false_of_prefix_false h2,
    wordMatchAt_false_of_prefix_false h3, wordMatchAt_false_of_prefix_false h4,
    wordMatchAt_false_of_prefix_false h5, ?_⟩
  apply scan_digits_false
    (fun c hc => (hwprops c (List.mem_of_mem_head? hc)).2) hwne
    (natDigits m) (natDigits_all_digit m) (some ' ') t'
  rw [containsWordAux_prev_congr w
    (show wordBoundaryOk (lastPrev (some ' ') (natDigits m)) = wordBoundaryOk q from by
      rw [lastPrev_digits_class (natDigits_ne_nil m) (natDigits_all_digit m), hq]) t']
  exact hrest

lemma aggMatchAt_false_of_prefixes {p : Option Char} {s : Str}
    (h : ∀ w ∈ AGG_WORDS, w.isPrefixOf (lowerStr s) = false) :
    aggMatchAt p s = false := by
  unfold aggMatchAt
  rw [List.any_eq_false]
  intro w hw
  rw [h w hw]
  simp

lemma agg_prefix_digit_false {d : Char} (r : Str) (hd : isDigitChar d = true) :
    ∀ w ∈ AGG_WORDS, w.isPrefixOf (lowerStr (d :: r)) = false := by
  intro w hw
  obtain ⟨hwne, hwprops⟩ := agg_word_props w hw
  exact word_prefix_digit_false r
    (fun c hc => (hwprops c (List.mem_of_mem_head? hc)).2) hwne hd

lemma scanAgg_digits_false : ∀ (dgs : Str), (∀ c ∈ dgs, isDigitChar c = true) →
    ∀ (p : Option Char) (t' : Str),
    hasAggAux (lastPrev p dgs) t' = false →
    hasAggAux p (dgs ++ t') = false := by
  intro dgs
  induction dgs with
  | nil =>
    intro hall p t' h
    simpa using h
  | cons d dgs' ih =>
    intro hall p t' h
    rw [List.cons_append]
    have hmatch : aggMatchAt p (d :: (dgs' ++ t')) = false :=
      aggMatchAt_false_of_prefixes
        (agg_prefix_digit_false _ (hall d (List.mem_cons_self d dgs')))
    simp only [hasAggAux, hmatch, Bool.false_or]
    rw [lastPrev_cons] at h
    exact ih (fun c hc => hall c (List.mem_cons_of_mem d hc)) (some d) t' h

lemma noAggScanRepl (m : Nat) {t' : Str}
    (p q : Option Char) (hq : wordBoundaryOk q = false)
    (hrest : hasAggAux q t' = false) :
    hasAggAux p (limitRepl m ++ t') = false := by
  rw [limitRepl_append_explicit]
  simp only [hasAggAux, Bool.or_eq_false_iff]
  refine ⟨aggMatchAt_false_of_prefixes (fun w hw => (agg_repl_prefix_false hw _).1),
    aggMatchAt_false_of_prefixes (fun w hw => (agg_repl_prefix_false hw _).2.1),
    aggMatchAt_false_of_prefixes (fun w hw => (agg_repl_prefix_false hw _).2.2.1),
    aggMatchAt_false_of_prefixes (fun w hw => (agg_repl_prefix_false hw _).2.2.2.1),
    aggMatchAt_false_of_prefixes (fun w hw => (agg_repl_prefix_false hw _).2.2.2.2.1),
    aggMatchAt_false_of_prefixes (fun w hw => (agg_repl_prefix_false hw _).2.2.2.2.2), ?_⟩
  apply scanAgg_digits_false (natDigits m) (natDigits_all_digit m) (some ' ') t'
  rw [hasAggAux_prev_congr
    (show wordBoundaryOk (lastPrev (some ' ') (natDigits m)) = wordBoundaryOk q from by
      rw [lastPrev_digits_class (natDigits_ne_nil m) (natDigits_all_digit m), hq]) t']
  exact hrest

/-! ## No forbidden word and no aggregate appears in the substituted text -/

lemma limScan_no_word {m : Nat} {w : Str} (hwF : w ∈ FORBIDDEN) :
    ∀ {B : Bool} {s t : Str}, LimScan m B s t →
    ∀ p p' : Option Char, wordBoundaryOk p = B → wordBoundaryOk p' = B →
    containsWordAux w p s = false → containsWordAux w p' t = false := by
  intro B s t D
  induction D with
  | nil =>
    intro p p' hp hp' hscan
    rfl
  | @copy B' s' t' c hnone htail ih =>
    intro p p' hp hp' hscan
    simp only [containsWordAux, Bool.or_eq_false_iff] at hscan ⊢
    obtain ⟨hhead, htailscan⟩ := hscan
    refine ⟨?_, ih (some c) (some c) rfl rfl htailscan⟩
    cases hwm : wordMatchAt w p' (c :: t')
    · rfl
    · exfalso
      unfold wordMatchAt at hwm
      simp only [Bool.and_eq_true] at hwm
      obtain ⟨⟨hb', hpre⟩, hafter⟩ := hwm
      obtain ⟨hwne, hwprops⟩ := forbidden_word_props w hwF
      have htr := limScan_word_transfer (LimScan.copy c hnone htail) w hwne
        (fun d hd => (hwprops d hd).1) hpre
      have hmt : wordMatchAt w p (c :: s') = true := by
        unfold wordMatchAt
        simp only [Bool.and_eq_true]
        refine ⟨⟨by rw [hp, ← hp']; exact hb', htr.1⟩, ?_⟩
        have hcls := htr.2
        cases hds : List.drop w.length (c :: s') with
        | nil => rfl
        | cons ch rest =>
          show (!isWordChar ch) = true
          cases hdt : List.drop w.length (c :: t') with
          | nil =>
            rw [hds, hdt] at hcls
            simp only [List.head?_cons, List.head?_nil, Option.any_some,
              Option.any_none] at hcls
            rw [hcls]
            rfl
          | cons dh dres =>
            have hafter' : (!isWordChar dh) = true := by
              rw [hdt] at hafter
              exact hafter
            rw [hds, hdt] at hcls
            simp only [List.head?_cons, Option.any_some] at hcls
            rw [hcls]
            exact hafter' 
      rw [hmt] at hhead
      cases hhead
  | @repl s' t' w₀ sp dg hw hsp hspall hdg hdgall hs ht htail ih =>
    intro p p' hp hp' hscan
    have hshape : w₀ ++ (sp ++ (dg ++ s')) = ((w₀ ++ sp) ++ dg) ++ s' := by
      simp [List.append_assoc]
    rw [hshape] at hscan
    have hs' := containsWordAux_append_false ((w₀ ++ sp) ++ dg) p hscan
    have hclass₁ : wordBoundaryOk (lastPrev p ((w₀ ++ sp) ++ dg)) = false := by
      rw [show lastPrev p ((w₀ ++ sp) ++ dg) = some (dg.getLastD '0') from by
        unfold lastPrev
        rw [List.getLast?_append_of_ne_nil _ hdg, getLast?_of_ne_nil hdg]]
      show (!isWordChar (dg.getLastD '0')) = false
      rw [digit_is_word (hdgall _ (getLastD_mem _ hdg '0'))]
      rfl
    have ht' := ih (lastPrev p ((w₀ ++ sp) ++ dg)) (lastPrev p ((w₀ ++ sp) ++ dg))
      hclass₁ hclass₁ hs'
    exact noWordScanRepl hwF m p' (lastPrev p ((w₀ ++ sp) ++ dg)) hclass₁ ht'

lemma limScan_no_agg {m : Nat} :
    ∀ {B : Bool} {s t : Str}, LimScan m B s t →
    ∀ p p' : Option Char, wordBoundaryOk p = B → wordBoundaryOk p' = B →
    hasAggAux p s = false → hasAggAux p' t = false := by
  intro B s t D
  induction D with
  | nil =>
    intro p p' hp hp' hscan
    rfl
  | @copy B' s' t' c hnone htail ih =>
    intro p p' hp hp' hscan
    simp only [hasAggAux, Bool.or_eq_false_iff] at hscan ⊢
    obtain ⟨hhead, htailscan⟩ := hscan
    refine ⟨?_, ih (some c) (some c) rfl rfl htailscan⟩
    cases ham : aggMatchAt p' (c :: t')
    · rfl
    · exfalso
      unfold aggMatchAt at ham
      rw [List.any_eq_true] at ham
      obtain ⟨wa, hwa, hcomp⟩ := ham
      simp only [Bool.and_eq_true] at hcomp
      obtain ⟨⟨hb', hpre⟩, hparen⟩ := hcomp
      rw [aggParen_eq] at hparen
      have htr := limScan_agg_transfer (LimScan.copy c hnone htail) wa
        (agg_chars_word wa hwa) hpre (by
          cases hpp : parenAfter ((c :: t').drop wa.length)
          · rw [hpp] at hparen
            cases hparen
          · rfl)
      have hmt : aggMatchAt p (c :: s') = true := by
        unfold aggMatchAt
        rw [List.any_eq_true]
        refine ⟨wa, hwa, ?_⟩
        simp only [Bool.and_eq_true]
        refine ⟨⟨by rw [hp, ← hp']; exact hb', htr.1⟩, ?_⟩
        rw [aggParen_eq, htr.2]
      rw [hmt] at hhead
      cases hhead
  | @repl s' t' w₀ sp dg hw hsp hspall hdg hdgall hs ht htail ih =>
    intro p p' hp hp' hscan
    have hshape : w₀ ++ (sp ++ (dg ++ s')) = ((w₀ ++ sp) ++ dg) ++ s' := by
      simp [List.append_assoc]
    rw [hshape] at hscan
    have hs' := hasAggAux_append_false ((w₀ ++ sp) ++ dg) p hscan
    have hclass₁ : wordBoundaryOk (lastPrev p ((w₀ ++ sp) ++ dg)) = false := by
      rw [show lastPrev p ((w₀ ++ sp) ++ dg) = some (dg.getLastD '0') from by
        unfold lastPrev
        rw [List.getLast?_append_of_ne_nil _ hdg, getLast?_of_ne_nil hdg]]
      show (!isWordChar (dg.getLastD '0')) = false
      rw [digit_is_word (hdgall _ (getLastD_mem _ hdg '0'))]
      rfl
    have ht' := ih (lastPrev p ((w₀ ++ sp) ++ dg)) (lastPrev p ((w₀ ++ sp) ++ dg))
      hclass₁ hclass₁ hs'
    exact noAggScanRepl m p' (lastPrev p ((w₀ ++ sp) ++ dg)) hclass₁ ht'

/-! ## Splitting the substitution around inert regions -/

lemma findLimitAux_none_split : ∀ (x : Str) (p : Option Char) {c : Char} {y : Str},
    findLimitAux p (x ++ c :: y) = none →
    limitMatchAt (lastPrev p x) (c :: y) = none := by
  intro x
  induction x with
  | nil =>
    intro p c y h
    rw [lastPrev_nil]
    cases hm : limitMatchAt p (c :: y) with
    | none => rfl
    | some hit =>
      rw [List.nil_append] at h
      simp [findLimitAux, hm] at h
  | cons d x' ih =>
    intro p c y h
    rw [List.cons_append] at h
    cases hm : limitMatchAt p (d :: (x' ++ c :: y)) with
    | some hit => simp [findLimitAux, hm] at h
    | none =>
      rw [lastPrev_cons]
      apply ih (some d)
      simpa [findLimitAux, hm] using h

lemma findLimitAux_none_of_splits : ∀ (v : Str),
    (∀ x c y, v = x ++ c :: y → ∀ p : Option Char, limitMatchAt p (c :: y) = none) →
    ∀ p : Option Char, findLimitAux p v = none := by
  intro v
  induction v with
  | nil => intro h p; rfl
  | cons c y ih =>
    intro h p
    have hhead := h [] c y rfl p
    rw [show findLimitAux p (c :: y) = findLimitAux (some c) y from by
      simp [findLimitAux, hhead]]
    exact ih (fun x d z hxz q => h (c :: x) d z (by rw [hxz, List.cons_append]) q) (some c)

lemma subLimitAux_copy_front (m : Nat) : ∀ (u : Str) (p : Option Char) (v : Str) (F : Nat),
    (u ++ v).length ≤ F →
    (∀ x c y, u = x ++ c :: y → limitMatchAt (lastPrev p x) (c :: (y ++ v)) = none) →
    subLimitAux m F p (u ++ v) = u ++ subLimitAux m (F - u.length) (lastPrev p u) v := by
  intro u
  induction u with
  | nil =>
    intro p v F hF h
    simp [lastPrev_nil]
  | cons c u' ih =>
    intro p v F hF h
    have hnone := h [] c u' rfl
    rw [lastPrev_nil] at hnone
    cases F with
    | zero => simp at hF
    | succ F' =>
      rw [List.cons_append]
      rw [show subLimitAux m (F'+1) p (c :: (u' ++ v))
          = c :: subLimitAux m F' (some c) (u' ++ v) from by
        simp [subLimitAux, hnone]]
      rw [ih (some c) v F' (by
          simp only [List.length_append, List.length_cons] at hF ⊢
          omega)
        (fun x d y hxy => by
          have hh := h (c :: x) d y (by rw [hxy, List.cons_append])
          rw [lastPrev_cons] at hh
          exact hh)]
      rw [lastPrev_cons]
      rw [show F' + 1 - (c :: u').length = F' - u'.length from by
        simp only [List.length_cons]
        omega]
      rw [List.cons_append]

lemma mem_limitTail {s : Str} {c : Char} (h : c ∈ limitTail s) : c ∈ s := by
  rw [limitTail] at h
  have h1 := (List.drop_sublist _ _).subset h
  have h2 := (List.drop_sublist _ _).subset h1
  exact (List.drop_sublist _ _).subset h2

lemma subLimitAux_split (m : Nat) {v : Str}
    (hvh : ∀ c, v.head? = some c → isWordChar c = false)
    (hv2 : ∀ c, (v.dropWhile isPySpace).head? = some c → isDigitChar c = false)
    (hvno : ∀ x c y, v = x ++ c :: y → ∀ p : Option Char, limitMatchAt p (c :: y) = none) :
    ∀ (N : Nat) (u : Str), u.length ≤ N → ∀ (p : Option Char) (F F₁ : Nat),
    (u ++ v).length ≤ F → u.length ≤ F₁ →
    subLimitAux m F p (u ++ v) = subLimitAux m F₁ p u ++ v := by
  intro N
  induction N with
  | zero =>
    intro u hu p F F₁ hF hF₁
    have hnil : u = [] := List.eq_nil_of_length_eq_zero (Nat.le_zero.mp hu)
    subst hnil
    rw [List.nil_append, subLimitAux_nil, List.nil_append]
    exact nomatch_id m F p v (findLimitAux_none_of_splits v hvno p)
  | succ N ihN =>
    intro u hu p F F₁ hF hF₁
    cases u with
    | nil =>
      rw [List.nil_append, subLimitAux_nil, List.nil_append]
      exact nomatch_id m F p v (findLimitAux_none_of_splits v hvno p)
    | cons c u' =>
      cases F with
      | zero =>
        exfalso
        simp only [List.length_append, List.length_cons] at hF
        omega
      | succ F' =>
        cases F₁ with
        | zero =>
          exfalso
          simp only [List.length_cons] at hF₁
          omega
        | succ F₁' =>
          have hctx := limitMatchAt_append_ctx hvh hv2 p (c :: u')
          cases hm : limitMatchAt p (c :: u') with
          | none =>
            rw [hm] at hctx
            rw [List.cons_append]
            rw [show subLimitAux m (F'+1) p (c :: (u' ++ v))
                = c :: subLimitAux m F' (some c) (u' ++ v) from by
              have hctx' : limitMatchAt p (c :: (u' ++ v)) = none := by
                rw [← List.cons_append]
                exact hctx
              simp [subLimitAux, hctx']]
            rw [show subLimitAux m (F₁'+1) p (c :: u')
                = c :: subLimitAux m F₁' (some c) u' from by
              simp [subLimitAux, hm]]
            rw [List.cons_append]
            simp only [List.length_append, List.length_cons] at hF hF₁ hu
            rw [ihN u' (by omega) (some c) F' F₁' (by simp [List.length_append]; omega)
              (by omega)]
          | some hit =>
            rw [hm] at hctx
            obtain ⟨hb, htake, hdec, hspne, hspall, hdgne, hdgall, htl, hhit⟩ :=
              limitMatchAt_eq_some hm
            have hremlen : hit.rem.length ≤ u'.length := by
              rw [hhit]
              have := limitTail_length (c :: u')
              simp only [List.length_cons] at this ⊢
              omega
            rw [List.cons_append]
            rw [show subLimitAux m (F'+1) p (c :: (u' ++ v))
                = limitRepl m ++ subLimitAux m F' (some hit.last) (hit.rem ++ v) from by
              have hctx' : limitMatchAt p (c :: (u' ++ v))
                  = some ⟨hit.value, hit.last, hit.rem ++ v⟩ := by
                rw [← List.cons_append]
                exact hctx
              simp [subLimitAux, hctx']]
            rw [show subLimitAux m (F₁'+1) p (c :: u')
                = limitRepl m ++ subLimitAux m F₁' (some hit.last) hit.rem from by
              simp [subLimitAux, hm]]
            simp only [List.length_append, List.length_cons] at hF hF₁ hu
            rw [ihN hit.rem (by omega) (some hit.last) F' F₁'
              (by simp [List.length_append]; omega) (by omega)]
            rw [List.append_assoc]

/-! ## Characters of the substituted text, and the semicolon check -/

lemma mem_subLimitAux {m : Nat} : ∀ (F : Nat) (p : Option Char) (s : Str) {c : Char},
    c ∈ subLimitAux m F p s → c ∈ s ∨ c ∈ limitRepl m := by
  intro F
  induction F with
  | zero =>
    intro p s c h
    exact Or.inl h
  | succ F' ih =>
    intro p s c h
    cases s with
    | nil =>
      rw [subLimitAux_nil] at h
      exact absurd h (List.not_mem_nil c)
    | cons d rest =>
      cases hm : limitMatchAt p (d :: rest) with
      | none =>
        rw [show subLimitAux m (F'+1) p (d :: rest)
            = d :: subLimitAux m F' (some d) rest from by simp [subLimitAux, hm]] at h
        rcases List.mem_cons.mp h with rfl | h2
        · exact Or.inl (List.mem_cons_self _ _)
        · rcases ih (some d) rest h2 with h3 | h3
          · exact Or.inl (List.mem_cons_of_mem d h3)
          · exact Or.inr h3
      | some hit =>
        rw [show subLimitAux m (F'+1) p (d :: rest)
            = limitRepl m ++ subLimitAux m F' (some hit.last) hit.rem from by
          simp [subLimitAux, hm]] at h
        rcases List.mem_append.mp h with h2 | h2
        · exact Or.inr h2
        · rcases ih (some hit.last) hit.rem h2 with h3 | h3
          · refine Or.inl ?_
            rw [limitMatchAt_rem hm] at h3
            exact mem_limitTail h3
          · exact Or.inr h3

lemma semi_notin_limitRepl (m : Nat) : ';' ∉ limitRepl m := by
  intro h
  rw [limitRepl] at h
  rcases List.mem_append.mp h with h1 | h1
  · revert h1
    decide
  · have := natDigits_all_digit m ';' h1
    revert this
    decide

lemma containsSub_semi_false {z : Str} (h : ';' ∉ z) : containsSub [';'] z = false := by
  cases hc : containsSub [';'] z
  · rfl
  · exact absurd ((containsSub_singleton_iff ';' z).mp hc) h

lemma dropWhile_all_nil {p : Char → Bool} {a : Str} (ha : ∀ c ∈ a, p c = true) :
    a.dropWhile p = [] := by
  have := dropWhile_append_all ha ([] : Str)
  simpa using this

lemma rstrip_all_nil {p : Char → Bool} {a : Str} (ha : ∀ c ∈ a, p c = true) :
    rstrip p a = [] := by
  rw [rstrip, dropWhile_all_nil (fun c hc => ha c (List.mem_reverse.mp hc))]
  rfl

lemma mem_dropWhile_sub {p : Char → Bool} {a : Str} {c : Char}
    (h : c ∈ a.dropWhile p) : c ∈ a := (List.dropWhile_sublist _).subset h

lemma semiCheck_false_of_shape {X R trail : Str}
    (hX : ';' ∉ X) (hR : ∀ c ∈ R, c = ';') (htr : ∀ c ∈ trail, isPySpace c = true) :
    containsSub [';']
      (rstrip (· == ';') (rstrip isPySpace (pyStrip (X ++ (R ++ trail))))) = false := by
  rw [rstrip_pyStrip]
  apply containsSub_semi_false
  intro hmem
  rw [pyStrip, lstrip, List.dropWhile_append] at hmem
  cases hX1 : (X.dropWhile isPySpace).isEmpty
  · rw [hX1, if_neg (show ¬(false = true) by decide)] at hmem
    cases hRR : R with
    | nil =>
      rw [hRR, List.nil_append] at hmem
      rw [rstrip_append_all htr _] at hmem
      have h1 := mem_rstrip hmem
      have h2 := mem_rstrip h1
      exact hX (mem_dropWhile_sub h2)
    | cons r R' =>
      rw [hRR] at hR hmem
      rw [show X.dropWhile isPySpace ++ ((r :: R') ++ trail)
          = (X.dropWhile isPySpace ++ (r :: R')) ++ trail from by
        simp [List.append_assoc]] at hmem
      rw [rstrip_append_all htr _] at hmem
      rw [show rstrip isPySpace (X.dropWhile isPySpace ++ (r :: R'))
          = X.dropWhile isPySpace ++ (r :: R') from rstrip_eq_self_of_getLast (by
        intro c hc
        rw [List.getLast?_append_of_ne_nil _ (by simp : (r :: R') ≠ [])] at hc
        rw [hR c (getLast?_mem_str hc)]
        decide)] at hmem
      rw [rstrip_append_all (fun c hc => by
        rw [hR c hc]
        decide) _] at hmem
      have h1 := mem_rstrip hmem
      exact hX (mem_dropWhile_sub h1)
  · rw [hX1, if_pos rfl] at hmem
    cases hRR : R with
    | nil =>
      rw [hRR, List.nil_append] at hmem
      rw [dropWhile_all_nil htr] at hmem
      rw [rstrip_all_nil (fun c hc => absurd hc (List.not_mem_nil c))] at hmem
      rw [rstrip_all_nil (fun c hc => absurd hc (List.not_mem_nil c))] at hmem
      exact absurd hmem (List.not_mem_nil ';')
    | cons r R' =>
      rw [hRR] at hR hmem
      rw [List.cons_append, List.dropWhile_cons] at hmem
      rw [show isPySpace r = false from by
          rw [hR r (List.mem_cons_self r R')]
          decide,
        if_neg (show ¬(false = true) by decide)] at hmem
      rw [show r :: (R' ++ trail) = (r :: R') ++ trail from rfl] at hmem
      rw [rstrip_append_all htr _] at hmem
      rw [show rstrip isPySpace (r :: R') = r :: R' from rstrip_eq_self_of_getLast (by
        intro c hc
        rw [hR c (getLast?_mem_str hc)]
        decide)] at hmem
      rw [rstrip_all_nil (fun c hc => by
        rw [hR c hc]
        decide)] at hmem
      exact absurd hmem (List.not_mem_nil ';')

/-! ## The trimmed text scans like the raw text -/

lemma pyStrip_decomp (s : Str) :
    ∃ lead trail : Str, s = lead ++ (pyStrip s ++ trail) ∧
      (∀ c ∈ lead, isPySpace c = true) ∧ (∀ c ∈ trail, isPySpace c = true) := by
  obtain ⟨tr, htr, htrall⟩ := rstrip_decomp isPySpace (lstrip isPySpace s)
  refine ⟨s.takeWhile isPySpace, tr, ?_, ?_, htrall⟩
  · rw [pyStrip]
    rw [← htr]
    rw [lstrip]
    rw [List.takeWhile_append_dropWhile]
  · intro c hc
    exact List.mem_takeWhile_imp hc

lemma rstrip_semi_decomp (u : Str) :
    ∃ R : Str, u = rstrip (· == ';') u ++ R ∧ ∀ c ∈ R, c = ';' := by
  obtain ⟨R, hu, hall⟩ := rstrip_decomp (· == ';') u
  exact ⟨R, hu, fun c hc => by
    have := hall c hc
    simpa using this⟩

lemma word_prefix_nonword_false {w : Str} {d : Char} (r : Str)
    (hwh : ∀ c, w.head? = some c → isWordChar c = true) (hwne : w ≠ [])
    (hd : isWordChar d = false) :
    w.isPrefixOf (lowerStr (d :: r)) = false := by
  cases w with
  | nil => exact absurd rfl hwne
  | cons wh wtl =>
    rw [lowerStr, List.map_cons]
    simp only [List.isPrefixOf]
    have hne : (wh == lowerChar d) = false := by
      apply beq_eq_false_iff_ne.mpr
      intro he
      have hld : isWordChar (lowerChar d) = false := by
        rw [isWordChar_lower]
        exact hd
      rw [← he] at hld
      rw [hwh wh rfl] at hld
      cases hld
    rw [hne]
    simp

lemma scanWord_space_lead {w : Str} (hwne : w ≠ [])
    (hw : ∀ c ∈ w, isWordChar c = true) :
    ∀ (lead : Str), (∀ c ∈ lead, isPySpace c = true) → ∀ (p : Option Char) (y : Str),
    containsWordAux w p (lead ++ y) = containsWordAux w (lastPrev p lead) y := by
  intro lead
  induction lead with
  | nil =>
    intro hall p y
    rw [lastPrev_nil, List.nil_append]
  | cons c lead' ih =>
    intro hall p y
    rw [List.cons_append]
    have hmatch : wordMatchAt w p (c :: (lead' ++ y)) = false :=
      wordMatchAt_false_of_prefix_false
        (word_prefix_nonword_false _ (fun d hd => hw d (List.mem_of_mem_head? hd)) hwne
          (space_not_word (hall c (List.mem_cons_self c lead'))))
    simp only [containsWordAux, hmatch, Bool.false_or]
    rw [lastPrev_cons]
    exact ih (fun d hd => hall d (List.mem_cons_of_mem c hd)) (some c) y

lemma scanWord_inert_tail {w : Str} (hwne : w ≠ []) (hw : ∀ c ∈ w, isWordChar c = true)
    {tr : Str} (htr : ∀ c ∈ tr, isPySpace c = true) :
    ∀ (a : Str) (p : Option Char), containsWordAux w p (a ++ tr) = containsWordAux w p a := by
  intro a
  induction a with
  | nil =>
    intro p
    rw [List.nil_append]
    rw [show (tr : Str) = tr ++ [] from by simp]
    rw [scanWord_space_lead hwne hw tr htr p []]
    rfl
  | cons c a' ih =>
    intro p
    rw [List.cons_append]
    have hctx := wordMatchAt_append_ctx hw
      (fun d hd => space_not_word (htr d (List.mem_of_mem_head? hd))) p (c :: a')
    rw [List.cons_append] at hctx
    show (wordMatchAt w p (c :: (a' ++ tr)) || containsWordAux w (some c) (a' ++ tr))
      = (wordMatchAt w p (c :: a') || containsWordAux w (some c) a')
    rw [hctx, ih (some c)]

lemma lastPrev_space_class {lead : Str} (hlead : ∀ c ∈ lead, isPySpace c = true)
    {p : Option Char} (hp : wordBoundaryOk p = true) :
    wordBoundaryOk (lastPrev p lead) = true := by
  unfold lastPrev
  cases hl : lead.getLast? with
  | none => exact hp
  | some c =>
    show (!isWordChar c) = true
    rw [space_not_word (hlead c (getLast?_mem_str hl))]
    rfl

lemma containsWord_pyStrip {w : Str} (hwne : w ≠ [])
    (hw : ∀ c ∈ w, isWordChar c = true) (u : Str) :
    containsWord w (pyStrip u) = containsWord w u := by
  obtain ⟨lead, trail, hu, hlead, htrail⟩ := pyStrip_decomp u
  rw [containsWord, containsWord]
  conv_rhs => rw [hu]
  rw [scanWord_space_lead hwne hw lead hlead none (pyStrip u ++ trail)]
  rw [scanWord_inert_tail hwne hw htrail (pyStrip u) _]
  rw [containsWordAux_prev_congr w
    (show wordBoundaryOk (none : Option Char)
        = wordBoundaryOk (lastPrev none lead) from by
      rw [lastPrev_space_class hlead
        (show wordBoundaryOk (none : Option Char) = true from rfl)]
      rfl) (pyStrip u)]

/-! ## Small step lemmas for the assembly -/

lemma limitMatchAt_none_of_head_nonword {p : Option Char} {c : Char} {r : Str}
    (h : isWordChar c = false) : limitMatchAt p (c :: r) = none := by
  cases hm : limitMatchAt p (c :: r) with
  | none => rfl
  | some hit =>
    rw [limitMatchAt_head_word hm] at h
    cases h

lemma limitMatchAt_none_of_not_prefix {p : Option Char} {s : Str}
    (h : ("limit").data.isPrefixOf (lowerStr s) = false) :
    limitMatchAt p s = none := by
  apply limitMatchAt_eq_none_of_form
  rw [h]
  simp

lemma limitMatchAt_none_of_prev_word {p : Option Char} {s : Str}
    (h : wordBoundaryOk p = false) : limitMatchAt p s = none := by
  apply limitMatchAt_eq_none_of_form
  rw [h]
  simp

lemma lastPrev_append (p : Option Char) (a b : Str) :
    lastPrev p (a ++ b) = lastPrev (lastPrev p a) b := by
  cases hb : b with
  | nil =>
    rw [List.append_nil, lastPrev_nil]
  | cons d b' =>
    unfold lastPrev
    rw [List.getLast?_append_of_ne_nil _ (by simp : d :: b' ≠ [])]
    cases hgl : (d :: b').getLast? with
    | none =>
      rw [List.getLast?_eq_none_iff] at hgl
      simp at hgl
    | some e => rfl

lemma findLimitAux_append_none : ∀ (x : Str) (p : Option Char) {y : Str},
    findLimitAux p (x ++ y) = none → findLimitAux (lastPrev p x) y = none := by
  intro x
  induction x with
  | nil =>
    intro p y h
    rw [lastPrev_nil]
    simpa using h
  | cons c x' ih =>
    intro p y h
    rw [List.cons_append] at h
    cases hm : limitMatchAt p (c :: (x' ++ y)) with
    | some hit => simp [findLimitAux, hm] at h
    | none =>
      rw [lastPrev_cons]
      apply ih (some c)
      simpa [findLimitAux, hm] using h

lemma findLimitAux_skip_front : ∀ (u : Str) (p : Option Char) {v : Str},
    (∀ x c y, u = x ++ c :: y → limitMatchAt (lastPrev p x) (c :: (y ++ v)) = none) →
    findLimitAux p (u ++ v) = findLimitAux (lastPrev p u) v := by
  intro u
  induction u with
  | nil =>
    intro p v h
    rw [lastPrev_nil, List.nil_append]
  | cons c u' ih =>
    intro p v h
    have hnone := h [] c u' rfl
    rw [lastPrev_nil] at hnone
    rw [List.cons_append]
    rw [show findLimitAux p (c :: (u' ++ v)) = findLimitAux (some c) (u' ++ v) from by
      simp [findLimitAux, hnone]]
    rw [lastPrev_cons]
    apply ih (some c)
    intro x d y hxy
    have hh := h (c :: x) d y (by rw [hxy, List.cons_append])
    rw [lastPrev_cons] at hh
    exact hh

lemma scanWord_ctx_transfer {w v₁ v₂ : Str} (hw : ∀ c ∈ w, isWordChar c = true)
    (h₁ : ∀ c, v₁.head? = some c → isWordChar c = false)
    (h₂ : ∀ c, v₂.head? = some c → isWordChar c = false) :
    ∀ (a : Str) (p : Option Char),
    containsWordAux w p (a ++ v₁) = false →
    containsWordAux w (lastPrev p a) v₂ = false →
    containsWordAux w p (a ++ v₂) = false := by
  intro a
  induction a with
  | nil =>
    intro p h1 h2
    rw [lastPrev_nil] at h2
    simpa using h2
  | cons c a' ih =>
    intro p h1 h2
    rw [List.cons_append] at h1 ⊢
    simp only [containsWordAux, Bool.or_eq_false_iff] at h1 ⊢
    rw [lastPrev_cons] at h2
    constructor
    · have hctx₁ := wordMatchAt_append_ctx hw h₁ p (c :: a')
      have hctx₂ := wordMatchAt_append_ctx hw h₂ p (c :: a')
      rw [List.cons_append] at hctx₁ hctx₂
      rw [hctx₂, ← hctx₁]
      exact h1.1
    · exact ih (some c) h1.2 h2

lemma scanAgg_space_lead : ∀ (lead : Str), (∀ c ∈ lead, isPySpace c = true) →
    ∀ (p : Option Char) (y : Str),
    hasAggAux p (lead ++ y) = hasAggAux (lastPrev p lead) y := by
  intro lead
  induction lead with
  | nil =>
    intro hall p y
    rw [lastPrev_nil, List.nil_append]
  | cons c lead' ih =>
    intro hall p y
    rw [List.cons_append]
    have hmatch : aggMatchAt p (c :: (lead' ++ y)) = false := by
      apply aggMatchAt_false_of_prefixes
      intro w hw
      obtain ⟨hwne, hwprops⟩ := agg_word_props w hw
      exact word_prefix_nonword_false _
        (fun d hd => (hwprops d (List.mem_of_mem_head? hd)).1) hwne
        (space_not_word (hall c (List.mem_cons_self c lead')))
    simp only [hasAggAux, hmatch, Bool.false_or]
    rw [lastPrev_cons]
    exact ih (fun d hd => hall d (List.mem_cons_of_mem c hd)) (some c) y

lemma scanAgg_ctx_transfer {v₁ v₂ : Str}
    (h₁ : ∀ c, v₁.head? = some c → isWordChar c = false)
    (h₂ : ∀ c, v₂.head? = some c → isWordChar c = false)
    (hp₁ : ∀ c, (v₁.dropWhile isPySpace).head? = some c → (c == '\x28') = false)
    (hp₂ : ∀ c, (v₂.dropWhile isPySpace).head? = some c → (c == '\x28') = false) :
    ∀ (a : Str) (p : Option Char),
    hasAggAux p (a ++ v₁) = false →
    hasAggAux (lastPrev p a) v₂ = false →
    hasAggAux p (a ++ v₂) = false := by
  intro a
  induction a with
  | nil =>
    intro p h1 h2
    rw [lastPrev_nil] at h2
    simpa using h2
  | cons c a' ih =>
    intro p h1 h2
    rw [List.cons_append] at h1 ⊢
    simp only [hasAggAux, Bool.or_eq_false_iff] at h1 ⊢
    rw [lastPrev_cons] at h2
    constructor
    · have hctx₁ := aggMatchAt_append_ctx h₁ hp₁ p (c :: a')
      have hctx₂ := aggMatchAt_append_ctx h₂ hp₂ p (c :: a')
      rw [List.cons_append] at hctx₁ hctx₂
      rw [hctx₂, ← hctx₁]
      exact h1.1
    · exact ih (some c) h1.2 h2

lemma rstrip_append_cases (p : Char → Bool) (a b : Str) :
    rstrip p (a ++ b) = a ++ rstrip p b ∨ rstrip p (a ++ b) = rstrip p a := by
  rw [rstrip, List.reverse_append, List.dropWhile_append]
  cases hb : (b.reverse.dropWhile p).isEmpty
  · left
    rw [if_neg (show ¬(false = true) by decide)]
    rw [List.reverse_append, List.reverse_reverse]
    rfl
  · right
    rw [if_pos rfl]
    rfl

lemma digit_not_semi {c : Char} (h : isDigitChar c = true) : c ≠ ';' := by
  intro hc
  rw [hc, isDigitChar_iff] at h
  revert h
  decide

lemma select_chars_word : ∀ c ∈ ("select").data, isWordChar c = true := by decide

/-! ## `is_select_only` in parts -/

lemma is_select_only_parts {q : Str} (h : is_select_only q = true) :
    ("select".data).isPrefixOf (lowerStr (pyStrip q)) = true ∧
    (∀ w ∈ FORBIDDEN, containsWord w (pyStrip q) = false) ∧
    containsSub [';'] (rstrip (· == ';') (rstrip isPySpace (pyStrip q))) = false := by
  cases hpre : ("select".data).isPrefixOf (lowerStr (pyStrip q))
  · rw [show is_select_only q = false from by simp [is_select_only, hpre]] at h
    cases h
  · cases hany : FORBIDDEN.any (fun w => containsWord w (pyStrip q))
    · cases hsemi : containsSub [';'] (rstrip (· == ';') (rstrip isPySpace (pyStrip q)))
      · refine ⟨rfl, ?_, rfl⟩
        intro w hw
        exact Bool.eq_false_iff.mpr (List.any_eq_false.mp hany w hw)
      · rw [show is_select_only q = false from by
          simp [is_select_only, hpre, hany, hsemi]] at h
        cases h
    · rw [show is_select_only q = false from by simp [is_select_only, hpre, hany]] at h
      cases h

lemma is_select_only_of_parts {q : Str}
    (h1 : ("select".data).isPrefixOf (lowerStr (pyStrip q)) = true)
    (h2 : ∀ w ∈ FORBIDDEN, containsWord w (pyStrip q) = false)
    (h3 : containsSub [';'] (rstrip (· == ';') (rstrip isPySpace (pyStrip q))) = false) :
    is_select_only q = true := by
  have h2' : FORBIDDEN.any (fun w => containsWord w (pyStrip q)) = false :=
    List.any_eq_false.mpr (fun w hw => by simp [h2 w hw])
  simp [is_select_only, h1, h2', h3]

lemma ensure_limit_eq_agg {q : Str} {d : Nat} (h : hasAgg q = true) :
    ensure_limit q d = q := by
  simp [ensure_limit, h]

lemma ensure_limit_eq_find {q : Str} {d n : Nat} (hagg : hasAgg q = false)
    (hf : findLimit q = some n) : ensure_limit q d = subLimitAll q (min n d) := by
  simp [ensure_limit, hagg, hf]

lemma ensure_limit_eq_append {q : Str} {d : Nat} (hagg : hasAgg q = false)
    (hf : findLimit q = none) :
    ensure_limit q d = rstrip (· == ';') (pyStrip q) ++ '\n' :: limitRepl d := by
  simp [ensure_limit, hagg, hf]

/-! ## The structure of a validated query -/

lemma select_take6_facts {q : Str}
    (hpre : ("select".data).isPrefixOf (lowerStr (pyStrip q)) = true) :
    ∃ S6 D6 : Str, pyStrip q = S6 ++ D6 ∧
      lowerStr S6 = ("select").data ∧
      (∀ c ∈ S6, isWordChar c = true) ∧ S6.length = 6 := by
  have hplen : 6 ≤ (pyStrip q).length := by
    have := (List.isPrefixOf_iff_prefix.mp hpre).length_le
    simpa [lowerStr] using this
  have hS6low : lowerStr ((pyStrip q).take 6) = ("select").data := by
    rw [lowerStr, List.map_take]
    have := isPrefixOf_take hpre
    rw [show ((("select").data).length : Nat) = 6 from rfl] at this
    exact this
  refine ⟨(pyStrip q).take 6, (pyStrip q).drop 6,
    (List.take_append_drop 6 _).symm, hS6low, ?_, by rw [List.length_take]; omega⟩
  intro c hc
  have hmm : lowerChar c ∈ lowerStr ((pyStrip q).take 6) := List.mem_map_of_mem _ hc
  rw [hS6low] at hmm
  have hwd := select_chars_word _ hmm
  rw [isWordChar_lower] at hwd
  exact hwd

lemma select_prefix_none {S6 : Str} (lead : Str)
    (hlead : ∀ c ∈ lead, isPySpace c = true)
    (hS6low : lowerStr S6 = ("select").data)
    (hS6word : ∀ c ∈ S6, isWordChar c = true)
    (hS6len : S6.length = 6)
    (v : Str) :
    ∀ x c y, lead ++ S6 = x ++ c :: y →
      limitMatchAt (lastPrev none x) (c :: (y ++ v)) = none := by
  intro x c y hxy
  have hhead6 : ∀ z : Str, c :: y = S6 →
      limitMatchAt (lastPrev none z) (c :: (y ++ v)) = none := by
    intro z hcy
    apply limitMatchAt_none_of_not_prefix
    cases htk : S6 with
    | nil =>
      rw [htk] at hS6len
      simp at hS6len
    | cons c₀ S6' =>
      rw [htk] at hcy
      have hc : c = c₀ := ((List.cons.injEq _ _ _ _).mp hcy).1
      have hc₀ : lowerChar c₀ = 's' := by
        rw [htk, lowerStr, List.map_cons] at hS6low
        exact ((List.cons.injEq _ _ _ _).mp hS6low).1
      rw [hc, lowerStr, List.map_cons, hc₀]
      rfl
  rcases List.append_eq_append_iff.mp hxy with ⟨l, hx, hl⟩ | ⟨l, hx, hl⟩
  · cases l with
    | nil =>
      rw [List.nil_append] at hl
      exact hhead6 x hl.symm
    | cons e l' =>
      apply limitMatchAt_none_of_prev_word
      rw [hx, lastPrev_append]
      rw [show lastPrev (lastPrev none lead) (e :: l')
          = some ((e :: l').getLastD '0') from by
        unfold lastPrev
        rw [getLast?_of_ne_nil (by simp : (e : Char) :: l' ≠ [])]]
      have hmem : (e :: l').getLastD '0' ∈ S6 := by
        rw [hl]
        exact List.mem_append_left _ (getLastD_mem _ (by simp) '0')
      show (!isWordChar ((e :: l').getLastD '0')) = false
      rw [hS6word _ hmem]
      rfl
  · cases l with
    | nil =>
      rw [List.nil_append] at hl
      rw [List.append_nil] at hx
      exact hhead6 x hl
    | cons e l' =>
      apply limitMatchAt_none_of_head_nonword
      have hce : c = e := ((List.cons.injEq _ _ _ _).mp hl).1
      have hmem : e ∈ lead := by
        rw [hx]
        exact List.mem_append_right _ (List.mem_cons_self _ _)
      rw [hce]
      exact space_not_word (hlead e hmem)

/-! ## The capped substitution preserves validation -/

lemma subLimitAll_scan (q : Str) (m : Nat) : LimScan m true q (subLimitAll q m) := by
  have h := limScan_of_subLimitAux m q.length q none (le_refl _)
  rw [show wordBoundaryOk (none : Option Char) = true from rfl] at h
  exact h

lemma subLimitAll_select_only {q : Str} (m : Nat) (hsel : is_select_only q = true) :
    is_select_only (subLimitAll q m) = true := by
  obtain ⟨hpre, hforb, hsemi⟩ := is_select_only_parts hsel
  have D := subLimitAll_scan q m
  obtain ⟨lead, trail, hq1, hlead, htrail⟩ := pyStrip_decomp q
  obtain ⟨R, hpq, hR⟩ := rstrip_semi_decomp (pyStrip q)
  have hCfree : ';' ∉ rstrip (· == ';') (pyStrip q) := by
    intro hmem
    rw [rstrip_pyStrip] at hsemi
    rw [(containsSub_singleton_iff ';' _).mpr hmem] at hsemi
    cases hsemi
  obtain ⟨S6, D6, hD6, hS6low, hS6word, hS6len⟩ := select_take6_facts hpre
  have hS6ne : S6 ≠ [] := by
    intro h
    rw [h] at hS6len
    simp at hS6len
  apply is_select_only_of_parts
  · -- the SELECT prefix survives
    have hq2 : q = (lead ++ S6) ++ (D6 ++ trail) := by
      rw [hq1, hD6]
      simp [List.append_assoc]
    have hout : subLimitAll q m
        = (lead ++ S6) ++
            subLimitAux m (((lead ++ S6) ++ (D6 ++ trail)).length - (lead ++ S6).length)
              (lastPrev none (lead ++ S6)) (D6 ++ trail) := by
      rw [show subLimitAll q m = subLimitAux m q.length none q from rfl]
      rw [hq2]
      exact subLimitAux_copy_front m (lead ++ S6) none (D6 ++ trail)
        ((lead ++ S6) ++ (D6 ++ trail)).length (le_refl _)
        (select_prefix_none lead hlead hS6low hS6word hS6len _)
    rw [hout]
    rw [pyStrip, lstrip]
    rw [show (lead ++ S6) ++
          subLimitAux m (((lead ++ S6) ++ (D6 ++ trail)).length - (lead ++ S6).length)
            (lastPrev none (lead ++ S6)) (D6 ++ trail)
        = lead ++ (S6 ++
            subLimitAux m (((lead ++ S6) ++ (D6 ++ trail)).length - (lead ++ S6).length)
              (lastPrev none (lead ++ S6)) (D6 ++ trail)) from by
      simp [List.append_assoc]]
    rw [dropWhile_append_of_head hlead (by
      intro c hc
      rw [head?_append_of_ne_nil _ hS6ne] at hc
      cases htk : S6 with
      | nil => exact absurd htk hS6ne
      | cons c₀ S6' =>
        rw [htk, List.head?_cons] at hc
        have hc' : c₀ = c := (Option.some.injEq _ _).mp hc
        rw [← hc']
        exact word_not_space (hS6word c₀ (by rw [htk]; exact List.mem_cons_self _ _)))]
    have hsel_pre : ∀ z : Str, ("select".data).isPrefixOf (lowerStr (S6 ++ z)) = true := by
      intro z
      rw [lowerStr_append, hS6low]
      rw [isPrefixOf_append_left (lowerStr z) (by decide)]
      decide
    rcases rstrip_append_cases isPySpace S6
        (subLimitAux m (((lead ++ S6) ++ (D6 ++ trail)).length - (lead ++ S6).length)
          (lastPrev none (lead ++ S6)) (D6 ++ trail)) with hcase | hcase
    · rw [hcase]
      exact hsel_pre _
    · rw [hcase]
      rw [rstrip_eq_self_of_getLast (by
        intro c hc
        exact word_not_space (hS6word c (getLast?_mem_str hc)))]
      have := hsel_pre ([] : Str)
      rw [List.append_nil] at this
      exact this
  · -- no forbidden word appears
    intro w hw
    obtain ⟨hwne, hwprops⟩ := forbidden_word_props w hw
    have hwword : ∀ c ∈ w, isWordChar c = true := fun c hc => (hwprops c hc).1
    rw [containsWord_pyStrip hwne hwword]
    have hq : containsWord w q = false := by
      rw [← containsWord_pyStrip hwne hwword]
      exact hforb w hw
    exact limScan_no_word hw D none none rfl rfl hq
  · -- the semicolon shape survives
    obtain ⟨C, hCdef⟩ : ∃ C, rstrip (· == ';') (pyStrip q) = C := ⟨_, rfl⟩
    rw [hCdef] at hpq hCfree
    have hq3 : q = (lead ++ C) ++ (R ++ trail) := by
      conv_lhs => rw [hq1, hpq]
      simp [List.append_assoc]
    have hvh : ∀ c, (R ++ trail).head? = some c → isWordChar c = false := by
      intro c hc
      cases hRR : R with
      | nil =>
        rw [hRR, List.nil_append] at hc
        exact space_not_word (htrail c (List.mem_of_mem_head? hc))
      | cons r R' =>
        rw [hRR, List.cons_append, List.head?_cons] at hc
        have hc' : r = c := (Option.some.injEq _ _).mp hc
        rw [← hc']
        rw [hR r (by rw [hRR]; exact List.mem_cons_self _ _)]
        decide
    have hv2 : ∀ c, ((R ++ trail).dropWhile isPySpace).head? = some c →
        isDigitChar c = false := by
      intro c hc
      cases hRR : R with
      | nil =>
        rw [hRR, List.nil_append, dropWhile_all_nil htrail] at hc
        cases hc
      | cons r R' =>
        rw [hRR, List.cons_append, List.dropWhile_cons,
          show isPySpace r = false from by
            rw [hR r (by rw [hRR]; exact List.mem_cons_self _ _)]
            decide,
          if_neg (show ¬(false = true) by decide), List.head?_cons] at hc
        have hc' : r = c := (Option.some.injEq _ _).mp hc
        rw [← hc']
        rw [hR r (by rw [hRR]; exact List.mem_cons_self _ _)]
        decide
    have hvno : ∀ x c y, R ++ trail = x ++ c :: y →
        ∀ p : Option Char, limitMatchAt p (c :: y) = none := by
      intro x c y hxy p
      have hcv : c ∈ R ++ trail := by
        rw [hxy]
        exact List.mem_append_right _ (List.mem_cons_self _ _)
      rcases List.mem_append.mp hcv with hcR | hcT
      · apply limitMatchAt_none_of_head_nonword
        rw [hR c hcR]
        decide
      · exact limitMatchAt_none_of_head_nonword (space_not_word (htrail c hcT))
    have hsplit : subLimitAll q m
        = subLimitAux m (lead ++ C).length none (lead ++ C) ++ (R ++ trail) := by
      rw [show subLimitAll q m = subLimitAux m q.length none q from rfl]
      rw [show subLimitAux m q.length none q
          = subLimitAux m q.length none ((lead ++ C) ++ (R ++ trail)) from by
        nth_rewrite 2 [hq3]
        rfl]
      exact subLimitAux_split m hvh hv2 hvno
        (lead ++ C).length _ (le_refl _) none
        q.length _ (by rw [← hq3]) (le_refl _)
    rw [hsplit]
    apply semiCheck_false_of_shape _ hR htrail
    intro hmem
    rcases mem_subLimitAux _ none _ hmem with h1 | h1
    · rcases List.mem_append.mp h1 with h2 | h2
      · have := hlead ';' h2
        revert this
        decide
      · exact hCfree h2
    · exact semi_notin_limitRepl m h1

/-! ## `ensure_limit` preserves validation and is idempotent, per branch -/

lemma ensure_limit_case1 {q : Str} (d : Nat) (hsel : is_select_only q = true)
    (hagg : hasAgg q = true) :
    is_select_only (ensure_limit q d) = true ∧
    ensure_limit (ensure_limit q d) d = ensure_limit q d := by
  rw [ensure_limit_eq_agg hagg]
  exact ⟨hsel, ensure_limit_eq_agg hagg⟩

lemma ensure_limit_case2 {q : Str} (d n : Nat) (hsel : is_select_only q = true)
    (hagg : hasAgg q = false) (hfind : findLimit q = some n) :
    is_select_only (ensure_limit q d) = true ∧
    ensure_limit (ensure_limit q d) d = ensure_limit q d := by
  rw [ensure_limit_eq_find hagg hfind]
  have D := subLimitAll_scan q (min n d)
  have hagg' : hasAgg (subLimitAll q (min n d)) = false :=
    limScan_no_agg D none none rfl rfl hagg
  have hfind' : findLimit (subLimitAll q (min n d)) = some (min n d) :=
    limScan_findLimit D none none rfl rfl n hfind
  refine ⟨subLimitAll_select_only (min n d) hsel, ?_⟩
  rw [ensure_limit_eq_find hagg' hfind']
  rw [show min (min n d) d = min n d from by omega]
  exact limScan_fixpoint D none rfl _ (le_refl _)

lemma subLimitAux_repl_only (d : Nat) {F : Nat} (p : Option Char)
    (hp : wordBoundaryOk p = true) (hF : 1 ≤ F) :
    subLimitAux d F p (limitRepl d) = limitRepl d := by
  cases F with
  | zero => omega
  | succ F' =>
    have hhead := @limitReplParse p [] d hp (fun c hc => Option.noConfusion hc)
    rw [List.append_nil] at hhead
    have hcons : limitRepl d = 'L':: 'I':: 'M':: 'I':: 'T':: ' '::natDigits d := by
      rw [show 'L':: 'I':: 'M':: 'I':: 'T':: ' '::natDigits d
          = 'L':: 'I':: 'M':: 'I':: 'T':: ' '::(natDigits d ++ []) from by rw [List.append_nil]]
      rw [← limitRepl_append_explicit, List.append_nil]
    rw [hcons] at hhead ⊢
    rw [show subLimitAux d (F'+1) p ('L':: 'I':: 'M':: 'I':: 'T':: ' '::natDigits d)
        = limitRepl d ++ subLimitAux d F' (some ((natDigits d).getLastD '0')) [] from by
      simp [subLimitAux, hhead]]
    rw [subLimitAux_nil, List.append_nil, hcons]

lemma lastPrev_class_congr {p₁ p₂ : Option Char}
    (h : wordBoundaryOk p₁ = wordBoundaryOk p₂) (x : Str) :
    wordBoundaryOk (lastPrev p₁ x) = wordBoundaryOk (lastPrev p₂ x) := by
  unfold lastPrev
  cases x.getLast? with
  | none => exact h
  | some c => rfl

lemma ensure_limit_case3 {q : Str} (d : Nat) (hsel : is_select_only q = true)
    (hagg : hasAgg q = false) (hfind : findLimit q = none) :
    is_select_only (ensure_limit q d) = true ∧
    ensure_limit (ensure_limit q d) d = ensure_limit q d := by
  rw [ensure_limit_eq_append hagg hfind]
  obtain ⟨hpre, hforb, hsemi⟩ := is_select_only_parts hsel
  obtain ⟨lead, trail, hq1, hlead, htrail⟩ := pyStrip_decomp q
  obtain ⟨R, hpq, hR⟩ := rstrip_semi_decomp (pyStrip q)
  have hCfree0 : ';' ∉ rstrip (· == ';') (pyStrip q) := by
    intro hmem
    rw [rstrip_pyStrip] at hsemi
    rw [(containsSub_singleton_iff ';' _).mpr hmem] at hsemi
    cases hsemi
  obtain ⟨S6, D6, hD6, hS6low, hS6word, hS6len⟩ := select_take6_facts hpre
  have hS6ne : S6 ≠ [] := by
    intro h
    rw [h] at hS6len
    simp at hS6len
  obtain ⟨C, hCdef⟩ : ∃ C, rstrip (· == ';') (pyStrip q) = C := ⟨_, rfl⟩
  rw [hCdef] at hpq hCfree0 ⊢
  -- the kept part C starts with the full SELECT keyword
  have hplen6 : 6 ≤ (pyStrip q).length := by
    rw [hD6, List.length_append, hS6len]
    omega
  have hC6 : 6 ≤ C.length := by
    by_contra hlt
    push_neg at hlt
    cases hRR : R with
    | nil =>
      rw [hRR, List.append_nil] at hpq
      rw [hpq] at hplen6
      omega
    | cons r R2 =>
      have h1 : (pyStrip q)[C.length]? = some r := by
        rw [hpq, hRR, List.getElem?_append_right (le_refl _), Nat.sub_self]
        simp
      have h2 : (pyStrip q)[C.length]? = S6[C.length]? := by
        rw [hD6]
        rw [List.getElem?_append_left (by rw [hS6len]; omega)]
      rw [h2] at h1
      have hw := hS6word r (mem_of_getElem_opt h1)
      rw [hR r (by rw [hRR]; exact List.mem_cons_self _ _)] at hw
      exact absurd hw (by decide)
  have hCC : ∃ CC, C = S6 ++ CC := by
    have he : C ++ R = S6 ++ D6 := by rw [← hpq, hD6]
    have ht6 := congrArg (List.take 6) he
    rw [List.take_append_eq_append_take, List.take_append_eq_append_take] at ht6
    rw [show (6 : Nat) - C.length = 0 from by omega] at ht6
    rw [show (6 : Nat) - S6.length = 0 from by rw [hS6len]] at ht6
    rw [List.take_zero, List.take_zero, List.append_nil, List.append_nil] at ht6
    rw [List.take_of_length_le (le_of_eq hS6len)] at ht6
    refine ⟨C.drop 6, ?_⟩
    conv_lhs => rw [← List.take_append_drop 6 C]
    rw [ht6]
  obtain ⟨CC, hCCe⟩ := hCC
  have hCne : C ≠ [] := by
    intro h
    rw [h] at hC6
    simp at hC6
  have hChead : ∀ c, C.head? = some c → isWordChar c = true := by
    intro c hc
    rw [hCCe, head?_append_of_ne_nil _ hS6ne] at hc
    exact hS6word c (List.mem_of_mem_head? hc)
  -- head shapes of the appended tail and of the residue R ++ trail
  have hconsd : limitRepl d = 'L':: 'I':: 'M':: 'I':: 'T':: ' '::natDigits d := by
    have h := limitRepl_append_explicit d []
    rw [List.append_nil, List.append_nil] at h
    exact h
  have hv₃h : ∀ c, ('\n' :: limitRepl d).head? = some c → isWordChar c = false := by
    intro c hc
    rw [List.head?_cons] at hc
    have hcc : '\n' = c := (Option.some.injEq _ _).mp hc
    rw [← hcc]
    decide
  have hv₃2 : ∀ c, (('\n' :: limitRepl d).dropWhile isPySpace).head? = some c →
      isDigitChar c = false := by
    intro c hc
    rw [List.dropWhile_cons,
      show isPySpace '\n' = true from by decide, if_pos rfl, hconsd,
      List.dropWhile_cons, show isPySpace 'L' = false from by decide,
      if_neg (show ¬(false = true) by decide), List.head?_cons] at hc
    have hcc : 'L' = c := (Option.some.injEq _ _).mp hc
    rw [← hcc]
    decide
  have hv₃p : ∀ c, (('\n' :: limitRepl d).dropWhile isPySpace).head? = some c →
      (c == '\x28') = false := by
    intro c hc
    rw [List.dropWhile_cons,
      show isPySpace '\n' = true from by decide, if_pos rfl, hconsd,
      List.dropWhile_cons, show isPySpace 'L' = false from by decide,
      if_neg (show ¬(false = true) by decide), List.head?_cons] at hc
    have hcc : 'L' = c := (Option.some.injEq _ _).mp hc
    rw [← hcc]
    decide
  have hRh : ∀ c, R.head? = some c → isWordChar c = false := by
    intro c hc
    rw [hR c (List.mem_of_mem_head? hc)]
    decide
  have hRTh : ∀ c, (R ++ trail).head? = some c → isWordChar c = false := by
    intro c hc
    cases hRR : R with
    | nil =>
      rw [hRR, List.nil_append] at hc
      exact space_not_word (htrail c (List.mem_of_mem_head? hc))
    | cons r R2 =>
      rw [hRR, List.cons_append, List.head?_cons] at hc
      have hcc : r = c := (Option.some.injEq _ _).mp hc
      rw [← hcc, hR r (by rw [hRR]; exact List.mem_cons_self _ _)]
      decide
  have hRT2 : ∀ c, ((R ++ trail).dropWhile isPySpace).head? = some c →
      isDigitChar c = false := by
    intro c hc
    cases hRR : R with
    | nil =>
      rw [hRR, List.nil_append, dropWhile_all_nil htrail] at hc
      cases hc
    | cons r R2 =>
      rw [hRR, List.cons_append, List.dropWhile_cons,
        show isPySpace r = false from by
          rw [hR r (by rw [hRR]; exact List.mem_cons_self _ _)]
          decide,
        if_neg (show ¬(false = true) by decide), List.head?_cons] at hc
      have hcc : r = c := (Option.some.injEq _ _).mp hc
      rw [← hcc, hR r (by rw [hRR]; exact List.mem_cons_self _ _)]
      decide
  have hRTp : ∀ c, ((R ++ trail).dropWhile isPySpace).head? = some c →
      (c == '\x28') = false := by
    intro c hc
    cases hRR : R with
    | nil =>
      rw [hRR, List.nil_append, dropWhile_all_nil htrail] at hc
      cases hc
    | cons r R2 =>
      rw [hRR, List.cons_append, List.dropWhile_cons,
        show isPySpace r = false from by
          rw [hR r (by rw [hRR]; exact List.mem_cons_self _ _)]
          decide,
        if_neg (show ¬(false = true) by decide), List.head?_cons] at hc
      have hcc : r = c := (Option.some.injEq _ _).mp hc
      rw [← hcc, hR r (by rw [hRR]; exact List.mem_cons_self _ _)]
      decide
  -- the output needs no trimming: word char in front, digit at the end
  have hvlast : ∀ c, (C ++ '\n' :: limitRepl d).getLast? = some c →
      isDigitChar c = true := by
    intro c hc
    rw [List.getLast?_append_of_ne_nil _ (by simp : ('\n' :: limitRepl d) ≠ [])] at hc
    rw [show '\n' :: limitRepl d = ('\n' :: ("LIMIT ").data) ++ natDigits d from rfl] at hc
    rw [List.getLast?_append_of_ne_nil _ (natDigits_ne_nil d)] at hc
    rw [getLast?_of_ne_nil (natDigits_ne_nil d)] at hc
    have hcc : (natDigits d).getLastD '0' = c := (Option.some.injEq _ _).mp hc
    rw [← hcc]
    exact natDigits_getLastD_digit d
  have hpyout : pyStrip (C ++ '\n' :: limitRepl d) = C ++ '\n' :: limitRepl d := by
    rw [pyStrip, lstrip]
    rw [dropWhile_eq_self_of_head (fun c hc => by
      rw [head?_append_of_ne_nil _ hCne] at hc
      exact word_not_space (hChead c hc))]
    exact rstrip_eq_self_of_getLast (fun c hc => digit_not_space (hvlast c hc))
  -- shape of the source around C
  have hq4 : q = lead ++ (C ++ (R ++ trail)) := by
    conv_lhs => rw [hq1, hpq]
    simp [List.append_assoc]
  -- the appended output has no aggregate
  have hA1 : hasAggAux (lastPrev none lead) (C ++ (R ++ trail)) = false := by
    have h : hasAggAux none q = false := hagg
    rw [hq4] at h
    rw [scanAgg_space_lead lead hlead none (C ++ (R ++ trail))] at h
    exact h
  have hA2 : hasAggAux (lastPrev (lastPrev none lead) C) ('\n' :: limitRepl d) = false := by
    show (aggMatchAt (lastPrev (lastPrev none lead) C) ('\n' :: limitRepl d)
      || hasAggAux (some '\n') (limitRepl d)) = false
    rw [Bool.or_eq_false_iff]
    refine ⟨aggMatchAt_false_of_prefixes (fun w hw => ?_), ?_⟩
    · obtain ⟨hwne, hwprops⟩ := agg_word_props w hw
      exact word_prefix_nonword_false _
        (fun c hc => (hwprops c (List.mem_of_mem_head? hc)).1) hwne (by decide)
    · rw [← List.append_nil (limitRepl d)]
      exact noAggScanRepl d (some '\n') (some '0') (by decide) rfl
  have hleadcls : wordBoundaryOk (lastPrev none lead)
      = wordBoundaryOk (none : Option Char) := by
    rw [lastPrev_space_class hlead (show wordBoundaryOk (none : Option Char) = true from rfl)]
    rfl
  have hagg_out : hasAgg (C ++ '\n' :: limitRepl d) = false := by
    have h := scanAgg_ctx_transfer hRTh hv₃h hRTp hv₃p C (lastPrev none lead) hA1 hA2
    rw [hasAggAux_prev_congr hleadcls (C ++ '\n' :: limitRepl d)] at h
    exact h
  -- each position of C still fails to match in front of the new tail
  have hCnone : ∀ x c y, C = x ++ c :: y →
      limitMatchAt (lastPrev none x) (c :: (y ++ '\n' :: limitRepl d)) = none := by
    intro x c y hxc
    have hq5 : q = (lead ++ x) ++ (c :: (y ++ (R ++ trail))) := by
      conv_lhs => rw [hq4]
      rw [hxc]
      simp [List.append_assoc]
    have h0 : findLimitAux none q = none := hfind
    rw [hq5] at h0
    have h1 := findLimitAux_none_split (lead ++ x) none h0
    rw [lastPrev_append] at h1
    rw [limitMatchAt_prev_congr (lastPrev_class_congr hleadcls x)] at h1
    have h2 : limitMatchAt (lastPrev none x) ((c :: y) ++ (R ++ trail)) = none := by
      rw [List.cons_append]
      exact h1
    have h3 : limitMatchAt (lastPrev none x) (c :: y) = none := by
      have h5 := limitMatchAt_append_ctx hRTh hRT2 (lastPrev none x) (c :: y)
      rw [h2] at h5
      cases h4 : limitMatchAt (lastPrev none x) (c :: y) with
      | none => rfl
      | some hit =>
        rw [h4] at h5
        simp at h5
    rw [show c :: (y ++ '\n' :: limitRepl d)
        = (c :: y) ++ ('\n' :: limitRepl d) from rfl]
    rw [limitMatchAt_append_ctx hv₃h hv₃2 (lastPrev none x) (c :: y), h3]
  have hfind_out : findLimit (C ++ '\n' :: limitRepl d) = some d := by
    show findLimitAux none (C ++ '\n' :: limitRepl d) = some d
    rw [findLimitAux_skip_front C none hCnone]
    rw [show findLimitAux (lastPrev none C) ('\n' :: limitRepl d)
        = findLimitAux (some '\n') (limitRepl d) from by
      simp [findLimitAux,
        limitMatchAt_none_of_head_nonword (show isWordChar '\n' = false from by decide)]]
    rw [← List.append_nil (limitRepl d)]
    exact findLimitAux_repl_head (by decide) (fun c hc => Option.noConfusion hc)
  refine ⟨is_select_only_of_parts ?_ ?_ ?_, ?_⟩
  · -- the SELECT prefix survives
    rw [hpyout, hCCe, List.append_assoc, lowerStr_append, hS6low]
    rw [isPrefixOf_append_left _ (by decide)]
    decide
  · -- no forbidden word appears in the output
    intro w hw
    obtain ⟨hwne, hwprops⟩ := forbidden_word_props w hw
    have hwword : ∀ c ∈ w, isWordChar c = true := fun c hc => (hwprops c hc).1
    rw [hpyout]
    have h1 : containsWordAux w none (C ++ R) = false := by
      have h := hforb w hw
      rw [hpq] at h
      exact h
    have h2 : containsWordAux w (lastPrev none C) ('\n' :: limitRepl d) = false := by
      show (wordMatchAt w (lastPrev none C) ('\n' :: limitRepl d)
        || containsWordAux w (some '\n') (limitRepl d)) = false
      rw [Bool.or_eq_false_iff]
      refine ⟨wordMatchAt_false_of_prefix_false (word_prefix_nonword_false _
        (fun c hc => (hwprops c (List.mem_of_mem_head? hc)).1) hwne (by decide)), ?_⟩
      rw [← List.append_nil (limitRepl d)]
      exact noWordScanRepl hw d (some '\n') (some '0') (by decide) rfl
    exact scanWord_ctx_transfer hwword hRh hv₃h C none h1 h2
  · -- the semicolon shape survives
    rw [rstrip_pyStrip, hpyout]
    rw [rstrip_eq_self_of_getLast (fun c hc =>
      beq_eq_false_iff_ne.mpr (digit_not_semi (hvlast c hc)))]
    apply containsSub_semi_false
    intro hmem
    rcases List.mem_append.mp hmem with h | h
    · exact hCfree0 h
    · rcases List.mem_cons.mp h with he | hm
      · exact absurd he (by decide)
      · exact semi_notin_limitRepl d hm
  · -- a second pass finds LIMIT d and the substitution is the identity
    rw [ensure_limit_eq_find hagg_out hfind_out, Nat.min_self]
    show subLimitAux d (C ++ '\n' :: limitRepl d).length none (C ++ '\n' :: limitRepl d)
      = C ++ '\n' :: limitRepl d
    rw [show C ++ '\n' :: limitRepl d = (C ++ ['\n']) ++ limitRepl d from by
      rw [List.append_assoc]
      rfl]
    have hsplits : ∀ x c y, C ++ ['\n'] = x ++ c :: y →
        limitMatchAt (lastPrev none x) (c :: (y ++ limitRepl d)) = none := by
      intro x c y hxy
      rcases List.append_eq_append_iff.mp hxy with ⟨l, hx, hl⟩ | ⟨l, hx, hl⟩
      · cases l with
        | nil =>
          rw [List.nil_append] at hl
          have hcc : '\n' = c := ((List.cons.injEq _ _ _ _).mp hl).1
          apply limitMatchAt_none_of_head_nonword
          rw [← hcc]
          decide
        | cons e l2 =>
          exfalso
          have hlen := congrArg List.length hl
          simp [List.length_append] at hlen
      · cases l with
        | nil =>
          rw [List.append_nil] at hx
          rw [List.nil_append] at hl
          have hcc : c = '\n' := ((List.cons.injEq _ _ _ _).mp hl).1
          apply limitMatchAt_none_of_head_nonword
          rw [hcc]
          decide
        | cons e l2 =>
          have hce : c = e := ((List.cons.injEq _ _ _ _).mp hl).1
          have hyl : y = l2 ++ ['\n'] := ((List.cons.injEq _ _ _ _).mp hl).2
          have hCx : C = x ++ c :: l2 := by rw [hx, hce]
          have h := hCnone x c l2 hCx
          rw [show c :: (y ++ limitRepl d)
              = c :: (l2 ++ ('\n' :: limitRepl d)) from by
            rw [hyl, List.append_assoc]
            rfl]
          exact h
    rw [subLimitAux_copy_front d (C ++ ['\n']) none (limitRepl d)
      ((C ++ ['\n']) ++ limitRepl d).length (le_refl _) hsplits]
    rw [show lastPrev none (C ++ ['\n']) = some '\n' from by
      rw [lastPrev_append]
      rfl]
    have hF1 : 1 ≤ ((C ++ ['\n']) ++ limitRepl d).length - (C ++ ['\n']).length := by
      have h6 : (("LIMIT ").data).length = 6 := rfl
      have hlr : 1 ≤ (limitRepl d).length := by
        rw [limitRepl, List.length_append, h6]
        omega
      rw [List.length_append]
      omega
    rw [subLimitAux_repl_only d (some '\n') (by decide) hF1]

/-- **C5 counterexample.** The pipeline is not idempotent on every accepted
input: `SQLQuery: select abcSQLQuery:x from t` is accepted and normalized by
appending `LIMIT 200`, but re-running the pipeline on that output re-extracts
from the second `SQLQuery:` marker (inside a word), the remainder no longer
begins with SELECT, and validation fails instead of reproducing the output. -/
theorem pipeline_not_idempotent :
    validate_and_normalize 200 (("SQLQuery: select abcSQLQuery:x from t").data)
        = some (("select abcSQLQuery:x from t\nLIMIT 200").data) ∧
    validate_and_normalize 200 (("select abcSQLQuery:x from t\nLIMIT 200").data)
        = none := by
  refine ⟨by decide, by decide⟩

/-- **C5 (amended).** The pipeline is a pure function (determinism is
immediate), and it is idempotent on every accepted input whose output the
extraction step maps to itself: if `validate_and_normalize d raw = some out`
and `extract_sql out = out`, then `validate_and_normalize d out = some out`.
The side condition is what the counterexample forces: it fails only when the
already-extracted output still contains an extraction marker. -/
theorem validate_and_normalize_idempotent (d : Nat) (raw out : Str)
    (h : validate_and_normalize d raw = some out)
    (hex : extract_sql out = out) :
    validate_and_normalize d out = some out := by
  have h2 : (if is_select_only (extract_sql raw)
      then some (ensure_limit (extract_sql raw) d) else none) = some out := h
  cases hs : is_select_only (extract_sql raw) with
  | false =>
    rw [hs] at h2
    simp at h2
  | true =>
    rw [hs, if_pos rfl] at h2
    have hout : ensure_limit (extract_sql raw) d = out := (Option.some.injEq _ _).mp h2
    have hkey : is_select_only (ensure_limit (extract_sql raw) d) = true ∧
        ensure_limit (ensure_limit (extract_sql raw) d) d
          = ensure_limit (extract_sql raw) d := by
      cases hagg : hasAgg (extract_sql raw) with
      | true => exact ensure_limit_case1 d hs hagg
      | false =>
        cases hfind : findLimit (extract_sql raw) with
        | some n => exact ensure_limit_case2 d n hs hagg hfind
        | none => exact ensure_limit_case3 d hs hagg hfind
    rw [hout] at hkey
    show (if is_select_only (extract_sql out)
      then some (ensure_limit (extract_sql out) d) else none) = some out
    rw [hex, hkey.1, if_pos rfl, hkey.2]

/-- Witness for C5 (amended): `select * from t` with default 200 normalizes
to `select * from t` + newline + `LIMIT 200`; extraction is the identity on
that output, and re-validating it reproduces it. -/
theorem validate_and_normalize_idempotent_witness :
    validate_and_normalize 200 (("select * from t").data)
        = some (("select * from t\nLIMIT 200").data) ∧
    extract_sql (("select * from t\nLIMIT 200").data)
        = ("select * from t\nLIMIT 200").data ∧
    validate_and_normalize 200 (("select * from t\nLIMIT 200").data)
        = some (("select * from t\nLIMIT 200").data) :=
  ⟨by decide, by decide,
    validate_and_normalize_idempotent 200 (("select * from t").data)
      (("select * from t\nLIMIT 200").data) (by decide) (by decide)⟩

end ARnext
